import Mathlib

/-!
Shallow embedding of the SBT registry core (`contracts/registry/src/registry.rs`)
of the i-am-human repository, together with proofs about its claims.

Modelling conventions:
* `AccountId` is an opaque, totally ordered identity: a one-field structure
  over `Nat` (NEAR account ids are strings with the total lexicographic
  order; nothing in the ledger core depends on anything but decidable
  equality and that total order, and a `Nat`-backed identity keeps every
  definition kernel-computable). `Nat`, `Nat`, `Nat` are `Nat`
  (the `u32`/`u64` values involved in the claims stay far from the
  wrap-around range, and on-chain arithmetic is compiled with overflow
  checks, so an overflow is a panic, which we model as `Option.none` like
  every other panic).
* NEAR collections (`UnorderedMap`, `LookupMap`, `TreeMap`) are association
  lists; `TreeMap` (the balance index) is an association list kept sorted by
  the lexicographic key order, so that `iter_from` is a filter.
* A function that can panic (`require!`, `unwrap`, checked arithmetic) returns
  `Option`; `none` is the panic/abort outcome, in which case no state change
  persists (NEAR reverts the transaction).
-/

/-- Opaque ordered account identity (stand-in for NEAR `AccountId`). -/
structure AccountId where
  id : Nat
deriving DecidableEq, Repr

theorem AccountId.id_eq {a b : AccountId} (h : a.id = b.id) : a = b := by
  cases a
  cases b
  simpa using h

instance : LinearOrder AccountId where
  le a b := a.id ≤ b.id
  lt a b := a.id < b.id
  le_refl a := Nat.le_refl _
  le_trans a b c h1 h2 := Nat.le_trans h1 h2
  le_antisymm a b h1 h2 := AccountId.id_eq (Nat.le_antisymm h1 h2)
  le_total a b := Nat.le_total _ _
  lt_iff_le_not_le a b := Nat.lt_iff_le_not_le
  decidableLE a b := Nat.decLe a.id b.id
  decidableLT a b := Nat.decLt a.id b.id
  decidableEq := inferInstance

/-- Shorthand for concrete account ids in example states. -/
def acct (n : Nat) : AccountId := { id := n }

/- Issuer ids, token ids and class ids (`Nat`, `Nat`, `Nat`,
`u32`/`u64` in the source) are written as plain `Nat` below. -/

/-- Maximum/default query limit (`const MAX_LIMIT: u32 = 1000`). -/
def MAX_LIMIT : Nat := 1000

/-- Token metadata (`TokenMetadata` v1): class, issue time, optional expiry,
optional reference data. -/
structure TokenMetadata where
  class_id : Nat
  issued_at : Option Nat
  expires_at : Option Nat
  reference : Option String
  reference_hash : Option String
deriving DecidableEq, Repr

/-- Stored token record: owner plus metadata (`TokenData`). -/
structure TokenData where
  owner : AccountId
  metadata : TokenMetadata
deriving DecidableEq, Repr

/-- Token as returned by queries (`Token`): id, owner, metadata. -/
structure Token where
  token : Nat
  owner : AccountId
  metadata : TokenMetadata
deriving DecidableEq, Repr

/-- Token as returned by owner-scoped queries (`OwnedToken`). -/
structure OwnedToken where
  token : Nat
  metadata : TokenMetadata
deriving DecidableEq, Repr

/-- `TokenData::to_token`. -/
def TokenData.to_token (td : TokenData) (token : Nat) : Token :=
  { token := token, owner := td.owner, metadata := td.metadata }

/-- Key of the balance index (`BalanceKey`), ordered lexicographically by
`(issuer_id, owner, class_id)`. -/
structure BalanceKey where
  issuer_id : Nat
  owner : AccountId
  class_id : Nat
deriving DecidableEq, Repr

/-- Key of the token store (`IssuerTokenId`). -/
structure IssuerTokenId where
  issuer_id : Nat
  token : Nat
deriving DecidableEq, Repr

/-- `balance_key` helper: build a `BalanceKey`. -/
def balance_key (owner : AccountId) (issuer_id : Nat) (class_id : Nat) :
    BalanceKey :=
  { issuer_id := issuer_id, owner := owner, class_id := class_id }

/-! ### Association-list maps (model of `LookupMap`/`UnorderedMap`) -/

/-- Lookup in an association list (first matching key). -/
def alookup {α β : Type} [DecidableEq α] : List (α × β) → α → Option β
  | [], _ => none
  | (a, b) :: rest, k => if k = a then some b else alookup rest k

/-- Insert/overwrite a key in an association list. -/
def ainsert {α β : Type} [DecidableEq α] : List (α × β) → α → β → List (α × β)
  | [], k, v => [(k, v)]
  | (a, b) :: rest, k, v =>
    if k = a then (k, v) :: rest else (a, b) :: ainsert rest k v

/-- Remove a key from an association list. -/
def aremove {α β : Type} [DecidableEq α] : List (α × β) → α → List (α × β)
  | [], _ => []
  | (a, b) :: rest, k => if k = a then rest else (a, b) :: aremove rest k

/-- Lookup with default (`get(..).unwrap_or(d)`). -/
def alookupD {α β : Type} [DecidableEq α] (l : List (α × β)) (k : α) (d : β) : β :=
  (alookup l k).getD d

/-! ### The ordered balance index (model of `TreeMap<BalanceKey, Nat>`) -/

/-- Strict lexicographic order on balance keys. -/
def bkLT (a b : BalanceKey) : Prop :=
  a.issuer_id < b.issuer_id ∨
    (a.issuer_id = b.issuer_id ∧
      (a.owner < b.owner ∨ (a.owner = b.owner ∧ a.class_id < b.class_id)))

instance : DecidablePred (fun p : BalanceKey × BalanceKey => bkLT p.1 p.2) :=
  fun _ => by unfold bkLT; infer_instance

instance bkLTDec (a b : BalanceKey) : Decidable (bkLT a b) := by
  unfold bkLT; infer_instance

/-- The balance index is an association list sorted strictly by `bkLT`. -/
def bsorted (l : List (BalanceKey × Nat)) : Prop :=
  List.Pairwise (fun p q : BalanceKey × Nat => bkLT p.1 q.1) l

/-- Sorted insertion into the balance index (`TreeMap::insert`). -/
def binsert : List (BalanceKey × Nat) → BalanceKey → Nat →
    List (BalanceKey × Nat)
  | [], k, v => [(k, v)]
  | (a, b) :: rest, k, v =>
    if bkLT k a then (k, v) :: (a, b) :: rest
    else if k = a then (k, v) :: rest
    else (a, b) :: binsert rest k v

/-- `TreeMap::iter_from(k)`: all entries with key strictly greater than `k`,
in order (on a sorted list this is a filter). -/
def iter_from (l : List (BalanceKey × Nat)) (k : BalanceKey) :
    List (BalanceKey × Nat) :=
  l.filter (fun p => decide (bkLT k p.1))

/-! ### Contract state

Field layout from `migrate.rs` (`OldState`/`Contract`); the fields the ledger
core never touches (`authority`, `iah_sbts`) are omitted. -/

structure Contract where
  sbt_issuers : List (AccountId × Nat)
  issuer_id_map : List (Nat × AccountId)
  banlist : List AccountId
  supply_by_owner : List ((AccountId × Nat) × Nat)
  supply_by_class : List ((Nat × Nat) × Nat)
  supply_by_issuer : List (Nat × Nat)
  balances : List (BalanceKey × Nat)
  issuer_tokens : List (IssuerTokenId × TokenData)
  next_token_ids : List (Nat × Nat)
  next_issuer_id : Nat
  ongoing_soul_tx : List (AccountId × IssuerTokenId)
deriving DecidableEq, Repr

/-- The empty ledger (fresh contract, no issuers registered yet; issuer ids
start at 1). -/
def emptyContract : Contract :=
  { sbt_issuers := [], issuer_id_map := [], banlist := [],
    supply_by_owner := [], supply_by_class := [], supply_by_issuer := [],
    balances := [], issuer_tokens := [], next_token_ids := [],
    next_issuer_id := 1, ongoing_soul_tx := [] }

/-- `Contract::get_token` looks a token up and panics when it is absent;
we return the `Option` and let callers propagate the panic. -/
def get_token (c : Contract) (issuer_id : Nat) (token : Nat) :
    Option TokenData :=
  alookup c.issuer_tokens { issuer_id := issuer_id, token := token }

/-- `Contract::assert_issuer`: the issuer id, `none` = `UnknownIssuer` panic. -/
def assert_issuer (c : Contract) (issuer : AccountId) : Option Nat :=
  alookup c.sbt_issuers issuer

/-- `Contract::issuer_by_id`, panics when the reverse mapping is absent. -/
def issuer_by_id (c : Contract) (id : Nat) : Option AccountId :=
  alookup c.issuer_id_map id

/-- `is_banned` query. -/
def is_banned (c : Contract) (account : AccountId) : Bool :=
  c.banlist.contains account

/-! ### Queries (`registry.rs`) -/

/-- `sbt`: the token, `none` (outer) = `UnknownIssuer` panic;
inner `Option` is the Rust return value. -/
def sbt (c : Contract) (issuer : AccountId) (token : Nat) :
    Option (Option Token) :=
  match assert_issuer c issuer with
  | none => none
  | some issuer_id =>
    some ((alookup c.issuer_tokens { issuer_id := issuer_id, token := token }).map
      (fun td => td.to_token token))

/-- `sbts`: token info per id; `none` = `UnknownIssuer` panic. -/
def sbts (c : Contract) (issuer : AccountId) (tokens : List Nat) :
    Option (List (Option Token)) :=
  match assert_issuer c issuer with
  | none => none
  | some issuer_id =>
    some (tokens.map (fun token =>
      (alookup c.issuer_tokens { issuer_id := issuer_id, token := token }).map
        (fun td => td.to_token token)))

/-- `sbt_classes`: class per token id; `none` = `UnknownIssuer` panic. -/
def sbt_classes (c : Contract) (issuer : AccountId) (tokens : List Nat) :
    Option (List (Option Nat)) :=
  match assert_issuer c issuer with
  | none => none
  | some issuer_id =>
    some (tokens.map (fun token =>
      (alookup c.issuer_tokens { issuer_id := issuer_id, token := token }).map
        (fun td => td.metadata.class_id)))

/-- `sbt_supply`: total minted by the issuer; 0 when the issuer is not
registered (early return, no panic). -/
def sbt_supply (c : Contract) (issuer : AccountId) : Nat :=
  match alookup c.sbt_issuers issuer with
  | none => 0
  | some issuer_id => alookupD c.supply_by_issuer issuer_id 0

/-- `sbt_supply_by_class`; 0 when the issuer is not registered. -/
def sbt_supply_by_class (c : Contract) (issuer : AccountId) (cls : Nat) :
    Nat :=
  match alookup c.sbt_issuers issuer with
  | none => 0
  | some issuer_id => alookupD c.supply_by_class (issuer_id, cls) 0

/-- `sbt_supply_by_owner`; the ongoing-recovery guard forces 0 before
anything else is consulted; with a class the balance index is consulted
(0 or 1), otherwise the per-owner counter. -/
def sbt_supply_by_owner (c : Contract) (account : AccountId)
    (issuer : AccountId) (cls : Option Nat) : Nat :=
  if (alookup c.ongoing_soul_tx account).isSome then 0
  else
    match alookup c.sbt_issuers issuer with
    | none => 0
    | some issuer_id =>
      match cls with
      | some class_id =>
        if (alookup c.balances (balance_key account issuer_id class_id)).isSome
        then 1 else 0
      | none => alookupD c.supply_by_owner (account, issuer_id) 0

/-- `sbt_tokens`: sequential scan of token ids in
`[from_token, min(max_id+1, from_token+limit))`; `none` = `require!` panic;
unregistered issuer returns the empty list before any check. -/
def sbt_tokens (c : Contract) (issuer : AccountId) (from_token : Option Nat)
    (limit : Option Nat) (with_expired : Option Bool) (now : Nat) :
    Option (List Token) :=
  match alookup c.sbt_issuers issuer with
  | none => some []
  | some issuer_id =>
    let from_token := from_token.getD 1
    if from_token = 0 then none
    else
      let limit := limit.getD MAX_LIMIT
      if limit = 0 then none
      else
        let max_id0 := alookupD c.next_token_ids issuer_id 0
        if max_id0 < from_token then some []
        else
          let max_id := min (max_id0 + 1) (from_token + limit)
          let non_expired := !(with_expired.getD false)
          some ((List.range' from_token (max_id - from_token)).filterMap
            (fun token =>
              match alookup c.issuer_tokens { issuer_id := issuer_id, token := token } with
              | none => none
              | some t =>
                if non_expired ∧ t.metadata.expires_at.getD now < now then none
                else some (t.to_token token)))

/-- The scan loop of `sbt_tokens_by_owner`: walks the balance-index iterator,
grouping by issuer; returns the accumulated groups, the open group and its
issuer id. `none` = panic (missing token row or reverse issuer mapping). -/
def tbLoop (c : Contract) (account : AccountId) (issuer_id : Nat)
    (now : Nat) (we : Bool) :
    List (BalanceKey × Nat) → List (AccountId × List OwnedToken) →
    List OwnedToken → Nat → Nat →
    Option (List (AccountId × List OwnedToken) × List OwnedToken × Nat)
  | [], resp, tokens, prev, _ => some (resp, tokens, prev)
  | (key, token_id) :: rest, resp, tokens, prev, limit =>
    if key.owner ≠ account then some (resp, tokens, prev)
    else if prev ≠ key.issuer_id ∧ issuer_id ≠ 0 then some (resp, tokens, prev)
    else
      let step : Option (List (AccountId × List OwnedToken) × List OwnedToken × Nat) :=
        if prev ≠ key.issuer_id then
          if tokens ≠ [] then
            match alookup c.issuer_id_map prev with
            | none => none
            | some a => some (resp ++ [(a, tokens)], [], key.issuer_id)
          else some (resp, tokens, key.issuer_id)
        else some (resp, tokens, prev)
      match step with
      | none => none
      | some (resp, tokens, prev) =>
        match alookup c.issuer_tokens { issuer_id := key.issuer_id, token := token_id } with
        | none => none
        | some t =>
          if ¬ we ∧ t.metadata.expires_at.getD now < now then
            tbLoop c account issuer_id now we rest resp tokens prev limit
          else
            let tokens := tokens ++ [{ token := token_id, metadata := t.metadata }]
            if limit - 1 = 0 then some (resp, tokens, prev)
            else tbLoop c account issuer_id now we rest resp tokens prev (limit - 1)

/-- `sbt_tokens_by_owner`: ordered scan of the balance index from one key
before `(issuer_id, account, from_class)`, grouped by issuer.
`none` = panic (`require!` failures, missing rows). -/
def sbt_tokens_by_owner (c : Contract) (account : AccountId)
    (issuer : Option AccountId) (from_class : Option Nat)
    (limit : Option Nat) (with_expired : Option Bool) (now : Nat) :
    Option (List (AccountId × List OwnedToken)) :=
  if from_class.isSome ∧ issuer.isNone then none
  else if (alookup c.ongoing_soul_tx account).isSome then some []
  else
    match (match issuer with
           | none => some 0
           | some addr => assert_issuer c addr) with
    | none => none
    | some issuer_id =>
      let from_class := from_class.getD 0
      let first_key := balance_key account issuer_id (from_class - 1)
      let we := with_expired.getD false
      let limit := limit.getD MAX_LIMIT
      if limit = 0 then none
      else
        match tbLoop c account issuer_id now we (iter_from c.balances first_key)
            [] [] issuer_id limit with
        | none => none
        | some (resp, tokens, prev) =>
          if prev ≠ 0 ∧ tokens ≠ [] then
            match alookup c.issuer_id_map prev with
            | none => none
            | some a => some (resp ++ [(a, tokens)])
          else some resp

/-! ### Mutations (`registry.rs`) -/

/-- `HashMap::entry(k).and_modify(|v| v += 1).or_insert(1)` on an
association list. -/
def bump {α : Type} [DecidableEq α] : List (α × Nat) → α → List (α × Nat)
  | [], k => [(k, 1)]
  | (a, n) :: rest, k =>
    if k = a then (a, n + 1) :: rest else (a, n) :: bump rest k

/-- First pass of `sbt_revoke(burn=true)`: per token, look it up (panic when
absent), drop its balance-index entry and its token-store row, and tally the
removal per class and per owner. -/
def revokeBurnLoop (issuer_id : Nat) :
    List Nat → Contract → List (Nat × Nat) → List (AccountId × Nat) →
    Option (Contract × List (Nat × Nat) × List (AccountId × Nat))
  | [], c, rpc, rpo => some (c, rpc, rpo)
  | token :: rest, c, rpc, rpo =>
    match get_token c issuer_id token with
    | none => none
    | some token_object =>
      let owner := token_object.owner
      let class_id := token_object.metadata.class_id
      let c2 := { c with
        balances := aremove c.balances (balance_key owner issuer_id class_id),
        issuer_tokens :=
          aremove c.issuer_tokens { issuer_id := issuer_id, token := token } }
      revokeBurnLoop issuer_id rest c2 (bump rpc class_id) (bump rpo owner)

/-- Second pass of the burn: per-owner counter decrements.
`none` = `.unwrap()` panic (no counter) or `u64` underflow panic. -/
def applyOwnerDecs (issuer_id : Nat) :
    List (AccountId × Nat) → Contract → Option Contract
  | [], c => some c
  | (owner_id, n) :: rest, c =>
    match alookup c.supply_by_owner (owner_id, issuer_id) with
    | none => none
    | some old =>
      if old < n then none
      else applyOwnerDecs issuer_id rest
        { c with supply_by_owner :=
            ainsert c.supply_by_owner (owner_id, issuer_id) (old - n) }

/-- Second pass of the burn: per-class counter decrements. -/
def applyClassDecs (issuer_id : Nat) :
    List (Nat × Nat) → Contract → Option Contract
  | [], c => some c
  | (class_id, n) :: rest, c =>
    match alookup c.supply_by_class (issuer_id, class_id) with
    | none => none
    | some old =>
      if old < n then none
      else applyClassDecs issuer_id rest
        { c with supply_by_class :=
            ainsert c.supply_by_class (issuer_id, class_id) (old - n) }

/-- Soft-revoke loop of `sbt_revoke(burn=false)`: rewrite each token's
metadata with `expires_at = now` (owner and other fields preserved). -/
def revokeSoftLoop (issuer_id : Nat) (now : Nat) :
    List Nat → Contract → Option Contract
  | [], c => some c
  | token :: rest, c =>
    match get_token c issuer_id token with
    | none => none
    | some t =>
      let t2 : TokenData :=
        { owner := t.owner, metadata := { t.metadata with expires_at := some now } }
      revokeSoftLoop issuer_id now rest
        { c with issuer_tokens :=
            ainsert c.issuer_tokens { issuer_id := issuer_id, token := token } t2 }

/-- `sbt_revoke(tokens, burn)`, called by `issuer` at timestamp `now`.
`none` = panic (unknown issuer, missing token, missing counter, underflow). -/
def sbt_revoke (c : Contract) (issuer : AccountId) (tokens : List Nat)
    (burn : Bool) (now : Nat) : Option Contract :=
  match assert_issuer c issuer with
  | none => none
  | some issuer_id =>
    if burn then
      let tokens_burned := tokens.length
      match revokeBurnLoop issuer_id tokens c [] [] with
      | none => none
      | some (c1, rpc, rpo) =>
        match applyOwnerDecs issuer_id rpo c1 with
        | none => none
        | some c2 =>
          match applyClassDecs issuer_id rpc c2 with
          | none => none
          | some c3 =>
            let sbi := alookupD c3.supply_by_issuer issuer_id 0
            if sbi < tokens_burned then none
            else
              let sbi2 := ainsert c3.supply_by_issuer issuer_id (sbi - tokens_burned)
              some { c3 with supply_by_issuer := sbi2 }
    else
      revokeSoftLoop issuer_id now tokens c

/-- Burn loop of `sbt_revoke_by_owner`: the token list comes from the
owner query, so lookups cannot panic; removals and the per-class tally only. -/
def revokeByOwnerBurnLoop (issuer_id : Nat) (owner : AccountId) :
    List OwnedToken → Contract → List (Nat × Nat) →
    Contract × List (Nat × Nat)
  | [], c, bpc => (c, bpc)
  | t :: rest, c, bpc =>
    let class_id := t.metadata.class_id
    let c2 := { c with
      balances := aremove c.balances
        { issuer_id := issuer_id, owner := owner, class_id := class_id },
      issuer_tokens :=
        aremove c.issuer_tokens { issuer_id := issuer_id, token := t.token } }
    revokeByOwnerBurnLoop issuer_id owner rest c2 (bump bpc class_id)

/-- Soft loop of `sbt_revoke_by_owner`: rewrite each listed token with
`expires_at = now` and the queried owner. -/
def softByOwnerLoop (issuer_id : Nat) (owner : AccountId) (now : Nat) :
    List OwnedToken → Contract → Contract
  | [], c => c
  | t :: rest, c =>
    let td : TokenData :=
      { owner := owner, metadata := { t.metadata with expires_at := some now } }
    softByOwnerLoop issuer_id owner now rest
      { c with issuer_tokens :=
          ainsert c.issuer_tokens { issuer_id := issuer_id, token := t.token } td }

/-- `sbt_revoke_by_owner(owner, burn)`, called by `issuer` at `now`:
derives the token list from `sbt_tokens_by_owner(owner, Some(issuer),
None, None, Some(true))`, pops the last (sole) group and burns or
soft-expires it; returns unchanged state when the query comes back empty. -/
def sbt_revoke_by_owner (c : Contract) (issuer : AccountId) (owner : AccountId)
    (burn : Bool) (now : Nat) : Option Contract :=
  match assert_issuer c issuer with
  | none => none
  | some issuer_id =>
    match sbt_tokens_by_owner c owner (some issuer) none none (some true) now with
    | none => none
    | some tokens_by_owner =>
      match tokens_by_owner.getLast? with
      | none => some c
      | some (_, tokens) =>
        if burn then
          let tokens_burned := tokens.length
          let (c1, bpc) := revokeByOwnerBurnLoop issuer_id owner tokens c []
          match alookup c1.supply_by_owner (owner, issuer_id) with
          | none => none
          | some old =>
            if old < tokens_burned then none
            else
              let sbo2 := ainsert c1.supply_by_owner (owner, issuer_id) (old - tokens_burned)
              let c2 := { c1 with supply_by_owner := sbo2 }
              let sbi := alookupD c2.supply_by_issuer issuer_id 0
              if sbi < tokens_burned then none
              else
                let sbi2 := ainsert c2.supply_by_issuer issuer_id (sbi - tokens_burned)
                let c3 := { c2 with supply_by_issuer := sbi2 }
                applyClassDecs issuer_id bpc c3
        else
          some (softByOwnerLoop issuer_id owner now tokens c)

/-! ### Spec-modelled operations (code not under `src/`) -/

/-- Modelled from the spec: `Contract::_sbt_mint` lives in `lib.rs`, which is
not under `src/`. Per §4.2: for each `(owner, metadata)` pair, reject a zero
class id; allocate the next sequential token id for the issuer; insert into
the token store; insert the balance key (treating an occupied balance key as
an invariant violation that rejects the mint, §4.2/§9); increment all three
supply counters. Returns the assigned token ids in order. -/
def mintLoop (issuer_id : Nat) :
    List (AccountId × TokenMetadata) → Contract → List Nat →
    Option (Contract × List Nat)
  | [], c, ids => some (c, ids)
  | (owner, md) :: rest, c, ids =>
    if md.class_id = 0 then none
    else
      let token := alookupD c.next_token_ids issuer_id 0 + 1
      let key := balance_key owner issuer_id md.class_id
      if (alookup c.balances key).isSome then none
      else
        let c2 := { c with
          issuer_tokens := ainsert c.issuer_tokens
            { issuer_id := issuer_id, token := token }
            { owner := owner, metadata := md },
          balances := binsert c.balances key token,
          next_token_ids := ainsert c.next_token_ids issuer_id token,
          supply_by_owner := ainsert c.supply_by_owner (owner, issuer_id)
            (alookupD c.supply_by_owner (owner, issuer_id) 0 + 1),
          supply_by_class := ainsert c.supply_by_class (issuer_id, md.class_id)
            (alookupD c.supply_by_class (issuer_id, md.class_id) 0 + 1),
          supply_by_issuer := ainsert c.supply_by_issuer issuer_id
            (alookupD c.supply_by_issuer issuer_id 0 + 1) }
        mintLoop issuer_id rest c2 (ids ++ [token])

/-- Modelled from the spec: `sbt_mint` delegates to `_sbt_mint` (§4.2),
issuer resolved from the caller; unknown issuer aborts. -/
def sbt_mint (c : Contract) (issuer : AccountId)
    (token_spec : List (AccountId × List TokenMetadata)) :
    Option (Contract × List Nat) :=
  match assert_issuer c issuer with
  | none => none
  | some issuer_id =>
    mintLoop issuer_id
      (token_spec.flatMap (fun p => p.2.map (fun md => (p.1, md)))) c []

/-- Modelled from the spec: issuer registration (§4.1, admin interface, not
under `src/`): assign the next unused compact id to a not-yet-registered
issuer, maintaining the reverse mapping. -/
def add_sbt_issuer (c : Contract) (issuer : AccountId) : Option Contract :=
  if (alookup c.sbt_issuers issuer).isSome then none
  else some { c with
    sbt_issuers := ainsert c.sbt_issuers issuer c.next_issuer_id,
    issuer_id_map := ainsert c.issuer_id_map c.next_issuer_id issuer,
    next_issuer_id := c.next_issuer_id + 1 }

/-! ### Lemmas: association lists -/

/-- Keys of an association list. -/
def akeys {α β : Type} (l : List (α × β)) : List α := l.map Prod.fst

/-- Key-uniqueness of an association list. -/
def aNodup {α β : Type} (l : List (α × β)) : Prop := (akeys l).Nodup

instance aNodupDec {α β : Type} [DecidableEq α] (l : List (α × β)) :
    Decidable (aNodup l) := by
  unfold aNodup
  infer_instance

instance bsortedDec (l : List (BalanceKey × Nat)) : Decidable (bsorted l) := by
  unfold bsorted
  infer_instance

theorem alookup_ainsert_self {α β : Type} [DecidableEq α]
    (l : List (α × β)) (k : α) (v : β) : alookup (ainsert l k v) k = some v := by
  induction l with
  | nil => simp [ainsert, alookup]
  | cons p rest ih =>
    obtain ⟨a, b⟩ := p
    by_cases h : k = a
    · simp [ainsert, h, alookup]
    · simp [ainsert, h, alookup, ih]

theorem alookup_ainsert_ne {α β : Type} [DecidableEq α]
    (l : List (α × β)) (k k' : α) (v : β) (h : k' ≠ k) :
    alookup (ainsert l k v) k' = alookup l k' := by
  induction l with
  | nil => simp [ainsert, alookup, h]
  | cons p rest ih =>
    obtain ⟨a, b⟩ := p
    by_cases hk : k = a
    · subst hk
      simp [ainsert, alookup, h]
    · by_cases hk' : k' = a
      · simp [ainsert, hk, alookup, hk']
      · simp [ainsert, hk, alookup, hk', ih]

theorem alookup_aremove_ne {α β : Type} [DecidableEq α]
    (l : List (α × β)) (k k' : α) (h : k' ≠ k) :
    alookup (aremove l k) k' = alookup l k' := by
  induction l with
  | nil => simp [aremove]
  | cons p rest ih =>
    obtain ⟨a, b⟩ := p
    by_cases hk : k = a
    · subst hk
      simp [aremove, alookup, h]
    · by_cases hk' : k' = a
      · simp [aremove, hk, alookup, hk']
      · simp [aremove, hk, alookup, hk', ih]

theorem akeys_aremove_sub {α β : Type} [DecidableEq α]
    (l : List (α × β)) (k : α) : akeys (aremove l k) ⊆ akeys l := by
  induction l with
  | nil => simp [aremove]
  | cons p rest ih =>
    obtain ⟨a, b⟩ := p
    by_cases hk : k = a
    · simp only [aremove, if_pos hk, akeys, List.map_cons]
      exact fun x hx => List.mem_cons_of_mem _ hx
    · simp only [aremove, if_neg hk, akeys, List.map_cons]
      intro x hx
      rcases List.mem_cons.mp hx with h1 | h2
      · exact List.mem_cons.mpr (Or.inl h1)
      · exact List.mem_cons.mpr (Or.inr (ih h2))

theorem aNodup_aremove {α β : Type} [DecidableEq α]
    (l : List (α × β)) (k : α) (h : aNodup l) : aNodup (aremove l k) := by
  induction l with
  | nil => simpa [aremove] using h
  | cons p rest ih =>
    obtain ⟨a, b⟩ := p
    simp only [aNodup, akeys, List.map_cons, List.nodup_cons] at h
    by_cases hk : k = a
    · simpa [aNodup, aremove, hk, akeys] using h.2
    · simp only [aNodup, aremove, if_neg hk, akeys, List.map_cons, List.nodup_cons]
      refine ⟨fun hmem => h.1 (akeys_aremove_sub rest k hmem), ih h.2⟩

theorem alookup_eq_none_of_not_mem {α β : Type} [DecidableEq α]
    {l : List (α × β)} {k : α} (h : k ∉ akeys l) : alookup l k = none := by
  induction l with
  | nil => simp [alookup]
  | cons p rest ih =>
    obtain ⟨a, b⟩ := p
    simp only [akeys, List.map_cons, List.mem_cons] at h
    push_neg at h
    simp only [alookup, if_neg h.1]
    exact ih h.2

theorem alookup_aremove_self {α β : Type} [DecidableEq α]
    (l : List (α × β)) (k : α) (h : aNodup l) :
    alookup (aremove l k) k = none := by
  induction l with
  | nil => simp [aremove, alookup]
  | cons p rest ih =>
    obtain ⟨a, b⟩ := p
    simp only [aNodup, akeys, List.map_cons, List.nodup_cons] at h
    by_cases hk : k = a
    · subst hk
      simp only [aremove, if_pos rfl]
      exact alookup_eq_none_of_not_mem h.1
    · simp only [aremove, if_neg hk, alookup, if_neg hk]
      exact ih h.2

theorem alookup_mem {α β : Type} [DecidableEq α]
    {l : List (α × β)} {k : α} {v : β} (h : alookup l k = some v) : (k, v) ∈ l := by
  induction l with
  | nil => simp [alookup] at h
  | cons p rest ih =>
    obtain ⟨a, b⟩ := p
    by_cases hk : k = a
    · subst hk
      have hbv : b = v := by simpa [alookup] using h
      subst hbv
      exact List.mem_cons_self _ _
    · simp only [alookup, if_neg hk] at h
      exact List.mem_cons_of_mem _ (ih h)

theorem akeys_ainsert {α β : Type} [DecidableEq α]
    (l : List (α × β)) (k : α) (v : β) :
    akeys (ainsert l k v) = if k ∈ akeys l then akeys l else akeys l ++ [k] := by
  induction l with
  | nil => simp [ainsert, akeys]
  | cons p rest ih =>
    obtain ⟨a, b⟩ := p
    by_cases hk : k = a
    · subst hk
      simp [ainsert, akeys]
    · simp only [ainsert, if_neg hk, akeys, List.map_cons] at *
      rw [ih]
      by_cases hmem : k ∈ List.map Prod.fst rest
      · simp [List.mem_cons, hk, hmem]
      · simp [List.mem_cons, hk, hmem]

theorem aNodup_ainsert {α β : Type} [DecidableEq α]
    (l : List (α × β)) (k : α) (v : β) (h : aNodup l) : aNodup (ainsert l k v) := by
  unfold aNodup
  rw [akeys_ainsert]
  by_cases hmem : k ∈ akeys l
  · simpa [hmem] using h
  · simp only [if_neg hmem]
    exact List.Nodup.append h (List.nodup_singleton k)
      (fun x hx hx2 => hmem (by rcases List.mem_singleton.mp hx2 with rfl; exact hx))

/-! ### Lemmas: the balance-key order and the sorted index -/

theorem bkLT_irrefl (a : BalanceKey) : ¬ bkLT a a := by
  unfold bkLT
  rintro (h | ⟨_, h | ⟨_, h⟩⟩)
  · exact lt_irrefl _ h
  · exact lt_irrefl _ h
  · exact lt_irrefl _ h

theorem bkLT_trans {a b c : BalanceKey} (h1 : bkLT a b) (h2 : bkLT b c) :
    bkLT a c := by
  unfold bkLT at *
  rcases h1 with h1 | ⟨e1, h1⟩
  · rcases h2 with h2 | ⟨e2, _⟩
    · exact Or.inl (lt_trans h1 h2)
    · exact Or.inl (e2 ▸ h1)
  · rcases h2 with h2 | ⟨e2, h2⟩
    · exact Or.inl (e1 ▸ h2)
    · refine Or.inr ⟨e1.trans e2, ?_⟩
      rcases h1 with h1 | ⟨f1, h1⟩
      · rcases h2 with h2 | ⟨f2, _⟩
        · exact Or.inl (lt_trans h1 h2)
        · exact Or.inl (f2 ▸ h1)
      · rcases h2 with h2 | ⟨f2, h2⟩
        · exact Or.inl (f1 ▸ h2)
        · exact Or.inr ⟨f1.trans f2, lt_trans h1 h2⟩

theorem bkLT_trichotomy (a b : BalanceKey) : bkLT a b ∨ a = b ∨ bkLT b a := by
  unfold bkLT
  rcases lt_trichotomy a.issuer_id b.issuer_id with h | h | h
  · exact Or.inl (Or.inl h)
  · rcases lt_trichotomy a.owner b.owner with h2 | h2 | h2
    · exact Or.inl (Or.inr ⟨h, Or.inl h2⟩)
    · rcases lt_trichotomy a.class_id b.class_id with h3 | h3 | h3
      · exact Or.inl (Or.inr ⟨h, Or.inr ⟨h2, h3⟩⟩)
      · refine Or.inr (Or.inl ?_)
        cases a
        cases b
        simp_all
      · exact Or.inr (Or.inr (Or.inr ⟨h.symm, Or.inr ⟨h2.symm, h3⟩⟩))
    · exact Or.inr (Or.inr (Or.inr ⟨h.symm, Or.inl h2⟩))
  · exact Or.inr (Or.inr (Or.inl h))

theorem bkLT_asymm {a b : BalanceKey} (h : bkLT a b) : ¬ bkLT b a :=
  fun h2 => bkLT_irrefl a (bkLT_trans h h2)

theorem bkLT_ne {a b : BalanceKey} (h : bkLT a b) : a ≠ b := by
  rintro rfl
  exact bkLT_irrefl a h

theorem alookup_binsert_self (l : List (BalanceKey × Nat))
    (k : BalanceKey) (v : Nat) : alookup (binsert l k v) k = some v := by
  induction l with
  | nil => simp [binsert, alookup]
  | cons p rest ih =>
    obtain ⟨a, b⟩ := p
    by_cases h1 : bkLT k a
    · simp [binsert, h1, alookup]
    · by_cases h2 : k = a
      · subst h2
        rw [binsert, if_neg h1]
        simp [alookup]
      · simp [binsert, h1, h2, alookup, ih]

theorem alookup_binsert_ne (l : List (BalanceKey × Nat))
    (k k' : BalanceKey) (v : Nat) (h : k' ≠ k) :
    alookup (binsert l k v) k' = alookup l k' := by
  induction l with
  | nil => simp [binsert, alookup, h]
  | cons p rest ih =>
    obtain ⟨a, b⟩ := p
    by_cases h1 : bkLT k a
    · simp [binsert, h1, alookup, h]
    · by_cases h2 : k = a
      · subst h2
        simp [binsert, h1, alookup, h]
      · by_cases h3 : k' = a
        · simp [binsert, h1, h2, alookup, h3]
        · simp [binsert, h1, h2, alookup, h3, ih]

theorem mem_binsert {l : List (BalanceKey × Nat)} {k : BalanceKey}
    {v : Nat} {p : BalanceKey × Nat} (h : p ∈ binsert l k v) :
    p = (k, v) ∨ p ∈ l := by
  induction l with
  | nil => simpa [binsert] using h
  | cons q rest ih =>
    obtain ⟨a, b⟩ := q
    by_cases h1 : bkLT k a
    · simp only [binsert, if_pos h1, List.mem_cons] at h
      rcases h with h | h | h
      · exact Or.inl h
      · exact Or.inr (List.mem_cons.mpr (Or.inl h))
      · exact Or.inr (List.mem_cons_of_mem _ h)
    · by_cases h2 : k = a
      · simp only [binsert, if_neg h1, if_pos h2, List.mem_cons] at h
        rcases h with h | h
        · exact Or.inl h
        · exact Or.inr (List.mem_cons_of_mem _ h)
      · simp only [binsert, if_neg h1, if_neg h2, List.mem_cons] at h
        rcases h with h | h
        · exact Or.inr (List.mem_cons.mpr (Or.inl h))
        · rcases ih h with h3 | h3
          · exact Or.inl h3
          · exact Or.inr (List.mem_cons_of_mem _ h3)

theorem bsorted_binsert (l : List (BalanceKey × Nat)) (k : BalanceKey)
    (v : Nat) (hs : bsorted l) : bsorted (binsert l k v) := by
  induction l with
  | nil => simp [binsert, bsorted]
  | cons p rest ih =>
    obtain ⟨a, b⟩ := p
    rw [bsorted, List.pairwise_cons] at hs
    by_cases h1 : bkLT k a
    · rw [bsorted, binsert, if_pos h1, List.pairwise_cons]
      refine ⟨?_, ?_⟩
      · intro q hq
        rcases List.mem_cons.mp hq with rfl | hq2
        · exact h1
        · exact bkLT_trans h1 (hs.1 q hq2)
      · rw [List.pairwise_cons]
        exact hs
    · by_cases h2 : k = a
      · subst h2
        rw [bsorted, binsert, if_neg h1, if_pos rfl, List.pairwise_cons]
        exact hs
      · have h3 : bkLT a k := by
          rcases bkLT_trichotomy k a with h | h | h
          · exact absurd h h1
          · exact absurd h h2
          · exact h
        rw [bsorted, binsert, if_neg h1, if_neg h2, List.pairwise_cons]
        refine ⟨?_, ih hs.2⟩
        intro q hq
        rcases mem_binsert hq with rfl | hq2
        · exact h3
        · exact hs.1 q hq2

theorem aremove_subset {α β : Type} [DecidableEq α] (l : List (α × β)) (k : α) :
    aremove l k ⊆ l := by
  induction l with
  | nil => simp [aremove]
  | cons p rest ih =>
    obtain ⟨a, b⟩ := p
    by_cases h : k = a
    · rw [aremove, if_pos h]
      exact fun x hx => List.mem_cons_of_mem _ hx
    · rw [aremove, if_neg h]
      intro x hx
      rcases List.mem_cons.mp hx with rfl | hx2
      · exact List.mem_cons_self _ _
      · exact List.mem_cons_of_mem _ (ih hx2)

theorem bsorted_aremove (l : List (BalanceKey × Nat)) (k : BalanceKey)
    (hs : bsorted l) : bsorted (aremove l k) := by
  induction l with
  | nil => simpa [aremove] using hs
  | cons p rest ih =>
    obtain ⟨a, b⟩ := p
    rw [bsorted, List.pairwise_cons] at hs
    by_cases h1 : k = a
    · simpa [aremove, h1, bsorted] using hs.2
    · rw [aremove, if_neg h1, bsorted, List.pairwise_cons]
      refine ⟨?_, ih hs.2⟩
      intro q hq
      exact hs.1 q (aremove_subset rest k hq)

theorem bsorted_aNodup (l : List (BalanceKey × Nat)) (hs : bsorted l) :
    aNodup l := by
  unfold aNodup akeys
  unfold bsorted at hs
  exact List.Pairwise.map Prod.fst (fun p q h => bkLT_ne h) hs

/-! ### Concrete example states -/

/-- Metadata with a given class and no expiry. -/
def mdOf (cl : Nat) : TokenMetadata :=
  { class_id := cl, issued_at := none, expires_at := none,
    reference := none, reference_hash := none }

/-- A concrete issuer account. -/
def issuerX : AccountId := acct 100

/-- A concrete token-owner account. -/
def alice : AccountId := acct 1

/-- Ledger with the single issuer `issuerX` registered (issuer id 1). -/
def regX : Contract := (add_sbt_issuer emptyContract issuerX).getD emptyContract

/-- Ledger after minting 7 tokens (classes 1..7) to `alice` through `issuerX`. -/
def mint7 : Contract :=
  ((sbt_mint regX issuerX
    [(alice, [mdOf 1, mdOf 2, mdOf 3, mdOf 4, mdOf 5, mdOf 6, mdOf 7])]).map
      Prod.fst).getD emptyContract

/-- `mint7` after burn-revoking token 6 (a hole in the id sequence). -/
def burned6 : Contract :=
  (sbt_revoke mint7 issuerX [6] true 0).getD emptyContract

/-- `mint7` with a continuation guard set for `alice`. -/
def guardSt : Contract :=
  { mint7 with ongoing_soul_tx := [(alice, { issuer_id := 1, token := 1 })] }

/-- Ledger with a single token for `alice` of class 1 expiring at time 100. -/
def expSt : Contract :=
  ((sbt_mint regX issuerX
    [(alice, [{ mdOf 1 with expires_at := some 100 }])]).map Prod.fst).getD
    emptyContract

/-- Total number of token entries in an owner-query result. -/
def respCount (resp : List (AccountId × List OwnedToken)) : Nat :=
  (resp.map (fun p => p.2.length)).sum

/-! ### Claim C10 -/

/-- Claim C10: with no continuation guard for the account and the issuer
registered, `sbt_supply_by_owner` with a class argument returns 1 exactly when
the balance index contains `(issuer_id, account, class)` and 0 otherwise; in
particular the result never exceeds 1, and it is computed from the balance
index alone (independent of the `supply_by_owner` counter and of token
expiry). -/
theorem C10_supply_by_owner_class (c : Contract) (account issuer : AccountId)
    (cls : Nat) (issuer_id : Nat)
    (hguard : alookup c.ongoing_soul_tx account = none)
    (hiss : alookup c.sbt_issuers issuer = some issuer_id) :
    sbt_supply_by_owner c account issuer (some cls) =
      (if (alookup c.balances (balance_key account issuer_id cls)).isSome
        then 1 else 0) ∧
    sbt_supply_by_owner c account issuer (some cls) ≤ 1 := by
  have h1 : sbt_supply_by_owner c account issuer (some cls) =
      (if (alookup c.balances (balance_key account issuer_id cls)).isSome
        then 1 else 0) := by
    unfold sbt_supply_by_owner
    rw [hguard, hiss]
    simp
  refine ⟨h1, ?_⟩
  rw [h1]
  split
  · exact Nat.le_refl 1
  · exact Nat.zero_le 1

/-- Witness for C10 at a concrete state: `alice` holds exactly one class-1
token from `issuerX` and that token is already expired at the query time,
yet the class-scoped supply is still 1. -/
theorem C10_supply_by_owner_class_witness :
    sbt_supply_by_owner expSt alice issuerX (some 1) = 1 :=
  (C10_supply_by_owner_class expSt alice issuerX 1 1 (by decide) (by decide)).1.trans
    (by decide)

/-! ### Claim C2 -/

/-- Claim C2 counterexample: in a state where the continuation guard is set
for `alice` and token rows for `alice` exist in the token store and balance
index, the argument combination `from_class = some 1, issuer = none` makes
`sbt_tokens_by_owner` abort on its `require!` precondition (`none`) instead
of returning the empty list, so the claim's "every combination of the
optional arguments" fails. -/
theorem C2_counterexample :
    guardSt.issuer_tokens ≠ [] ∧
    guardSt.balances ≠ [] ∧
    (alookup guardSt.ongoing_soul_tx alice).isSome = true ∧
    sbt_tokens_by_owner guardSt alice none (some 1) none none 0 = none := by
  decide

/-- Claim C2 (amended): while a continuation guard is set for `account`,
`sbt_supply_by_owner(account, issuer, class)` returns 0 for every issuer and
class argument, and `sbt_tokens_by_owner(account, ...)` returns the empty
list for every combination of the optional arguments that satisfies the
documented precondition that `issuer` is given whenever `from_class` is —
even though underlying token rows may exist. -/
theorem C2_guard_masks (c : Contract) (account : AccountId)
    (hguard : (alookup c.ongoing_soul_tx account).isSome = true) :
    (∀ issuer cls, sbt_supply_by_owner c account issuer cls = 0) ∧
    (∀ issuer from_class limit we now,
      (from_class.isSome = true → issuer.isSome = true) →
      sbt_tokens_by_owner c account issuer from_class limit we now = some []) := by
  constructor
  · intro issuer cls
    unfold sbt_supply_by_owner
    rw [hguard]
    simp
  · intro issuer from_class limit we now hpre
    unfold sbt_tokens_by_owner
    have hnot : ¬ (from_class.isSome = true ∧ issuer.isNone = true) := by
      rintro ⟨h1, h2⟩
      have := hpre h1
      cases issuer
      · simp at this
      · simp at h2
    rw [if_neg hnot, if_pos hguard]

/-- Witness for C2 (amended) at the concrete guarded state. -/
theorem C2_guard_masks_witness :
    sbt_supply_by_owner guardSt alice issuerX none = 0 ∧
    sbt_tokens_by_owner guardSt alice (some issuerX) (some 3) none none 0 =
      some [] :=
  ⟨(C2_guard_masks guardSt alice (by decide)).1 issuerX none,
   (C2_guard_masks guardSt alice (by decide)).2 (some issuerX) (some 3) none
     none 0 (by decide)⟩

/-! ### Claim C9 -/

/-- Claim C9 counterexample: with an unregistered issuer, `sbt_supply`
returns the default 0 and `sbt_tokens` returns the empty list without
aborting (it does not even reach its `require!` checks: the arguments here
would otherwise panic), contradicting "aborts immediately ... rather than
returning a default value". -/
theorem C9_counterexample :
    alookup emptyContract.sbt_issuers issuerX = none ∧
    sbt_supply emptyContract issuerX = 0 ∧
    sbt_tokens emptyContract issuerX (some 0) (some 0) none 0 = some [] ∧
    sbt_tokens emptyContract issuerX (some 0) (some 0) none 0 ≠ none := by
  decide

/-- Claim C9 (amended): with an unregistered issuer, the token lookups
`sbt`/`sbts`/`sbt_classes` and the mutations `sbt_revoke`,
`sbt_revoke_by_owner`, `sbt_mint` abort (`UnknownIssuer`, no state change),
whereas the supply queries return the default 0 and `sbt_tokens` returns the
empty list without aborting. -/
theorem C9_unknown_issuer (c : Contract) (issuer : AccountId)
    (h : alookup c.sbt_issuers issuer = none) :
    (∀ token, sbt c issuer token = none) ∧
    (∀ ts, sbts c issuer ts = none) ∧
    (∀ ts, sbt_classes c issuer ts = none) ∧
    sbt_supply c issuer = 0 ∧
    (∀ cls, sbt_supply_by_class c issuer cls = 0) ∧
    (∀ account cls, sbt_supply_by_owner c account issuer cls = 0) ∧
    (∀ ft lim we now, sbt_tokens c issuer ft lim we now = some []) ∧
    (∀ ts burn now, sbt_revoke c issuer ts burn now = none) ∧
    (∀ owner burn now, sbt_revoke_by_owner c issuer owner burn now = none) ∧
    (∀ spec, sbt_mint c issuer spec = none) := by
  refine ⟨?_, ?_, ?_, ?_, ?_, ?_, ?_, ?_, ?_, ?_⟩
  · intro token
    unfold sbt assert_issuer
    rw [h]
  · intro ts
    unfold sbts assert_issuer
    rw [h]
  · intro ts
    unfold sbt_classes assert_issuer
    rw [h]
  · unfold sbt_supply
    rw [h]
  · intro cls
    unfold sbt_supply_by_class
    rw [h]
  · intro account cls
    unfold sbt_supply_by_owner
    rw [h]
    by_cases hg : (alookup c.ongoing_soul_tx account).isSome
    · rw [if_pos hg]
    · rw [if_neg hg]
  · intro ft lim we now
    unfold sbt_tokens
    rw [h]
  · intro ts burn now
    unfold sbt_revoke assert_issuer
    rw [h]
  · intro owner burn now
    unfold sbt_revoke_by_owner assert_issuer
    rw [h]
  · intro spec
    unfold sbt_mint assert_issuer
    rw [h]

/-- Witness for C9 (amended) at the empty ledger. -/
theorem C9_unknown_issuer_witness :
    sbt emptyContract issuerX 1 = none ∧
    sbt_supply emptyContract issuerX = 0 ∧
    sbt_tokens emptyContract issuerX none none none 0 = some [] ∧
    sbt_revoke emptyContract issuerX [1] true 0 = none :=
  ⟨(C9_unknown_issuer emptyContract issuerX (by decide)).1 1,
   (C9_unknown_issuer emptyContract issuerX (by decide)).2.2.2.1,
   (C9_unknown_issuer emptyContract issuerX (by decide)).2.2.2.2.2.2.1 none none
     none 0,
   (C9_unknown_issuer emptyContract issuerX (by decide)).2.2.2.2.2.2.2.1 [1]
     true 0⟩

/-! ### Claim C3 -/

/-- Claim C3 counterexample: in the spec's own scenario (7 tokens minted
through one issuer, token 6 burned), `sbt_tokens(issuer, from_token = 5,
limit = 2)` does not return the tokens with ids 5 and 7. -/
theorem C3_counterexample :
    (sbt_tokens burned6 issuerX (some 5) (some 2) none 0).map
      (fun l => l.map Token.token) ≠ some [5, 7] := by
  decide

/-- Claim C3 (amended): `limit` bounds the number of scanned token ids, not
the number of emitted tokens: the scenario query scans only ids 5 and 6,
skips the burned hole at 6, and returns exactly the token with id 5; the
token with id 7 lies outside the scanned window and is returned by the
continuation query `from_token = 7`. -/
theorem C3_scan_window :
    (sbt_tokens burned6 issuerX (some 5) (some 2) none 0).map
      (fun l => l.map Token.token) = some [5] ∧
    (sbt_tokens burned6 issuerX (some 7) (some 2) none 0).map
      (fun l => l.map Token.token) = some [7] := by
  decide

/-! ### Lemmas: the owner-scan loop -/

/-- A result entry passes the query-time expiry filter: either expiry was
requested, or the token has no expiry, or it expires no earlier than `now`. -/
def tokOk (we : Bool) (now : Nat) (ot : OwnedToken) : Prop :=
  we = true ∨ ot.metadata.expires_at = none ∨
    ∃ e, ot.metadata.expires_at = some e ∧ now ≤ e

/-- Every entry accumulated by the owner-scan loop passes the expiry filter
(provided the incoming accumulators do). -/
theorem tbLoop_tokOk (c : Contract) (account : AccountId) (issuer_id : Nat)
    (now : Nat) (we : Bool) (l : List (BalanceKey × Nat))
    (r2 : List (AccountId × List OwnedToken)) (t2 : List OwnedToken)
    (p2 : Nat) :
    ∀ (resp : List (AccountId × List OwnedToken)) (tokens : List OwnedToken)
      (prev : Nat) (limit : Nat),
      (∀ g ∈ resp, ∀ ot ∈ g.2, tokOk we now ot) →
      (∀ ot ∈ tokens, tokOk we now ot) →
      tbLoop c account issuer_id now we l resp tokens prev limit =
        some (r2, t2, p2) →
      (∀ g ∈ r2, ∀ ot ∈ g.2, tokOk we now ot) ∧ (∀ ot ∈ t2, tokOk we now ot) := by
  induction l with
  | nil =>
    intro resp tokens prev limit hresp htok h
    simp only [tbLoop, Option.some.injEq, Prod.mk.injEq] at h
    obtain ⟨h1, h2, h3⟩ := h
    subst h1
    subst h2
    exact ⟨hresp, htok⟩
  | cons p rest ih =>
    obtain ⟨key, tid⟩ := p
    intro resp tokens prev limit hresp htok h
    have hcont : ∀ (resp1 : List (AccountId × List OwnedToken))
        (tokens1 : List OwnedToken) (prev1 : Nat),
        (∀ g ∈ resp1, ∀ ot ∈ g.2, tokOk we now ot) →
        (∀ ot ∈ tokens1, tokOk we now ot) →
        (match alookup c.issuer_tokens { issuer_id := key.issuer_id, token := tid } with
          | none => none
          | some t =>
            if ¬ we ∧ t.metadata.expires_at.getD now < now then
              tbLoop c account issuer_id now we rest resp1 tokens1 prev1 limit
            else
              if limit - 1 = 0 then
                some (resp1, tokens1 ++ [{ token := tid, metadata := t.metadata }],
                  prev1)
              else
                tbLoop c account issuer_id now we rest resp1
                  (tokens1 ++ [{ token := tid, metadata := t.metadata }]) prev1
                  (limit - 1)) = some (r2, t2, p2) →
        (∀ g ∈ r2, ∀ ot ∈ g.2, tokOk we now ot) ∧
          (∀ ot ∈ t2, tokOk we now ot) := by
      intro resp1 tokens1 prev1 hresp1 htok1 hm
      cases hlook : alookup c.issuer_tokens
          { issuer_id := key.issuer_id, token := tid } with
      | none =>
        rw [hlook] at hm
        exact absurd hm (by simp)
      | some t =>
        rw [hlook] at hm
        simp only at hm
        split at hm
        · exact ih resp1 tokens1 prev1 limit hresp1 htok1 hm
        · rename_i hfil
          have hpush : tokOk we now { token := tid, metadata := t.metadata } := by
            unfold tokOk
            by_cases hwe : we = true
            · exact Or.inl hwe
            · have hwe2 : ¬ we := by simpa using hwe
              have hnl : ¬ t.metadata.expires_at.getD now < now := by
                intro hl
                exact hfil ⟨hwe2, hl⟩
              cases hexp : t.metadata.expires_at with
              | none => exact Or.inr (Or.inl (by simp [hexp]))
              | some e =>
                refine Or.inr (Or.inr ⟨e, by simp [hexp], ?_⟩)
                rw [hexp] at hnl
                simpa using Nat.le_of_not_lt hnl
          have htok2 : ∀ ot ∈ tokens1 ++ [{ token := tid, metadata := t.metadata }],
              tokOk we now ot := by
            intro ot hot
            rcases List.mem_append.mp hot with h1 | h1
            · exact htok1 ot h1
            · rcases List.mem_singleton.mp h1 with rfl
              exact hpush
          split at hm
          · simp only [Option.some.injEq, Prod.mk.injEq] at hm
            obtain ⟨h1, h2, h3⟩ := hm
            subst h1
            subst h2
            exact ⟨hresp1, htok2⟩
          · exact ih resp1 _ prev1 (limit - 1) hresp1 htok2 hm
    simp only [tbLoop] at h
    split at h
    · simp only [Option.some.injEq, Prod.mk.injEq] at h
      obtain ⟨h1, h2, h3⟩ := h
      subst h1
      subst h2
      exact ⟨hresp, htok⟩
    · split at h
      · simp only [Option.some.injEq, Prod.mk.injEq] at h
        obtain ⟨h1, h2, h3⟩ := h
        subst h1
        subst h2
        exact ⟨hresp, htok⟩
      · by_cases hchg : prev ≠ key.issuer_id
        · rw [if_pos hchg] at h
          by_cases hne : tokens ≠ []
          · rw [if_pos hne] at h
            cases hmap : alookup c.issuer_id_map prev with
            | none =>
              rw [hmap] at h
              exact absurd h (by simp)
            | some a =>
              rw [hmap] at h
              simp only at h
              refine hcont (resp ++ [(a, tokens)]) [] key.issuer_id ?_ ?_ h
              · intro g hg
                rcases List.mem_append.mp hg with hg1 | hg2
                · exact hresp g hg1
                · rcases List.mem_singleton.mp hg2 with rfl
                  exact htok
              · intro ot hot
                exact absurd hot (by simp)
          · rw [if_neg hne] at h
            exact hcont resp tokens key.issuer_id hresp htok h
        · rw [if_neg hchg] at h
          exact hcont resp tokens prev hresp htok h

theorem respCount_append_group (resp : List (AccountId × List OwnedToken))
    (a : AccountId) (tokens : List OwnedToken) :
    respCount (resp ++ [(a, tokens)]) = respCount resp + tokens.length := by
  simp [respCount]

/-- The owner-scan loop emits at most `limit` further entries. -/
theorem tbLoop_count (c : Contract) (account : AccountId) (issuer_id : Nat)
    (now : Nat) (we : Bool) (l : List (BalanceKey × Nat))
    (r2 : List (AccountId × List OwnedToken)) (t2 : List OwnedToken)
    (p2 : Nat) :
    ∀ (resp : List (AccountId × List OwnedToken)) (tokens : List OwnedToken)
      (prev : Nat) (limit : Nat),
      0 < limit →
      tbLoop c account issuer_id now we l resp tokens prev limit =
        some (r2, t2, p2) →
      respCount r2 + t2.length ≤ respCount resp + tokens.length + limit := by
  induction l with
  | nil =>
    intro resp tokens prev limit hlim h
    simp only [tbLoop, Option.some.injEq, Prod.mk.injEq] at h
    obtain ⟨h1, h2, h3⟩ := h
    subst h1
    subst h2
    exact Nat.le_add_right _ _
  | cons p rest ih =>
    obtain ⟨key, tid⟩ := p
    intro resp tokens prev limit hlim h
    have hcont : ∀ (resp1 : List (AccountId × List OwnedToken))
        (tokens1 : List OwnedToken) (prev1 : Nat),
        (match alookup c.issuer_tokens { issuer_id := key.issuer_id, token := tid } with
          | none => none
          | some t =>
            if ¬ we ∧ t.metadata.expires_at.getD now < now then
              tbLoop c account issuer_id now we rest resp1 tokens1 prev1 limit
            else
              if limit - 1 = 0 then
                some (resp1, tokens1 ++ [{ token := tid, metadata := t.metadata }],
                  prev1)
              else
                tbLoop c account issuer_id now we rest resp1
                  (tokens1 ++ [{ token := tid, metadata := t.metadata }]) prev1
                  (limit - 1)) = some (r2, t2, p2) →
        respCount r2 + t2.length ≤ respCount resp1 + tokens1.length + limit := by
      intro resp1 tokens1 prev1 hm
      cases hlook : alookup c.issuer_tokens
          { issuer_id := key.issuer_id, token := tid } with
      | none =>
        rw [hlook] at hm
        exact absurd hm (by simp)
      | some t =>
        rw [hlook] at hm
        simp only at hm
        split at hm
        · exact ih resp1 tokens1 prev1 limit hlim hm
        · split at hm
          · rename_i hstop
            simp only [Option.some.injEq, Prod.mk.injEq] at hm
            obtain ⟨h1, h2, h3⟩ := hm
            subst h1
            subst h2
            simp only [List.length_append, List.length_singleton]
            omega
          · rename_i hstop
            have hlim2 : 0 < limit - 1 := Nat.pos_of_ne_zero hstop
            have := ih resp1
              (tokens1 ++ [{ token := tid, metadata := t.metadata }]) prev1
              (limit - 1) hlim2 hm
            simp only [List.length_append, List.length_singleton] at this
            omega
    simp only [tbLoop] at h
    split at h
    · simp only [Option.some.injEq, Prod.mk.injEq] at h
      obtain ⟨h1, h2, h3⟩ := h
      subst h1
      subst h2
      exact Nat.le_add_right _ _
    · split at h
      · simp only [Option.some.injEq, Prod.mk.injEq] at h
        obtain ⟨h1, h2, h3⟩ := h
        subst h1
        subst h2
        exact Nat.le_add_right _ _
      · by_cases hchg : prev ≠ key.issuer_id
        · rw [if_pos hchg] at h
          by_cases hne : tokens ≠ []
          · rw [if_pos hne] at h
            cases hmap : alookup c.issuer_id_map prev with
            | none =>
              rw [hmap] at h
              exact absurd h (by simp)
            | some a =>
              rw [hmap] at h
              simp only at h
              have := hcont (resp ++ [(a, tokens)]) [] key.issuer_id h
              rw [respCount_append_group] at this
              simpa using this
          · rw [if_neg hne] at h
            exact hcont resp tokens key.issuer_id h
        · rw [if_neg hchg] at h
          exact hcont resp tokens prev h

/-! ### Claim C7 -/

/-- Claim C7 (amended): in `sbt_tokens_by_owner` an unsupplied `limit`
defaults to 1000 (`MAX_LIMIT`), and for every call at most `limit` token
entries are emitted in total (the limit is a hard stop mid-scan counting
individual tokens, not issuer groups); an explicitly supplied limit is used
as given — there is no 1000 hard cap on it. -/
theorem C7_limit_behavior :
    (∀ c account issuer fc we now,
      sbt_tokens_by_owner c account issuer fc none we now =
        sbt_tokens_by_owner c account issuer fc (some MAX_LIMIT) we now) ∧
    (∀ c account issuer fc lim we now res,
      sbt_tokens_by_owner c account issuer fc lim we now = some res →
      respCount res ≤ lim.getD MAX_LIMIT) := by
  constructor
  · intro c account issuer fc we now
    rfl
  · intro c account issuer fc lim we now res h
    unfold sbt_tokens_by_owner at h
    split at h
    · exact absurd h (by simp)
    · split at h
      · simp only [Option.some.injEq] at h
        subst h
        simp [respCount]
      · split at h
        · exact absurd h (by simp)
        · rename_i issuer_id _
          simp only at h
          split at h
          · exact absurd h (by simp)
          · rename_i hlim0
            have hlim : 0 < lim.getD MAX_LIMIT := Nat.pos_of_ne_zero hlim0
            split at h
            · exact absurd h (by simp)
            · rename_i resp tokens prev htb
              have hcount := tbLoop_count _ _ _ _ _ _ _ _ _ _ _ _ _ hlim htb
              have hrc0 : respCount [] = 0 := rfl
              rw [hrc0, List.length_nil, Nat.add_zero, Nat.zero_add] at hcount
              by_cases hflush : prev ≠ 0 ∧ tokens ≠ []
              · rw [if_pos hflush] at h
                cases hmap : alookup c.issuer_id_map prev with
                | none =>
                  rw [hmap] at h
                  exact absurd h (by simp)
                | some a =>
                  rw [hmap] at h
                  simp only [Option.some.injEq] at h
                  subst h
                  rw [respCount_append_group]
                  exact hcount
              · rw [if_neg hflush] at h
                simp only [Option.some.injEq] at h
                subst h
                exact Nat.le_trans (Nat.le_add_right _ _) hcount

/-- Witness for C7 (amended) at a concrete state. -/
theorem C7_limit_behavior_witness :
    (sbt_tokens_by_owner burned6 alice (some issuerX) none none none 0 =
      sbt_tokens_by_owner burned6 alice (some issuerX) none (some MAX_LIMIT)
        none 0) ∧
    respCount [(issuerX,
      [{ token := 1, metadata := mdOf 1 }, { token := 2, metadata := mdOf 2 },
        { token := 3, metadata := mdOf 3 }])] ≤ (some 3).getD MAX_LIMIT :=
  ⟨C7_limit_behavior.1 burned6 alice (some issuerX) none none 0,
   C7_limit_behavior.2 burned6 alice (some issuerX) none (some 3) none 0 _
     (by decide)⟩

/-- The balance-index entries of a ledger where one owner holds consecutive
classes `a, a+1, ..., a+b-1` from issuer id 1 (token id = class id). -/
def chainEntries (a b : Nat) : List (BalanceKey × Nat) :=
  (List.range' a b).map (fun cl =>
    ({ issuer_id := 1, owner := alice, class_id := cl }, cl))

/-- The owner-query image of `chainEntries`. -/
def ownedChain (a b : Nat) : List OwnedToken :=
  (List.range' a b).map (fun cl => { token := cl, metadata := mdOf cl })

/-- A ledger where `alice` holds `n` tokens (classes `1..n`, token ids
`1..n`) from `issuerX` (issuer id 1). -/
def chainN (n : Nat) : Contract :=
  { emptyContract with
    sbt_issuers := [(issuerX, 1)],
    issuer_id_map := [(1, issuerX)],
    balances := chainEntries 1 n,
    issuer_tokens := (List.range' 1 n).map (fun tok =>
      ({ issuer_id := 1, token := tok }, { owner := alice, metadata := mdOf tok })),
    supply_by_owner := [((alice, 1), n)],
    supply_by_class := (List.range' 1 n).map (fun cl => ((1, cl), 1)),
    supply_by_issuer := [(1, n)],
    next_token_ids := [(1, n)],
    next_issuer_id := 2 }

theorem alookup_chain_store (a b t : Nat) (h1 : a ≤ t) (h2 : t < a + b) :
    alookup ((List.range' a b).map (fun tok =>
        (({ issuer_id := 1, token := tok } : IssuerTokenId),
          ({ owner := alice, metadata := mdOf tok } : TokenData))))
      { issuer_id := 1, token := t } =
      some { owner := alice, metadata := mdOf t } := by
  induction b generalizing a with
  | zero => omega
  | succ b ih =>
    rw [List.range'_succ, List.map_cons]
    by_cases ht : t = a
    · subst ht
      simp [alookup]
    · have hne : ({ issuer_id := 1, token := t } : IssuerTokenId) ≠
          { issuer_id := 1, token := a } := by
        intro hEq
        cases hEq
        exact ht rfl
      rw [alookup, if_neg hne]
      exact ih (a + 1) (by omega) (by omega)

/-- On a chain ledger the owner-scan loop consumes all entries and emits all
of them, provided the limit is at least the number of entries. -/
theorem tbLoop_chain (N : Nat) (resp : List (AccountId × List OwnedToken)) :
    ∀ (b a limit : Nat) (tokens : List OwnedToken), 1 ≤ a → a + b ≤ N + 1 →
      b ≤ limit →
      tbLoop (chainN N) alice 1 0 false (chainEntries a b) resp tokens 1 limit =
        some (resp, tokens ++ ownedChain a b, 1) := by
  intro b
  induction b with
  | zero =>
    intro a limit tokens h1 h2 h3
    simp [chainEntries, ownedChain, tbLoop]
  | succ b ih =>
    intro a limit tokens h1 h2 h3
    have hstore : alookup (chainN N).issuer_tokens
        { issuer_id := 1, token := a } =
        some { owner := alice, metadata := mdOf a } :=
      alookup_chain_store 1 N a h1 (by omega)
    simp only [chainEntries, List.range'_succ, List.map_cons]
    rw [tbLoop]
    rw [if_neg (show ¬ (({ issuer_id := 1, owner := alice, class_id := a } : BalanceKey).owner ≠ alice) by simp)]
    rw [if_neg (show ¬ ((1 : Nat) ≠ ({ issuer_id := 1, owner := alice, class_id := a } : BalanceKey).issuer_id ∧ (1 : Nat) ≠ 0) by simp)]
    rw [if_neg (show ¬ ((1 : Nat) ≠ ({ issuer_id := 1, owner := alice, class_id := a } : BalanceKey).issuer_id) by simp)]
    simp only [hstore]
    rw [if_neg (show ¬ (¬ (false : Bool) = true ∧ (mdOf a).expires_at.getD 0 < 0) by simp [mdOf])]
    by_cases hstop : limit - 1 = 0
    · have hb : b = 0 := by omega
      subst hb
      rw [if_pos hstop]
      simp [ownedChain, List.range'_succ]
    · rw [if_neg hstop]
      have hrec := ih (a + 1) (limit - 1)
        (tokens ++ [{ token := a, metadata := mdOf a }])
        (by omega) (by omega) (by omega)
      simp only [chainEntries] at hrec
      rw [hrec]
      simp [ownedChain, List.range'_succ]

theorem iter_from_chain (a b : Nat) (h1 : 1 ≤ a) :
    iter_from (chainEntries a b) (balance_key alice 1 0) = chainEntries a b := by
  unfold iter_from
  apply List.filter_eq_self.mpr
  intro p hp
  simp only [chainEntries, List.mem_map] at hp
  obtain ⟨cl, hcl, rfl⟩ := hp
  have hcl1 : 1 ≤ cl := le_trans h1 (List.mem_range'_1.mp hcl).1
  apply decide_eq_true
  refine Or.inr ⟨rfl, Or.inr ⟨rfl, ?_⟩⟩
  show (0 : Nat) < cl
  exact hcl1

theorem ownedChain_length (a b : Nat) : (ownedChain a b).length = b := by
  simp only [ownedChain, List.length_map, List.length_range']

theorem ownedChain_ne_nil (n : Nat) (hn : 1 ≤ n) : ownedChain 1 n ≠ [] := by
  intro hEq
  have := congrArg List.length hEq
  rw [ownedChain_length] at this
  simp at this
  omega

/-- On a chain ledger with `n` tokens, the owner query with an explicit limit
of at least `n` returns all `n` tokens in a single group. -/
theorem tokens_by_owner_chainN (n limit : Nat) (hn : 1 ≤ n)
    (hlim : n ≤ limit) :
    sbt_tokens_by_owner (chainN n) alice (some issuerX) none (some limit)
      none 0 = some [(issuerX, ownedChain 1 n)] := by
  have hg : alookup (chainN n).ongoing_soul_tx alice = none := rfl
  have hiss : assert_issuer (chainN n) issuerX = some 1 := rfl
  have hmap : alookup (chainN n).issuer_id_map 1 = some issuerX := rfl
  have h1 : iter_from (chainN n).balances (balance_key alice 1 (0 - 1)) =
      chainEntries 1 n :=
    iter_from_chain 1 n (by omega)
  have h2 := tbLoop_chain n [] n 1 limit [] (by omega) (by omega) hlim
  simp only [List.nil_append] at h2
  unfold sbt_tokens_by_owner
  rw [if_neg (by simp)]
  rw [hg]
  rw [if_neg (by simp)]
  simp only [hiss]
  simp only [Option.getD_some, Option.getD_none]
  rw [if_neg (by omega)]
  rw [h1, h2]
  change (if (1 : Nat) ≠ 0 ∧ ownedChain 1 n ≠ [] then
        match alookup (chainN n).issuer_id_map 1 with
        | none => none
        | some a => some ([] ++ [(a, ownedChain 1 n)])
      else some []) = some [(issuerX, ownedChain 1 n)]
  rw [if_pos ⟨Nat.one_ne_zero, ownedChain_ne_nil n hn⟩]
  rw [hmap]
  simp only [List.nil_append]

/-- Claim C7 counterexample: 1000 is not a hard cap — an explicit
`limit = 1001` is used as given, and with 1001 token rows for the owner the
query emits 1001 entries. -/
theorem C7_counterexample :
    (sbt_tokens_by_owner (chainN 1001) alice (some issuerX) none (some 1001)
      none 0).map respCount = some 1001 ∧ MAX_LIMIT < 1001 := by
  refine ⟨?_, by norm_num [MAX_LIMIT]⟩
  rw [tokens_by_owner_chainN 1001 1001 (by omega) (by omega)]
  simp only [Option.map_some']
  simp only [respCount, List.map_cons, List.map_nil, List.sum_cons,
    List.sum_nil]
  rw [ownedChain_length]
  rfl

/-! ### Claim C8 -/

/-- Claim C8 counterexample: a token whose `expires_at` equals the current
block timestamp (the exact-equality boundary) is NOT filtered out: both
`sbt_tokens` and `sbt_tokens_by_owner` still return it with `with_expired`
unset. -/
theorem C8_counterexample :
    expSt.issuer_tokens.map (fun p => p.2.metadata.expires_at) = [some 100] ∧
    sbt_tokens expSt issuerX none none none 100 ≠ some [] ∧
    sbt_tokens_by_owner expSt alice none none none none 100 ≠ some [] := by
  decide

/-- Claim C8 (amended): the expiry filter is strict: a token is filtered
(when `with_expired` is not set) exactly when `expires_at` is set and is
strictly less than the current timestamp. Every token emitted by
`sbt_tokens` or `sbt_tokens_by_owner` has no expiry or expires at `now` or
later (unless `with_expired = true`), and every stored token in the scanned
window with `expires_at` unset or `≥ now` — including the exact-equality
boundary `expires_at = now` — is emitted by `sbt_tokens`. -/
theorem C8_expiry_filter :
    (∀ c issuer issuer_id ft lim we now res,
      alookup c.sbt_issuers issuer = some issuer_id →
      sbt_tokens c issuer ft lim we now = some res →
      (∀ t ∈ res, we = some true ∨ t.metadata.expires_at = none ∨
        ∃ e, t.metadata.expires_at = some e ∧ now ≤ e) ∧
      (∀ token td,
        alookup c.issuer_tokens { issuer_id := issuer_id, token := token } =
          some td →
        ft.getD 1 ≤ token →
        token < min (alookupD c.next_token_ids issuer_id 0 + 1)
          (ft.getD 1 + lim.getD MAX_LIMIT) →
        (we = some true ∨ now ≤ td.metadata.expires_at.getD now) →
        td.to_token token ∈ res)) ∧
    (∀ c account issuer fc lim we now res,
      sbt_tokens_by_owner c account issuer fc lim we now = some res →
      ∀ g ∈ res, ∀ ot ∈ g.2, we.getD false = true ∨
        ot.metadata.expires_at = none ∨
        ∃ e, ot.metadata.expires_at = some e ∧ now ≤ e) := by
  constructor
  · intro c issuer issuer_id ft lim we now res hiss h
    unfold sbt_tokens at h
    rw [hiss] at h
    simp only at h
    split at h
    · exact absurd h (by simp)
    · split at h
      · exact absurd h (by simp)
      · rename_i hft0 hlim0
        split at h
        · rename_i hmax
          simp only [Option.some.injEq] at h
          subst h
          refine ⟨by simp, ?_⟩
          intro token td hlook hge hlt _
          exfalso
          have h5 : token < alookupD c.next_token_ids issuer_id 0 + 1 :=
            lt_of_lt_of_le hlt (Nat.min_le_left _ _)
          omega
        · rename_i hmax
          simp only [Option.some.injEq] at h
          subst h
          constructor
          · intro t ht
            rcases List.mem_filterMap.mp ht with ⟨tok, htok, hf⟩
            cases hlook : alookup c.issuer_tokens
                { issuer_id := issuer_id, token := tok } with
            | none =>
              rw [hlook] at hf
              exact absurd hf (by simp)
            | some td =>
              rw [hlook] at hf
              simp only at hf
              split at hf
              · exact absurd hf (by simp)
              · rename_i hcond
                simp only [Option.some.injEq] at hf
                subst hf
                by_cases hwe : we = some true
                · exact Or.inl hwe
                · have hne : (!we.getD false) = true := by
                    cases we with
                    | none => rfl
                    | some b =>
                      cases b
                      · rfl
                      · exact absurd rfl hwe
                  have hnl : ¬ td.metadata.expires_at.getD now < now := by
                    intro hl
                    exact hcond ⟨hne, hl⟩
                  cases hexp : td.metadata.expires_at with
                  | none =>
                    refine Or.inr (Or.inl ?_)
                    simp [TokenData.to_token, hexp]
                  | some e =>
                    refine Or.inr (Or.inr ⟨e, ?_, ?_⟩)
                    · simp [TokenData.to_token, hexp]
                    · rw [hexp] at hnl
                      simpa using Nat.le_of_not_lt hnl
          · intro token td hlook hge hlt hok
            apply List.mem_filterMap.mpr
            refine ⟨token, ?_, ?_⟩
            · apply List.mem_range'_1.mpr
              constructor
              · exact hge
              · have hmax2 : ft.getD 1 ≤ alookupD c.next_token_ids issuer_id 0 :=
                  Nat.le_of_not_lt hmax
                have hge2 : ft.getD 1 ≤
                    min (alookupD c.next_token_ids issuer_id 0 + 1)
                      (ft.getD 1 + lim.getD MAX_LIMIT) :=
                  le_min (by omega) (Nat.le_add_right _ _)
                rw [Nat.add_sub_cancel' hge2]
                exact hlt
            · rw [hlook]
              simp only
              have hcnd : ¬ ((!we.getD false) = true ∧
                  td.metadata.expires_at.getD now < now) := by
                rcases hok with hok | hok
                · subst hok
                  simp
                · rintro ⟨_, hlt2⟩
                  omega
              rw [if_neg hcnd]
  · intro c account issuer fc lim we now res h
    unfold sbt_tokens_by_owner at h
    split at h
    · exact absurd h (by simp)
    · split at h
      · simp only [Option.some.injEq] at h
        subst h
        simp
      · split at h
        · exact absurd h (by simp)
        · rename_i issuer_id _
          simp only at h
          split at h
          · exact absurd h (by simp)
          · split at h
            · exact absurd h (by simp)
            · rename_i resp tokens prev htb
              have hok := tbLoop_tokOk _ _ _ _ _ _ _ _ _ [] [] _ _
                (by simp) (by simp) htb
              by_cases hflush : prev ≠ 0 ∧ tokens ≠ []
              · rw [if_pos hflush] at h
                cases hmap : alookup c.issuer_id_map prev with
                | none =>
                  rw [hmap] at h
                  exact absurd h (by simp)
                | some a =>
                  rw [hmap] at h
                  simp only [Option.some.injEq] at h
                  subst h
                  intro g hg ot hot
                  rcases List.mem_append.mp hg with hg1 | hg2
                  · exact hok.1 g hg1 ot hot
                  · rcases List.mem_singleton.mp hg2 with rfl
                    exact hok.2 ot hot
              · rw [if_neg hflush] at h
                simp only [Option.some.injEq] at h
                subst h
                intro g hg ot hot
                exact hok.1 g hg ot hot

/-- The boundary token of `expSt` as returned by queries. -/
def expTok : Token :=
  { token := 1, owner := alice, metadata := { mdOf 1 with expires_at := some 100 } }

/-- Witness for C8 (amended): at `expSt`, the token expiring exactly at the
query time 100 is emitted by `sbt_tokens` without `with_expired`. -/
theorem C8_expiry_filter_witness :
    ({ owner := alice, metadata := { mdOf 1 with expires_at := some 100 } } :
      TokenData).to_token 1 ∈ [expTok] :=
  (C8_expiry_filter.1 expSt issuerX 1 none none none 100 [expTok] (by decide)
    (by decide)).2 1
    { owner := alice, metadata := { mdOf 1 with expires_at := some 100 } }
    (by decide) (by decide) (by decide) (by decide)

/-! ### Claim C5 -/

/-- Rewrite a token with `expires_at = now` (the effect of soft revoke). -/
def softUpd (now : Nat) (td : TokenData) : TokenData :=
  { owner := td.owner, metadata := { td.metadata with expires_at := some now } }

theorem revokeSoftLoop_spec (issuer_id now : Nat) :
    ∀ (tokens : List Nat) (c : Contract),
      (∀ t ∈ tokens, (alookup c.issuer_tokens
        { issuer_id := issuer_id, token := t }).isSome = true) →
      ∃ c2, revokeSoftLoop issuer_id now tokens c = some c2 ∧
        c2.sbt_issuers = c.sbt_issuers ∧ c2.issuer_id_map = c.issuer_id_map ∧
        c2.banlist = c.banlist ∧ c2.supply_by_owner = c.supply_by_owner ∧
        c2.supply_by_class = c.supply_by_class ∧
        c2.supply_by_issuer = c.supply_by_issuer ∧ c2.balances = c.balances ∧
        c2.next_token_ids = c.next_token_ids ∧
        c2.next_issuer_id = c.next_issuer_id ∧
        c2.ongoing_soul_tx = c.ongoing_soul_tx ∧
        ∀ key : IssuerTokenId, alookup c2.issuer_tokens key =
          (if key.issuer_id = issuer_id ∧ key.token ∈ tokens then
            (alookup c.issuer_tokens key).map (softUpd now)
          else alookup c.issuer_tokens key) := by
  intro tokens
  induction tokens with
  | nil =>
    intro c hex
    refine ⟨c, rfl, rfl, rfl, rfl, rfl, rfl, rfl, rfl, rfl, rfl, rfl, ?_⟩
    intro key
    simp
  | cons t rest ih =>
    intro c hex
    have ht := hex t (List.mem_cons_self _ _)
    cases hlook : alookup c.issuer_tokens
        { issuer_id := issuer_id, token := t } with
    | none =>
      rw [hlook] at ht
      simp at ht
    | some td =>
      have hex2 : ∀ u ∈ rest,
          (alookup (ainsert c.issuer_tokens { issuer_id := issuer_id, token := t }
            (softUpd now td)) { issuer_id := issuer_id, token := u }).isSome =
            true := by
        intro u hu
        by_cases hut : u = t
        · subst hut
          rw [alookup_ainsert_self]
          rfl
        · rw [alookup_ainsert_ne]
          · exact hex u (List.mem_cons_of_mem _ hu)
          · intro hEq
            cases hEq
            exact hut rfl
      obtain ⟨c2, hrun, h1, h2, h3, h4, h5, h6, h7, h8, h9, h10, hchar⟩ :=
        ih { c with issuer_tokens := ainsert c.issuer_tokens { issuer_id := issuer_id, token := t } (softUpd now td) } hex2
      refine ⟨c2, ?_, h1, h2, h3, h4, h5, h6, h7, h8, h9, h10, ?_⟩
      · rw [revokeSoftLoop]
        unfold get_token
        rw [hlook]
        exact hrun
      · intro key
        rw [hchar key]
        by_cases hki : key.issuer_id = issuer_id
        · by_cases hkt : key.token = t
          · have hkey : key = { issuer_id := issuer_id, token := t } := by
              cases key
              simp_all
            subst hkey
            by_cases hmem : t ∈ rest
            · rw [if_pos ⟨rfl, hmem⟩, if_pos ⟨rfl, List.mem_cons_self _ _⟩]
              rw [alookup_ainsert_self, hlook]
              rfl
            · rw [if_neg (by simp [hmem]), if_pos ⟨rfl, List.mem_cons_self _ _⟩]
              rw [alookup_ainsert_self, hlook]
              rfl
          · have hne : key ≠ { issuer_id := issuer_id, token := t } := by
              intro hEq
              apply hkt
              rw [hEq]
            rw [alookup_ainsert_ne _ _ _ _ hne]
            by_cases hmem : key.token ∈ rest
            · rw [if_pos ⟨hki, hmem⟩, if_pos ⟨hki, List.mem_cons_of_mem _ hmem⟩]
            · rw [if_neg (by simp [hmem]), if_neg ?_]
              rintro ⟨_, hmem2⟩
              rcases List.mem_cons.mp hmem2 with h | h
              · exact hkt h
              · exact hmem h
        · have hne : key ≠ { issuer_id := issuer_id, token := t } := by
            intro hEq
            apply hki
            rw [hEq]
          rw [alookup_ainsert_ne _ _ _ _ hne]
          rw [if_neg (by simp [hki]), if_neg (by simp [hki])]

/-- Claim C5: soft revoke (`burn = false`) on a list of tokens existing under
the calling (registered) issuer succeeds and rewrites exactly the listed
tokens' metadata with `expires_at = now` (owner and other metadata fields
preserved, as `softUpd` states), leaving the balance index, all three supply
counters, and every other token row unchanged. -/
theorem C5_soft_revoke (c : Contract) (issuer : AccountId) (issuer_id : Nat)
    (tokens : List Nat) (now : Nat)
    (hiss : alookup c.sbt_issuers issuer = some issuer_id)
    (hex : ∀ t ∈ tokens, (get_token c issuer_id t).isSome = true) :
    ∃ c2, sbt_revoke c issuer tokens false now = some c2 ∧
      c2.balances = c.balances ∧
      c2.supply_by_owner = c.supply_by_owner ∧
      c2.supply_by_class = c.supply_by_class ∧
      c2.supply_by_issuer = c.supply_by_issuer ∧
      (∀ key : IssuerTokenId, key.issuer_id ≠ issuer_id ∨ key.token ∉ tokens →
        alookup c2.issuer_tokens key = alookup c.issuer_tokens key) ∧
      (∀ t ∈ tokens,
        alookup c2.issuer_tokens { issuer_id := issuer_id, token := t } =
          (alookup c.issuer_tokens { issuer_id := issuer_id, token := t }).map
            (softUpd now)) := by
  obtain ⟨c2, hrun, h1, h2, h3, h4, h5, h6, h7, h8, h9, h10, hchar⟩ :=
    revokeSoftLoop_spec issuer_id now tokens c hex
  refine ⟨c2, ?_, h7, h4, h5, h6, ?_, ?_⟩
  · unfold sbt_revoke assert_issuer
    rw [hiss]
    simp only [Bool.false_eq_true, if_false]
    exact hrun
  · intro key hk
    rw [hchar key]
    rw [if_neg ?_]
    rintro ⟨hic, hmem⟩
    rcases hk with hk | hk
    · exact hk hic
    · exact hk hmem
  · intro t ht
    rw [hchar { issuer_id := issuer_id, token := t }]
    rw [if_pos ⟨rfl, ht⟩]

/-- Witness for C5 at a concrete state: soft-revoking tokens 2 and 3 of
`mint7` at time 77 leaves the balance index unchanged and rewrites token 2
with `expires_at = 77`. -/
theorem C5_soft_revoke_witness :
    (sbt_revoke mint7 issuerX [2, 3] false 77).map (fun c2 => c2.balances) =
      some mint7.balances ∧
    (sbt_revoke mint7 issuerX [2, 3] false 77).map
      (fun c2 => alookup c2.issuer_tokens { issuer_id := 1, token := 2 }) =
      some (some (softUpd 77 { owner := alice, metadata := mdOf 2 })) := by
  obtain ⟨c2, hrun, hbal, _, _, _, hframe, hupd⟩ :=
    C5_soft_revoke mint7 issuerX 1 [2, 3] 77 (by decide) (by decide)
  rw [hrun]
  constructor
  · simp [hbal]
  · simp only [Option.map_some']
    rw [hupd 2 (by decide)]
    decide

/-! ### Claim C4 -/

theorem alookupD_bump_self {α : Type} [DecidableEq α] (l : List (α × Nat))
    (k : α) : alookupD (bump l k) k 0 = alookupD l k 0 + 1 := by
  induction l with
  | nil => simp [bump, alookupD, alookup]
  | cons p rest ih =>
    obtain ⟨a, n⟩ := p
    by_cases hk : k = a
    · subst hk
      simp [bump, alookupD, alookup]
    · simp only [bump, if_neg hk, alookupD, alookup, if_neg hk]
      exact ih

theorem alookupD_bump_ne {α : Type} [DecidableEq α] (l : List (α × Nat))
    (k k' : α) (h : k' ≠ k) : alookupD (bump l k) k' 0 = alookupD l k' 0 := by
  induction l with
  | nil => simp [bump, alookupD, alookup, h]
  | cons p rest ih =>
    obtain ⟨a, n⟩ := p
    by_cases hk : k = a
    · subst hk
      simp only [bump, if_pos rfl, alookupD, alookup, if_neg h]
    · by_cases hk' : k' = a
      · simp only [bump, if_neg hk, alookupD, alookup, if_pos hk']
      · simp only [bump, if_neg hk, alookupD, alookup, if_neg hk']
        exact ih

theorem akeys_bump {α : Type} [DecidableEq α] (l : List (α × Nat)) (k : α) :
    akeys (bump l k) = if k ∈ akeys l then akeys l else akeys l ++ [k] := by
  induction l with
  | nil => simp [bump, akeys]
  | cons p rest ih =>
    obtain ⟨a, n⟩ := p
    by_cases hk : k = a
    · subst hk
      simp [bump, akeys]
    · simp only [bump, if_neg hk, akeys, List.map_cons] at *
      rw [ih]
      by_cases hmem : k ∈ List.map Prod.fst rest
      · simp [List.mem_cons, hk, hmem]
      · simp [List.mem_cons, hk, hmem]

theorem aNodup_bump {α : Type} [DecidableEq α] (l : List (α × Nat)) (k : α)
    (h : aNodup l) : aNodup (bump l k) := by
  unfold aNodup
  rw [akeys_bump]
  by_cases hmem : k ∈ akeys l
  · simpa [hmem] using h
  · simp only [if_neg hmem]
    exact List.Nodup.append h (List.nodup_singleton k)
      (fun x hx hx2 => hmem (by rcases List.mem_singleton.mp hx2 with rfl; exact hx))

theorem mem_akeys_bump {α : Type} [DecidableEq α] {l : List (α × Nat)} {k o : α}
    (h : o ∈ akeys (bump l k)) : o ∈ akeys l ∨ o = k := by
  rw [akeys_bump] at h
  by_cases hmem : k ∈ akeys l
  · rw [if_pos hmem] at h
    exact Or.inl h
  · rw [if_neg hmem] at h
    rcases List.mem_append.mp h with h1 | h2
    · exact Or.inl h1
    · exact Or.inr (List.mem_singleton.mp h2)

/-- Number of listed tokens whose (current) owner is `o`. -/
def ownerCount (c : Contract) (issuer_id : Nat) (tokens : List Nat)
    (o : AccountId) : Nat :=
  (tokens.filter (fun t =>
    match alookup c.issuer_tokens { issuer_id := issuer_id, token := t } with
    | some td => decide (td.owner = o)
    | none => false)).length

/-- Number of listed tokens whose (current) class is `cl`. -/
def classCount (c : Contract) (issuer_id : Nat) (tokens : List Nat)
    (cl : Nat) : Nat :=
  (tokens.filter (fun t =>
    match alookup c.issuer_tokens { issuer_id := issuer_id, token := t } with
    | some td => decide (td.metadata.class_id = cl)
    | none => false)).length

theorem ownerCount_congr (c c2 : Contract) (issuer_id : Nat)
    (tokens : List Nat) (o : AccountId)
    (h : ∀ t ∈ tokens, alookup c2.issuer_tokens { issuer_id := issuer_id, token := t } =
      alookup c.issuer_tokens { issuer_id := issuer_id, token := t }) :
    ownerCount c2 issuer_id tokens o = ownerCount c issuer_id tokens o := by
  unfold ownerCount
  congr 1
  apply List.filter_congr
  intro t ht
  rw [h t ht]

theorem classCount_congr (c c2 : Contract) (issuer_id : Nat)
    (tokens : List Nat) (cl : Nat)
    (h : ∀ t ∈ tokens, alookup c2.issuer_tokens { issuer_id := issuer_id, token := t } =
      alookup c.issuer_tokens { issuer_id := issuer_id, token := t }) :
    classCount c2 issuer_id tokens cl = classCount c issuer_id tokens cl := by
  unfold classCount
  congr 1
  apply List.filter_congr
  intro t ht
  rw [h t ht]

theorem ownerCount_cons (c : Contract) (issuer_id t : Nat) (rest : List Nat)
    (o : AccountId) (td : TokenData)
    (hlook : alookup c.issuer_tokens { issuer_id := issuer_id, token := t } =
      some td) :
    ownerCount c issuer_id (t :: rest) o =
      (if td.owner = o then 1 else 0) + ownerCount c issuer_id rest o := by
  unfold ownerCount
  rw [List.filter_cons]
  simp only [hlook]
  by_cases h : td.owner = o
  · simp [h, Nat.add_comm]
  · simp [h]

theorem classCount_cons (c : Contract) (issuer_id t : Nat) (rest : List Nat)
    (cl : Nat) (td : TokenData)
    (hlook : alookup c.issuer_tokens { issuer_id := issuer_id, token := t } =
      some td) :
    classCount c issuer_id (t :: rest) cl =
      (if td.metadata.class_id = cl then 1 else 0) +
        classCount c issuer_id rest cl := by
  unfold classCount
  rw [List.filter_cons]
  simp only [hlook]
  by_cases h : td.metadata.class_id = cl
  · simp [h, Nat.add_comm]
  · simp [h]

theorem ownerCount_cons_le (c : Contract) (issuer_id t : Nat) (rest : List Nat)
    (o : AccountId) :
    ownerCount c issuer_id rest o ≤ ownerCount c issuer_id (t :: rest) o := by
  unfold ownerCount
  rw [List.filter_cons]
  split
  · simp
  · exact Nat.le_refl _

theorem classCount_cons_le (c : Contract) (issuer_id t : Nat) (rest : List Nat)
    (cl : Nat) :
    classCount c issuer_id rest cl ≤ classCount c issuer_id (t :: rest) cl := by
  unfold classCount
  rw [List.filter_cons]
  split
  · simp
  · exact Nat.le_refl _

theorem revokeBurnLoop_spec (issuer_id : Nat) :
    ∀ (tokens : List Nat) (c : Contract) (rpc : List (Nat × Nat))
      (rpo : List (AccountId × Nat)),
      tokens.Nodup →
      (∀ t ∈ tokens, (alookup c.issuer_tokens
        { issuer_id := issuer_id, token := t }).isSome = true) →
      aNodup c.balances → aNodup c.issuer_tokens →
      ∃ c1 rpc1 rpo1,
        revokeBurnLoop issuer_id tokens c rpc rpo = some (c1, rpc1, rpo1) ∧
        c1.sbt_issuers = c.sbt_issuers ∧ c1.issuer_id_map = c.issuer_id_map ∧
        c1.banlist = c.banlist ∧ c1.supply_by_owner = c.supply_by_owner ∧
        c1.supply_by_class = c.supply_by_class ∧
        c1.supply_by_issuer = c.supply_by_issuer ∧
        c1.next_token_ids = c.next_token_ids ∧
        c1.next_issuer_id = c.next_issuer_id ∧
        c1.ongoing_soul_tx = c.ongoing_soul_tx ∧
        aNodup c1.balances ∧ aNodup c1.issuer_tokens ∧
        (bsorted c.balances → bsorted c1.balances) ∧
        (∀ key : IssuerTokenId, alookup c1.issuer_tokens key =
          (if key.issuer_id = issuer_id ∧ key.token ∈ tokens then none
           else alookup c.issuer_tokens key)) ∧
        (∀ t ∈ tokens, ∀ td,
          alookup c.issuer_tokens { issuer_id := issuer_id, token := t } =
            some td →
          alookup c1.balances
            (balance_key td.owner issuer_id td.metadata.class_id) = none) ∧
        (∀ bk : BalanceKey,
          (∀ t ∈ tokens, ∀ td,
            alookup c.issuer_tokens { issuer_id := issuer_id, token := t } =
              some td →
            bk ≠ balance_key td.owner issuer_id td.metadata.class_id) →
          alookup c1.balances bk = alookup c.balances bk) ∧
        (∀ o, alookupD rpo1 o 0 =
          alookupD rpo o 0 + ownerCount c issuer_id tokens o) ∧
        (∀ cl, alookupD rpc1 cl 0 =
          alookupD rpc cl 0 + classCount c issuer_id tokens cl) ∧
        (aNodup rpo → aNodup rpo1) ∧ (aNodup rpc → aNodup rpc1) ∧
        (∀ o ∈ akeys rpo1, o ∈ akeys rpo ∨
          1 ≤ ownerCount c issuer_id tokens o) ∧
        (∀ cl ∈ akeys rpc1, cl ∈ akeys rpc ∨
          1 ≤ classCount c issuer_id tokens cl) := by
  intro tokens
  induction tokens with
  | nil =>
    intro c rpc rpo hnd hex hbn hin
    refine ⟨c, rpc, rpo, rfl, rfl, rfl, rfl, rfl, rfl, rfl, rfl, rfl, rfl,
      hbn, hin, fun h => h, ?_, ?_, ?_, ?_, ?_, fun h => h, fun h => h, ?_, ?_⟩
    · intro key
      simp
    · intro t ht
      simp at ht
    · intro bk _
      rfl
    · intro o
      simp [ownerCount]
    · intro cl
      simp [classCount]
    · intro o ho
      exact Or.inl ho
    · intro cl hcl
      exact Or.inl hcl
  | cons t rest ih =>
    intro c rpc rpo hnd hex hbn hin
    obtain ⟨hnt, hndr⟩ := List.nodup_cons.mp hnd
    have ht := hex t (List.mem_cons_self _ _)
    cases hlook : alookup c.issuer_tokens
        { issuer_id := issuer_id, token := t } with
    | none =>
      rw [hlook] at ht
      simp at ht
    | some td =>
      have hkey_ne : ∀ u : Nat, u ≠ t →
          ({ issuer_id := issuer_id, token := u } : IssuerTokenId) ≠
            { issuer_id := issuer_id, token := t } := by
        intro u hu hEq
        cases hEq
        exact hu rfl
      have hc2store : ∀ u ∈ rest,
          alookup (aremove c.issuer_tokens
              { issuer_id := issuer_id, token := t })
            { issuer_id := issuer_id, token := u } =
          alookup c.issuer_tokens { issuer_id := issuer_id, token := u } := by
        intro u hu
        exact alookup_aremove_ne _ _ _ (hkey_ne u (fun hEq => hnt (hEq ▸ hu)))
      obtain ⟨c1, rpc1, rpo1, hrun, f1, f2, f3, f4, f5, f6, f7, f8, f9,
          hbn1, hin1, hsort1, hstore, hbrm, hbfr, hcnto, hcntc, hndo, hndc,
          hko, hkc⟩ :=
        ih { c with
              balances := aremove c.balances
                (balance_key td.owner issuer_id td.metadata.class_id),
              issuer_tokens := aremove c.issuer_tokens
                { issuer_id := issuer_id, token := t } }
          (bump rpc td.metadata.class_id) (bump rpo td.owner) hndr
          (by
            intro u hu
            show (alookup (aremove c.issuer_tokens
              { issuer_id := issuer_id, token := t })
              { issuer_id := issuer_id, token := u }).isSome = true
            rw [hc2store u hu]
            exact hex u (List.mem_cons_of_mem _ hu))
          (aNodup_aremove _ _ hbn) (aNodup_aremove _ _ hin)
      have hcnto_eq : ∀ o, ownerCount { c with
            balances := aremove c.balances
              (balance_key td.owner issuer_id td.metadata.class_id),
            issuer_tokens := aremove c.issuer_tokens
              { issuer_id := issuer_id, token := t } } issuer_id rest o =
          ownerCount c issuer_id rest o := by
        intro o
        exact ownerCount_congr _ _ _ _ _ hc2store
      have hcntc_eq : ∀ cl, classCount { c with
            balances := aremove c.balances
              (balance_key td.owner issuer_id td.metadata.class_id),
            issuer_tokens := aremove c.issuer_tokens
              { issuer_id := issuer_id, token := t } } issuer_id rest cl =
          classCount c issuer_id rest cl := by
        intro cl
        exact classCount_congr _ _ _ _ _ hc2store
      refine ⟨c1, rpc1, rpo1, ?_, f1, f2, f3, f4, f5, f6, f7, f8, f9,
        hbn1, hin1, ?_, ?_, ?_, ?_, ?_, ?_, ?_, ?_, ?_, ?_⟩
      · rw [revokeBurnLoop]
        unfold get_token
        rw [hlook]
        exact hrun
      · intro hs
        exact hsort1 (bsorted_aremove _ _ hs)
      · intro key
        rw [hstore key]
        by_cases hki : key.issuer_id = issuer_id
        · by_cases hkt : key.token = t
          · have hkey : key = { issuer_id := issuer_id, token := t } := by
              cases key
              simp_all
            subst hkey
            by_cases hmem : t ∈ rest
            · exact absurd hmem hnt
            · rw [if_neg (by simp [hmem]),
                if_pos ⟨rfl, List.mem_cons_self _ _⟩]
              exact alookup_aremove_self _ _ hin
          · by_cases hmem : key.token ∈ rest
            · rw [if_pos ⟨hki, hmem⟩, if_pos ⟨hki, List.mem_cons_of_mem _ hmem⟩]
            · rw [if_neg (by simp [hmem]), if_neg ?_]
              · exact alookup_aremove_ne _ _ _
                  (by
                    intro hEq
                    apply hkt
                    rw [hEq])
              · rintro ⟨_, hmem2⟩
                rcases List.mem_cons.mp hmem2 with h | h
                · exact hkt h
                · exact hmem h
        · rw [if_neg (by simp [hki]), if_neg (by simp [hki])]
          exact alookup_aremove_ne _ _ _
            (by
              intro hEq
              apply hki
              rw [hEq])
      · intro u hu td2 hlook2
        rcases List.mem_cons.mp hu with rfl | hu2
        · rw [hlook] at hlook2
          injection hlook2 with hEq
          subst hEq
          by_cases hcov : ∀ v ∈ rest, ∀ tdv,
              alookup c.issuer_tokens { issuer_id := issuer_id, token := v } =
                some tdv →
              balance_key td.owner issuer_id td.metadata.class_id ≠
                balance_key tdv.owner issuer_id tdv.metadata.class_id
          · rw [hbfr _ ?_]
            · exact alookup_aremove_self _ _ hbn
            · intro v hv tdv hlv
              rw [hc2store v hv] at hlv
              exact hcov v hv tdv hlv
          · push_neg at hcov
            obtain ⟨v, hv, tdv, hlv, hbkEq⟩ := hcov
            rw [hbkEq]
            exact hbrm v hv tdv (by rw [hc2store v hv]; exact hlv)
        · exact hbrm u hu2 td2 (by rw [hc2store u hu2]; exact hlook2)
      · intro bk hbk
        rw [hbfr bk ?_]
        · show alookup (aremove c.balances
            (balance_key td.owner issuer_id td.metadata.class_id)) bk =
            alookup c.balances bk
          exact alookup_aremove_ne _ _ _
            (hbk t (List.mem_cons_self _ _) td hlook)
        · intro v hv tdv hlv
          rw [hc2store v hv] at hlv
          exact hbk v (List.mem_cons_of_mem _ hv) tdv hlv
      · intro o
        rw [hcnto o, hcnto_eq o,
          ownerCount_cons c issuer_id t rest o td hlook]
        by_cases ho : td.owner = o
        · rw [ho, alookupD_bump_self]
          simp [ho]
          omega
        · rw [alookupD_bump_ne _ _ _ (fun hEq => ho hEq.symm)]
          simp [ho]
      · intro cl
        rw [hcntc cl, hcntc_eq cl,
          classCount_cons c issuer_id t rest cl td hlook]
        by_cases hcl : td.metadata.class_id = cl
        · rw [hcl, alookupD_bump_self]
          simp [hcl]
          omega
        · rw [alookupD_bump_ne _ _ _ (fun hEq => hcl hEq.symm)]
          simp [hcl]
      · intro h
        exact hndo (aNodup_bump _ _ h)
      · intro h
        exact hndc (aNodup_bump _ _ h)
      · intro o ho
        rcases hko o ho with h1 | h1
        · rcases mem_akeys_bump h1 with h2 | h2
          · exact Or.inl h2
          · refine Or.inr ?_
            rw [ownerCount_cons c issuer_id t rest o td hlook]
            rw [if_pos h2.symm]  
            omega
        · refine Or.inr ?_
          rw [hcnto_eq o] at h1
          exact le_trans h1 (ownerCount_cons_le c issuer_id t rest o)
      · intro cl hcl
        rcases hkc cl hcl with h1 | h1
        · rcases mem_akeys_bump h1 with h2 | h2
          · exact Or.inl h2
          · refine Or.inr ?_
            rw [classCount_cons c issuer_id t rest cl td hlook]
            rw [if_pos h2.symm]
            omega
        · refine Or.inr ?_
          rw [hcntc_eq cl] at h1
          exact le_trans h1 (classCount_cons_le c issuer_id t rest cl)

theorem map_sub_zero (x : Option Nat) :
    x.map (fun old => old - 0) = x := by
  cases x
  · rfl
  · rfl

theorem applyOwnerDecs_spec (issuer_id : Nat) :
    ∀ (rpo : List (AccountId × Nat)) (c : Contract),
      aNodup rpo →
      (∀ o ∈ akeys rpo, ∃ old,
        alookup c.supply_by_owner (o, issuer_id) = some old ∧
        alookupD rpo o 0 ≤ old) →
      ∃ c2, applyOwnerDecs issuer_id rpo c = some c2 ∧
        c2.sbt_issuers = c.sbt_issuers ∧ c2.issuer_id_map = c.issuer_id_map ∧
        c2.banlist = c.banlist ∧ c2.supply_by_class = c.supply_by_class ∧
        c2.supply_by_issuer = c.supply_by_issuer ∧ c2.balances = c.balances ∧
        c2.issuer_tokens = c.issuer_tokens ∧
        c2.next_token_ids = c.next_token_ids ∧
        c2.next_issuer_id = c.next_issuer_id ∧
        c2.ongoing_soul_tx = c.ongoing_soul_tx ∧
        (∀ o, alookup c2.supply_by_owner (o, issuer_id) =
          (alookup c.supply_by_owner (o, issuer_id)).map
            (fun old => old - alookupD rpo o 0)) ∧
        (∀ k : AccountId × Nat, k.2 ≠ issuer_id →
          alookup c2.supply_by_owner k = alookup c.supply_by_owner k) := by
  intro rpo
  induction rpo with
  | nil =>
    intro c _ _
    refine ⟨c, rfl, rfl, rfl, rfl, rfl, rfl, rfl, rfl, rfl, rfl, rfl, ?_, ?_⟩
    · intro o
      rw [show alookupD ([] : List (AccountId × Nat)) o 0 = 0 from rfl]
      exact (map_sub_zero _).symm
    · intro k _
      rfl
  | cons p rest ih =>
    intro c hnd hex
    obtain ⟨o, n⟩ := p
    have hndk := hnd
    unfold aNodup akeys at hndk
    rw [List.map_cons, List.nodup_cons] at hndk
    have hhead := hex o (by
      show o ∈ akeys ((o, n) :: rest)
      unfold akeys
      rw [List.map_cons]
      exact List.mem_cons_self _ _)
    obtain ⟨old, hlooko, hle⟩ := hhead
    have hDn : alookupD ((o, n) :: rest) o 0 = n := by
      simp [alookupD, alookup]
    rw [hDn] at hle
    have hex2 : ∀ o2 ∈ akeys rest, ∃ old2,
        alookup { c with supply_by_owner := ainsert c.supply_by_owner (o, issuer_id) (old - n) }.supply_by_owner (o2, issuer_id) =
          some old2 ∧ alookupD rest o2 0 ≤ old2 := by
      intro o2 ho2
      have ho2o : o2 ≠ o := fun hEq => hndk.1 (hEq ▸ ho2)
      obtain ⟨old2, hl2, hle2⟩ := hex o2 (by
        show o2 ∈ akeys ((o, n) :: rest)
        unfold akeys
        rw [List.map_cons]
        exact List.mem_cons_of_mem _ ho2)
      refine ⟨old2, ?_, ?_⟩
      · show alookup (ainsert c.supply_by_owner (o, issuer_id) (old - n))
          (o2, issuer_id) = some old2
        rw [alookup_ainsert_ne _ _ _ _ (by simp [ho2o])]
        exact hl2
      · have : alookupD ((o, n) :: rest) o2 0 = alookupD rest o2 0 := by
          simp [alookupD, alookup, ho2o]
        rw [this] at hle2
        exact hle2
    obtain ⟨c2, hrun, g1, g2, g3, g4, g5, g6, g7, g8, g9, g10, hmap, hfr⟩ :=
      ih { c with supply_by_owner := ainsert c.supply_by_owner (o, issuer_id) (old - n) } (by
          unfold aNodup akeys at hnd ⊢
          rw [List.map_cons, List.nodup_cons] at hnd
          exact hnd.2) hex2
    refine ⟨c2, ?_, g1, g2, g3, g4, g5, g6, g7, g8, g9, g10, ?_, ?_⟩
    · rw [applyOwnerDecs]
      rw [hlooko]
      simp only
      rw [if_neg (Nat.not_lt.mpr hle)]
      exact hrun
    · intro o2
      by_cases ho2 : o2 = o
      · subst ho2
        have hnotin : o2 ∉ akeys rest := hndk.1
        have hD0 : alookupD rest o2 0 = 0 :=
          by simp [alookupD, alookup_eq_none_of_not_mem hnotin]
        rw [hmap o2, hD0, map_sub_zero]
        show alookup (ainsert c.supply_by_owner (o2, issuer_id) (old - n))
          (o2, issuer_id) = _
        rw [alookup_ainsert_self, hlooko, hDn]
        rfl
      · have hDe : alookupD ((o, n) :: rest) o2 0 = alookupD rest o2 0 := by
          simp [alookupD, alookup, ho2]
        rw [hmap o2, hDe]
        show ((alookup (ainsert c.supply_by_owner (o, issuer_id) (old - n))
          (o2, issuer_id)).map _) = _
        rw [alookup_ainsert_ne _ _ _ _ (by simp [ho2])]
    · intro k hk
      rw [hfr k hk]
      show alookup (ainsert c.supply_by_owner (o, issuer_id) (old - n)) k =
        alookup c.supply_by_owner k
      rw [alookup_ainsert_ne _ _ _ _ (by
        intro hEq
        apply hk
        rw [hEq])]

theorem applyClassDecs_spec (issuer_id : Nat) :
    ∀ (rpc : List (Nat × Nat)) (c : Contract),
      aNodup rpc →
      (∀ cl ∈ akeys rpc, ∃ old,
        alookup c.supply_by_class (issuer_id, cl) = some old ∧
        alookupD rpc cl 0 ≤ old) →
      ∃ c2, applyClassDecs issuer_id rpc c = some c2 ∧
        c2.sbt_issuers = c.sbt_issuers ∧ c2.issuer_id_map = c.issuer_id_map ∧
        c2.banlist = c.banlist ∧ c2.supply_by_owner = c.supply_by_owner ∧
        c2.supply_by_issuer = c.supply_by_issuer ∧ c2.balances = c.balances ∧
        c2.issuer_tokens = c.issuer_tokens ∧
        c2.next_token_ids = c.next_token_ids ∧
        c2.next_issuer_id = c.next_issuer_id ∧
        c2.ongoing_soul_tx = c.ongoing_soul_tx ∧
        (∀ cl, alookup c2.supply_by_class (issuer_id, cl) =
          (alookup c.supply_by_class (issuer_id, cl)).map
            (fun old => old - alookupD rpc cl 0)) ∧
        (∀ k : Nat × Nat, k.1 ≠ issuer_id →
          alookup c2.supply_by_class k = alookup c.supply_by_class k) := by
  intro rpc
  induction rpc with
  | nil =>
    intro c _ _
    refine ⟨c, rfl, rfl, rfl, rfl, rfl, rfl, rfl, rfl, rfl, rfl, rfl, ?_, ?_⟩
    · intro cl
      rw [show alookupD ([] : List (Nat × Nat)) cl 0 = 0 from rfl]
      exact (map_sub_zero _).symm
    · intro k _
      rfl
  | cons p rest ih =>
    intro c hnd hex
    obtain ⟨cl, n⟩ := p
    have hndk := hnd
    unfold aNodup akeys at hndk
    rw [List.map_cons, List.nodup_cons] at hndk
    have hhead := hex cl (by
      show cl ∈ akeys ((cl, n) :: rest)
      unfold akeys
      rw [List.map_cons]
      exact List.mem_cons_self _ _)
    obtain ⟨old, hlookc, hle⟩ := hhead
    have hDn : alookupD ((cl, n) :: rest) cl 0 = n := by
      simp [alookupD, alookup]
    rw [hDn] at hle
    have hex2 : ∀ c2m ∈ akeys rest, ∃ old2,
        alookup { c with supply_by_class := ainsert c.supply_by_class (issuer_id, cl) (old - n) }.supply_by_class (issuer_id, c2m) =
          some old2 ∧ alookupD rest c2m 0 ≤ old2 := by
      intro c2m hc2m
      have hcc : c2m ≠ cl := fun hEq => hndk.1 (hEq ▸ hc2m)
      obtain ⟨old2, hl2, hle2⟩ := hex c2m (by
        show c2m ∈ akeys ((cl, n) :: rest)
        unfold akeys
        rw [List.map_cons]
        exact List.mem_cons_of_mem _ hc2m)
      refine ⟨old2, ?_, ?_⟩
      · show alookup (ainsert c.supply_by_class (issuer_id, cl) (old - n))
          (issuer_id, c2m) = some old2
        rw [alookup_ainsert_ne _ _ _ _ (by simp [hcc])]
        exact hl2
      · have : alookupD ((cl, n) :: rest) c2m 0 = alookupD rest c2m 0 := by
          simp [alookupD, alookup, hcc]
        rw [this] at hle2
        exact hle2
    obtain ⟨c2, hrun, g1, g2, g3, g4, g5, g6, g7, g8, g9, g10, hmap, hfr⟩ :=
      ih { c with supply_by_class := ainsert c.supply_by_class (issuer_id, cl) (old - n) } (by
          unfold aNodup akeys at hnd ⊢
          rw [List.map_cons, List.nodup_cons] at hnd
          exact hnd.2) hex2
    refine ⟨c2, ?_, g1, g2, g3, g4, g5, g6, g7, g8, g9, g10, ?_, ?_⟩
    · rw [applyClassDecs]
      rw [hlookc]
      simp only
      rw [if_neg (Nat.not_lt.mpr hle)]
      exact hrun
    · intro c2m
      by_cases hc2m : c2m = cl
      · subst hc2m
        have hnotin : c2m ∉ akeys rest := hndk.1
        have hD0 : alookupD rest c2m 0 = 0 :=
          by simp [alookupD, alookup_eq_none_of_not_mem hnotin]
        rw [hmap c2m, hD0, map_sub_zero]
        show alookup (ainsert c.supply_by_class (issuer_id, c2m) (old - n))
          (issuer_id, c2m) = _
        rw [alookup_ainsert_self, hlookc, hDn]
        rfl
      · have hDe : alookupD ((cl, n) :: rest) c2m 0 = alookupD rest c2m 0 := by
          simp [alookupD, alookup, hc2m]
        rw [hmap c2m, hDe]
        show ((alookup (ainsert c.supply_by_class (issuer_id, cl) (old - n))
          (issuer_id, c2m)).map _) = _
        rw [alookup_ainsert_ne _ _ _ _ (by simp [hc2m])]
    · intro k hk
      rw [hfr k hk]
      show alookup (ainsert c.supply_by_class (issuer_id, cl) (old - n)) k =
        alookup c.supply_by_class k
      rw [alookup_ainsert_ne _ _ _ _ (by
        intro hEq
        apply hk
        rw [hEq])]

/-- Claim C4: burn-revoking a list of distinct token ids that all exist
under the calling (registered) issuer removes each listed token from the
token store and its balance key from the balance index, and decrements each
of the three supply counters by exactly the number of listed tokens matching
its key (per owner, per class, per issuer) — each counter key updated once
even when several listed tokens share it — leaving all unrelated keys
untouched. (The counter hypotheses say each touched counter exists and is
large enough, which is exactly the no-underflow condition of the source.) -/
theorem C4_burn_revoke (c : Contract) (issuer : AccountId) (issuer_id : Nat)
    (tokens : List Nat) (now : Nat)
    (hiss : alookup c.sbt_issuers issuer = some issuer_id)
    (hnd : tokens.Nodup)
    (hex : ∀ t ∈ tokens, (get_token c issuer_id t).isSome = true)
    (hbn : aNodup c.balances) (hin : aNodup c.issuer_tokens)
    (hsbo : ∀ o, 1 ≤ ownerCount c issuer_id tokens o → ∃ old,
      alookup c.supply_by_owner (o, issuer_id) = some old ∧
      ownerCount c issuer_id tokens o ≤ old)
    (hsbc : ∀ cl, 1 ≤ classCount c issuer_id tokens cl → ∃ old,
      alookup c.supply_by_class (issuer_id, cl) = some old ∧
      classCount c issuer_id tokens cl ≤ old)
    (hsbi : tokens.length ≤ alookupD c.supply_by_issuer issuer_id 0) :
    ∃ c3, sbt_revoke c issuer tokens true now = some c3 ∧
      (∀ t ∈ tokens,
        alookup c3.issuer_tokens { issuer_id := issuer_id, token := t } =
          none) ∧
      (∀ key : IssuerTokenId, key.issuer_id ≠ issuer_id ∨ key.token ∉ tokens →
        alookup c3.issuer_tokens key = alookup c.issuer_tokens key) ∧
      (∀ t ∈ tokens, ∀ td,
        alookup c.issuer_tokens { issuer_id := issuer_id, token := t } =
          some td →
        alookup c3.balances
          (balance_key td.owner issuer_id td.metadata.class_id) = none) ∧
      (∀ bk : BalanceKey,
        (∀ t ∈ tokens, ∀ td,
          alookup c.issuer_tokens { issuer_id := issuer_id, token := t } =
            some td →
          bk ≠ balance_key td.owner issuer_id td.metadata.class_id) →
        alookup c3.balances bk = alookup c.balances bk) ∧
      (∀ o, alookup c3.supply_by_owner (o, issuer_id) =
        (alookup c.supply_by_owner (o, issuer_id)).map
          (fun old => old - ownerCount c issuer_id tokens o)) ∧
      (∀ k : AccountId × Nat, k.2 ≠ issuer_id →
        alookup c3.supply_by_owner k = alookup c.supply_by_owner k) ∧
      (∀ cl, alookup c3.supply_by_class (issuer_id, cl) =
        (alookup c.supply_by_class (issuer_id, cl)).map
          (fun old => old - classCount c issuer_id tokens cl)) ∧
      (∀ k : Nat × Nat, k.1 ≠ issuer_id →
        alookup c3.supply_by_class k = alookup c.supply_by_class k) ∧
      alookup c3.supply_by_issuer issuer_id =
        some (alookupD c.supply_by_issuer issuer_id 0 - tokens.length) ∧
      (∀ i, i ≠ issuer_id →
        alookup c3.supply_by_issuer i = alookup c.supply_by_issuer i) := by
  obtain ⟨c1, rpc1, rpo1, hrun1, f1, f2, f3, f4, f5, f6, f7, f8, f9,
      hbn1, hin1, hsort1, hstore, hbrm, hbfr, hcnto, hcntc, hndo, hndc,
      hko, hkc⟩ :=
    revokeBurnLoop_spec issuer_id tokens c [] [] hnd hex hbn hin
  have hcnto0 : ∀ o, alookupD rpo1 o 0 = ownerCount c issuer_id tokens o := by
    intro o
    rw [hcnto o, show alookupD ([] : List (AccountId × Nat)) o 0 = 0 from rfl,
      Nat.zero_add]
  have hcntc0 : ∀ cl, alookupD rpc1 cl 0 = classCount c issuer_id tokens cl := by
    intro cl
    rw [hcntc cl, show alookupD ([] : List (Nat × Nat)) cl 0 = 0 from rfl,
      Nat.zero_add]
  obtain ⟨c2, hrun2, g1, g2, g3, g4, g5, g6, g7, g8, g9, g10, hmapO, hfrO⟩ :=
    applyOwnerDecs_spec issuer_id rpo1 c1
      (hndo (by unfold aNodup akeys; simp))
      (by
        intro o ho
        rcases hko o ho with h1 | h1
        · simp [akeys] at h1
        · obtain ⟨old, hlo, hle⟩ := hsbo o h1
          refine ⟨old, ?_, ?_⟩
          · rw [f4]
            exact hlo
          · rw [hcnto0 o]
            exact hle)
  obtain ⟨c2b, hrun3, k1, k2, k3, k4, k5, k6, k7, k8, k9, k10, hmapC, hfrC⟩ :=
    applyClassDecs_spec issuer_id rpc1 c2
      (hndc (by unfold aNodup akeys; simp))
      (by
        intro cl hcl
        rcases hkc cl hcl with h1 | h1
        · simp [akeys] at h1
        · obtain ⟨old, hlc, hle⟩ := hsbc cl h1
          refine ⟨old, ?_, ?_⟩
          · rw [g4, f5]
            exact hlc
          · rw [hcntc0 cl]
            exact hle)
  have hsbieq : c2b.supply_by_issuer = c.supply_by_issuer := by
    rw [k5, g5, f6]
  have hsbi2 : ¬ alookupD c2b.supply_by_issuer issuer_id 0 < tokens.length := by
    rw [hsbieq]
    exact Nat.not_lt.mpr hsbi
  refine ⟨{ c2b with supply_by_issuer := ainsert c2b.supply_by_issuer issuer_id (alookupD c2b.supply_by_issuer issuer_id 0 - tokens.length) },
    ?_, ?_, ?_, ?_, ?_, ?_, ?_, ?_, ?_, ?_, ?_⟩
  · unfold sbt_revoke assert_issuer
    rw [hiss]
    simp only
    rw [hrun1]
    simp only
    rw [hrun2]
    simp only
    rw [hrun3]
    simp only
    rw [if_neg hsbi2]
    simp only [if_true]
  · intro t ht
    show alookup c2b.issuer_tokens _ = none
    rw [k7, g7, hstore]
    rw [if_pos ⟨rfl, ht⟩]
  · intro key hk
    show alookup c2b.issuer_tokens key = _
    rw [k7, g7, hstore]
    rw [if_neg ?_]
    rintro ⟨h1, h2⟩
    rcases hk with hk | hk
    · exact hk h1
    · exact hk h2
  · intro t ht td hlook
    show alookup c2b.balances _ = none
    rw [k6, g6]
    exact hbrm t ht td hlook
  · intro bk hbk
    show alookup c2b.balances bk = _
    rw [k6, g6]
    exact hbfr bk hbk
  · intro o
    show alookup c2b.supply_by_owner (o, issuer_id) = _
    rw [k4, hmapO o, f4, hcnto0 o]
  · intro k hk
    show alookup c2b.supply_by_owner k = _
    rw [k4, hfrO k hk, f4]
  · intro cl
    show alookup c2b.supply_by_class (issuer_id, cl) = _
    rw [hmapC cl, g4, f5, hcntc0 cl]
  · intro k hk
    show alookup c2b.supply_by_class k = _
    rw [hfrC k hk, g4, f5]
  · show alookup (ainsert c2b.supply_by_issuer issuer_id
      (alookupD c2b.supply_by_issuer issuer_id 0 - tokens.length))
      issuer_id = _
    rw [alookup_ainsert_self, hsbieq]
  · intro i hi
    show alookup (ainsert c2b.supply_by_issuer issuer_id
      (alookupD c2b.supply_by_issuer issuer_id 0 - tokens.length)) i = _
    rw [alookup_ainsert_ne _ _ _ _ hi, hsbieq]

/-- Witness for C4 at a concrete state: burn-revoking the single token of
`expSt` empties the token store row, the balance entry, and takes all three
counters to 0. -/
theorem C4_burn_revoke_witness :
    ∃ c3, sbt_revoke expSt issuerX [1] true 0 = some c3 ∧
      alookup c3.issuer_tokens { issuer_id := 1, token := 1 } = none ∧
      alookup c3.balances (balance_key alice 1 1) = none ∧
      alookup c3.supply_by_owner (alice, 1) = some 0 ∧
      alookup c3.supply_by_class (1, 1) = some 0 ∧
      alookup c3.supply_by_issuer 1 = some 0 := by
  obtain ⟨c3, hrun, hrm, hfr, hbrm, hbfrm, hsbo2, hf1, hsbc2, hf2, hsbi2, hf3⟩ :=
    C4_burn_revoke expSt issuerX 1 [1] 0 (by decide) (by decide) (by decide)
      (by decide) (by decide)
      (by
        intro o ho
        by_cases hoa : o = alice
        · subst hoa
          exact ⟨1, by decide, by decide⟩
        · exfalso
          have h0 : ownerCount expSt 1 [1] o = 0 := by
            unfold ownerCount
            rw [List.length_eq_zero, List.filter_eq_nil_iff]
            intro t ht
            rcases List.mem_singleton.mp ht with rfl
            show ¬ decide (alice = o) = true
            simp only [decide_eq_true_eq]
            exact fun h => hoa h.symm
          rw [h0] at ho
          omega)
      (by
        intro cl hcl
        by_cases hcl1 : cl = 1
        · subst hcl1
          exact ⟨1, by decide, by decide⟩
        · exfalso
          have h0 : classCount expSt 1 [1] cl = 0 := by
            unfold classCount
            rw [List.length_eq_zero, List.filter_eq_nil_iff]
            intro t ht
            rcases List.mem_singleton.mp ht with rfl
            show ¬ decide (1 = cl) = true
            simp only [decide_eq_true_eq]
            exact fun h => hcl1 h.symm
          rw [h0] at hcl
          omega)
      (by decide)
  refine ⟨c3, hrun, hrm 1 (by decide), ?_, ?_, ?_, ?_⟩
  · exact hbrm 1 (by decide)
      { owner := alice, metadata := { mdOf 1 with expires_at := some 100 } }
      (by decide)
  · rw [hsbo2 alice]
    decide
  · rw [hsbc2 1]
    decide
  · rw [hsbi2]
    decide

/-! ### System well-formedness (for the supply invariant and revoke-by-owner) -/

/-- Number of live tokens of a given issuer. -/
def tokCountByIssuer (c : Contract) (i : Nat) : Nat :=
  (c.issuer_tokens.filter (fun q => decide (q.1.issuer_id = i))).length

/-- Number of live tokens of a given issuer and class. -/
def tokCountByClass (c : Contract) (i cl : Nat) : Nat :=
  (c.issuer_tokens.filter (fun q =>
    decide (q.1.issuer_id = i ∧ q.2.metadata.class_id = cl))).length

/-- Number of live tokens of a given owner and issuer. -/
def tokCountByOwner (c : Contract) (o : AccountId) (i : Nat) : Nat :=
  (c.issuer_tokens.filter (fun q =>
    decide (q.1.issuer_id = i ∧ q.2.owner = o))).length

/-- Well-formed ledger state: sorted unique balance index consistent with the
token store in both directions, supply counters equal to live-token counts
(with every live token's key present in the counter maps), fresh token ids
bounded by `next_token_ids`, and a consistent issuer directory. -/
def SWF (c : Contract) : Prop :=
  bsorted c.balances ∧
  aNodup c.issuer_tokens ∧
  (∀ p ∈ c.balances,
    (alookup c.issuer_tokens { issuer_id := p.1.issuer_id, token := p.2 }).map
      (fun td => (td.owner, td.metadata.class_id)) =
      some (p.1.owner, p.1.class_id)) ∧
  (∀ q ∈ c.issuer_tokens,
    alookup c.balances
      (balance_key q.2.owner q.1.issuer_id q.2.metadata.class_id) =
      some q.1.token) ∧
  (∀ p ∈ c.balances, 1 ≤ p.1.issuer_id ∧ 1 ≤ p.1.class_id) ∧
  (∀ p ∈ c.balances, (alookup c.issuer_id_map p.1.issuer_id).isSome = true) ∧
  (∀ q ∈ c.issuer_tokens, 1 ≤ q.1.token ∧
    q.1.token ≤ alookupD c.next_token_ids q.1.issuer_id 0) ∧
  (∀ p ∈ c.supply_by_owner, p.2 = tokCountByOwner c p.1.1 p.1.2) ∧
  (∀ q ∈ c.issuer_tokens,
    (q.2.owner, q.1.issuer_id) ∈ akeys c.supply_by_owner) ∧
  (∀ p ∈ c.supply_by_class, p.2 = tokCountByClass c p.1.1 p.1.2) ∧
  (∀ q ∈ c.issuer_tokens,
    (q.1.issuer_id, q.2.metadata.class_id) ∈ akeys c.supply_by_class) ∧
  (∀ p ∈ c.supply_by_issuer, p.2 = tokCountByIssuer c p.1) ∧
  (∀ q ∈ c.issuer_tokens, q.1.issuer_id ∈ akeys c.supply_by_issuer) ∧
  aNodup c.supply_by_owner ∧ aNodup c.supply_by_class ∧
  aNodup c.supply_by_issuer ∧
  (∀ p ∈ c.sbt_issuers, 1 ≤ p.2 ∧ p.2 < c.next_issuer_id ∧
    alookup c.issuer_id_map p.2 = some p.1) ∧
  (∀ p ∈ c.issuer_id_map, p.1 < c.next_issuer_id) ∧
  1 ≤ c.next_issuer_id

instance SWFDec (c : Contract) : Decidable (SWF c) := by
  unfold SWF
  infer_instance

theorem alookup_of_mem_nodup {α β : Type} [DecidableEq α]
    {l : List (α × β)} {k : α} {v : β} (hnd : aNodup l) (hm : (k, v) ∈ l) :
    alookup l k = some v := by
  induction l with
  | nil => simp at hm
  | cons p rest ih =>
    obtain ⟨a, b⟩ := p
    unfold aNodup akeys at hnd
    rw [List.map_cons, List.nodup_cons] at hnd
    rcases List.mem_cons.mp hm with hEq | hm2
    · injection hEq with h1 h2
      subst h1
      subst h2
      simp [alookup]
    · have hka : k ≠ a := by
        intro hEq
        subst hEq
        exact hnd.1 (List.mem_map.mpr ⟨(k, v), hm2, rfl⟩)
      rw [alookup, if_neg hka]
      exact ih hnd.2 hm2

theorem alookup_isSome_of_mem_akeys {α β : Type} [DecidableEq α]
    {l : List (α × β)} {k : α} (hm : k ∈ akeys l) :
    (alookup l k).isSome = true := by
  induction l with
  | nil => simp [akeys] at hm
  | cons p rest ih =>
    obtain ⟨a, b⟩ := p
    unfold akeys at hm
    rw [List.map_cons] at hm
    by_cases hka : k = a
    · rw [alookup, if_pos hka]
      rfl
    · rw [alookup, if_neg hka]
      rcases List.mem_cons.mp hm with hEq | hm2
      · exact absurd hEq hka
      · exact ih hm2

theorem mem_akeys_of_alookup {α β : Type} [DecidableEq α]
    {l : List (α × β)} {k : α} {v : β} (h : alookup l k = some v) :
    k ∈ akeys l :=
  List.mem_map.mpr ⟨(k, v), alookup_mem h, rfl⟩

theorem ainsert_of_not_mem {α β : Type} [DecidableEq α]
    {l : List (α × β)} {k : α} (h : k ∉ akeys l) (v : β) :
    ainsert l k v = l ++ [(k, v)] := by
  induction l with
  | nil => rfl
  | cons p rest ih =>
    obtain ⟨a, b⟩ := p
    unfold akeys at h
    rw [List.map_cons, List.mem_cons] at h
    push_neg at h
    rw [ainsert, if_neg h.1, List.cons_append]
    rw [ih h.2]

/-- A positive owner-count yields a live token with that owner and issuer. -/
theorem tokCountByOwner_pos (c : Contract) (o : AccountId) (i : Nat)
    (h : 0 < tokCountByOwner c o i) :
    ∃ q ∈ c.issuer_tokens, q.1.issuer_id = i ∧ q.2.owner = o := by
  unfold tokCountByOwner at h
  obtain ⟨q, hq⟩ := List.exists_mem_of_length_pos h
  have := List.mem_filter.mp hq
  refine ⟨q, this.1, ?_⟩
  have h2 := this.2
  simp only [decide_eq_true_eq] at h2
  exact h2

theorem tokCountByClass_pos (c : Contract) (i cl : Nat)
    (h : 0 < tokCountByClass c i cl) :
    ∃ q ∈ c.issuer_tokens, q.1.issuer_id = i ∧ q.2.metadata.class_id = cl := by
  unfold tokCountByClass at h
  obtain ⟨q, hq⟩ := List.exists_mem_of_length_pos h
  have := List.mem_filter.mp hq
  refine ⟨q, this.1, ?_⟩
  have h2 := this.2
  simp only [decide_eq_true_eq] at h2
  exact h2

theorem tokCountByIssuer_pos (c : Contract) (i : Nat)
    (h : 0 < tokCountByIssuer c i) :
    ∃ q ∈ c.issuer_tokens, q.1.issuer_id = i := by
  unfold tokCountByIssuer at h
  obtain ⟨q, hq⟩ := List.exists_mem_of_length_pos h
  have := List.mem_filter.mp hq
  refine ⟨q, this.1, ?_⟩
  have h2 := this.2
  simp only [decide_eq_true_eq] at h2
  exact h2

/-- Under `SWF`, the per-owner counter (with default 0) equals the live
token count for every key. -/
theorem swf_owner_lookup (c : Contract) (hswf : SWF c) (o : AccountId)
    (i : Nat) :
    alookupD c.supply_by_owner (o, i) 0 = tokCountByOwner c o i := by
  obtain ⟨-, -, -, -, -, -, -, h8, h9, -, -, -, -, -, -, -, -, -⟩ := hswf
  cases hl : alookup c.supply_by_owner (o, i) with
  | some v =>
    have := h8 _ (alookup_mem hl)
    simp only [alookupD, hl, Option.getD_some]
    exact this
  | none =>
    simp only [alookupD, hl, Option.getD_none]
    by_contra hne
    have hpos : 0 < tokCountByOwner c o i := Nat.pos_of_ne_zero fun h => hne h.symm
    obtain ⟨q, hq, hqi, hqo⟩ := tokCountByOwner_pos c o i hpos
    have := h9 q hq
    rw [hqi, hqo] at this
    have := alookup_isSome_of_mem_akeys this
    rw [hl] at this
    simp at this

theorem swf_class_lookup (c : Contract) (hswf : SWF c) (i cl : Nat) :
    alookupD c.supply_by_class (i, cl) 0 = tokCountByClass c i cl := by
  obtain ⟨-, -, -, -, -, -, -, -, -, h10, h11, -, -, -, -, -, -, -⟩ := hswf
  cases hl : alookup c.supply_by_class (i, cl) with
  | some v =>
    have := h10 _ (alookup_mem hl)
    simp only [alookupD, hl, Option.getD_some]
    exact this
  | none =>
    simp only [alookupD, hl, Option.getD_none]
    by_contra hne
    have hpos : 0 < tokCountByClass c i cl := Nat.pos_of_ne_zero fun h => hne h.symm
    obtain ⟨q, hq, hqi, hqc⟩ := tokCountByClass_pos c i cl hpos
    have := h11 q hq
    rw [hqi, hqc] at this
    have := alookup_isSome_of_mem_akeys this
    rw [hl] at this
    simp at this

theorem swf_issuer_lookup (c : Contract) (hswf : SWF c) (i : Nat) :
    alookupD c.supply_by_issuer i 0 = tokCountByIssuer c i := by
  obtain ⟨-, -, -, -, -, -, -, -, -, -, -, h12, h13, -, -, -, -, -⟩ := hswf
  cases hl : alookup c.supply_by_issuer i with
  | some v =>
    have := h12 _ (alookup_mem hl)
    simp only [alookupD, hl, Option.getD_some]
    exact this
  | none =>
    simp only [alookupD, hl, Option.getD_none]
    by_contra hne
    have hpos : 0 < tokCountByIssuer c i := Nat.pos_of_ne_zero fun h => hne h.symm
    obtain ⟨q, hq, hqi⟩ := tokCountByIssuer_pos c i hpos
    have := h13 q hq
    rw [hqi] at this
    have := alookup_isSome_of_mem_akeys this
    rw [hl] at this
    simp at this

/-! ### The owner segment of the balance index -/

/-- The balance-index entries of one owner under one issuer. -/
def ownerSeg (c : Contract) (issuer_id : Nat) (owner : AccountId) :
    List (BalanceKey × Nat) :=
  c.balances.filter (fun p =>
    decide (p.1.issuer_id = issuer_id ∧ p.1.owner = owner))

/-- The owner-query image of a list of balance entries. -/
def segOwned (c : Contract) (issuer_id : Nat)
    (seg : List (BalanceKey × Nat)) : List OwnedToken :=
  seg.filterMap (fun p =>
    (alookup c.issuer_tokens { issuer_id := issuer_id, token := p.2 }).map
      (fun td => { token := p.2, metadata := td.metadata }))

/-- A sorted list where every `p`-element precedes every non-`p`-element
splits as its `p`-part followed by its non-`p`-part. -/
theorem sorted_filter_split (p : BalanceKey × Nat → Bool) :
    ∀ l : List (BalanceKey × Nat), bsorted l →
      (∀ a ∈ l, ∀ b ∈ l, p a = true → p b = false → bkLT a.1 b.1) →
      l = l.filter p ++ l.filter (fun x => ! p x) := by
  intro l
  induction l with
  | nil => intro _ _; rfl
  | cons a rest ih =>
    intro hs horder
    rw [bsorted, List.pairwise_cons] at hs
    by_cases hpa : p a = true
    · rw [List.filter_cons, if_pos hpa, List.filter_cons,
        if_neg (by simp [hpa]), List.cons_append]
      congr 1
      exact ih hs.2 (fun x hx y hy hpx hpy =>
        horder x (List.mem_cons_of_mem _ hx) y (List.mem_cons_of_mem _ hy)
          hpx hpy)
    · have hpa2 : p a = false := by simpa using hpa
      have hnone : ∀ x ∈ rest, p x = false := by
        intro x hx
        by_contra hpx
        have hpx2 : p x = true := by simpa using hpx
        have h1 := horder x (List.mem_cons_of_mem _ hx) a
          (List.mem_cons_self _ _) hpx2 hpa2
        exact bkLT_asymm (hs.1 x hx) h1
      rw [List.filter_cons, if_neg (by simp [hpa2]), List.filter_cons,
        if_pos (by simp [hpa2])]
      have h1 : rest.filter p = [] :=
        List.filter_eq_nil_iff.mpr (fun x hx => by simp [hnone x hx])
      have h2 : rest.filter (fun x => ! p x) = rest :=
        List.filter_eq_self.mpr (fun x hx => by simp [hnone x hx])
      rw [h1, h2, List.nil_append]

/-- The owner-scan loop consumes a segment of matching entries, emits all of
them, and stops at the first non-matching entry. -/
theorem tbLoop_run_segment (c : Contract) (owner : AccountId) (iid now : Nat)
    (hiid : 1 ≤ iid) :
    ∀ (seg rest : List (BalanceKey × Nat)) (resp : List (AccountId × List OwnedToken))
      (tokens : List OwnedToken) (limit : Nat),
      (∀ p ∈ seg, p.1.issuer_id = iid ∧ p.1.owner = owner) →
      (∀ p ∈ seg, (alookup c.issuer_tokens
        { issuer_id := iid, token := p.2 }).isSome = true) →
      (∀ r, rest.head? = some r → r.1.owner ≠ owner ∨ r.1.issuer_id ≠ iid) →
      seg.length ≤ limit → 1 ≤ limit →
      tbLoop c owner iid now true (seg ++ rest) resp tokens iid limit =
        some (resp, tokens ++ segOwned c iid seg, iid) := by
  intro seg
  induction seg with
  | nil =>
    intro rest resp tokens limit _ _ hrest _ _
    rw [List.nil_append]
    cases rest with
    | nil =>
      rw [tbLoop]
      simp [segOwned]
    | cons r rest2 =>
      obtain ⟨key, tid⟩ := r
      rcases hrest (key, tid) rfl with hro | hri
      · rw [tbLoop, if_pos hro]
        simp [segOwned]
      · rw [tbLoop]
        by_cases hro : key.owner ≠ owner
        · rw [if_pos hro]
          simp [segOwned]
        · rw [if_neg hro, if_pos ⟨fun hEq => hri hEq.symm, by omega⟩]
          simp [segOwned]
  | cons p seg2 ih =>
    intro rest resp tokens limit hseg hex hrest hlen hlim
    obtain ⟨key, tid⟩ := p
    have hkey := hseg (key, tid) (List.mem_cons_self _ _)
    have hex0 := hex (key, tid) (List.mem_cons_self _ _)
    cases hlook : alookup c.issuer_tokens { issuer_id := iid, token := tid } with
    | none =>
      rw [hlook] at hex0
      simp at hex0
    | some td =>
      rw [List.cons_append, tbLoop]
      rw [if_neg (fun h => h hkey.2)]
      rw [if_neg (fun h => h.1 hkey.1.symm)]
      rw [if_neg (fun h => h hkey.1.symm)]
      have hlook2 : alookup c.issuer_tokens
          { issuer_id := key.issuer_id, token := tid } = some td := by
        rw [hkey.1]
        exact hlook
      simp only [hlook2]
      rw [if_neg (by simp)]
      have hsegOwned : segOwned c iid ((key, tid) :: seg2) =
          { token := tid, metadata := td.metadata } :: segOwned c iid seg2 := by
        unfold segOwned
        rw [List.filterMap_cons]
        simp [hlook]
      by_cases hstop : limit - 1 = 0
      · have hs2 : seg2 = [] := by
          have := hlen
          simp only [List.length_cons] at this
          have hl1 : limit = 1 := by omega
          rw [hl1] at this
          have : seg2.length = 0 := by omega
          exact List.length_eq_zero.mp this
        subst hs2
        rw [if_pos hstop, hsegOwned]
        simp [segOwned]
      · rw [if_neg hstop]
        have := ih rest resp
          (tokens ++ [{ token := tid, metadata := td.metadata }]) (limit - 1)
          (fun q hq => hseg q (List.mem_cons_of_mem _ hq))
          (fun q hq => hex q (List.mem_cons_of_mem _ hq))
          hrest
          (by
            have := hlen
            simp only [List.length_cons] at this
            omega)
          (by omega)
        rw [this, hsegOwned]
        simp

/-- Restricting the scan start key to `(iid, owner, 0)` keeps the whole owner
segment, provided its class ids are at least 1. -/
theorem ownerSeg_iter (c : Contract) (iid : Nat) (owner : AccountId)
    (hcls : ∀ p ∈ c.balances, p.1.issuer_id = iid → p.1.owner = owner →
      1 ≤ p.1.class_id) :
    (iter_from c.balances (balance_key owner iid 0)).filter
      (fun p => decide (p.1.issuer_id = iid ∧ p.1.owner = owner)) =
    ownerSeg c iid owner := by
  unfold iter_from ownerSeg
  rw [List.filter_filter]
  apply List.filter_congr
  intro p hp
  by_cases hP : p.1.issuer_id = iid ∧ p.1.owner = owner
  · have hc := hcls p hp hP.1 hP.2
    have hlt : bkLT (balance_key owner iid 0) p.1 :=
      Or.inr ⟨hP.1.symm, Or.inr ⟨hP.2.symm, by
        show (0 : Nat) < p.1.class_id
        omega⟩⟩
    simp [hP, hlt]
  · simp [hP]

/-- Filtering preserves sortedness of the balance index. -/
theorem bsorted_filter (l : List (BalanceKey × Nat)) (q : BalanceKey × Nat → Bool)
    (hs : bsorted l) : bsorted (l.filter q) :=
  List.Pairwise.sublist (List.filter_sublist l) hs

/-- Full-owner scan: with no `from_class`, no explicit limit and
`with_expired = true`, `sbt_tokens_by_owner` returns exactly the owner's
segment under the given issuer (grouped as one pair), provided the segment
fits in the default limit. -/
theorem tokens_by_owner_all (c : Contract) (owner issuer : AccountId)
    (iid now : Nat)
    (hs : bsorted c.balances)
    (hguard : alookup c.ongoing_soul_tx owner = none)
    (hiss : assert_issuer c issuer = some iid)
    (hiid : 1 ≤ iid)
    (hcls : ∀ p ∈ c.balances, p.1.issuer_id = iid → p.1.owner = owner →
      1 ≤ p.1.class_id)
    (hex : ∀ p ∈ ownerSeg c iid owner,
      (alookup c.issuer_tokens { issuer_id := iid, token := p.2 }).isSome = true)
    (hlen : (ownerSeg c iid owner).length ≤ MAX_LIMIT)
    (hmap : alookup c.issuer_id_map iid = some issuer) :
    sbt_tokens_by_owner c owner (some issuer) none none (some true) now =
      some (if ownerSeg c iid owner = [] then []
        else [(issuer, segOwned c iid (ownerSeg c iid owner))]) := by
  have hiter : bsorted (iter_from c.balances (balance_key owner iid 0)) :=
    bsorted_filter _ _ hs
  set P : BalanceKey × Nat → Bool :=
    fun p => decide (p.1.issuer_id = iid ∧ p.1.owner = owner) with hPdef
  have hsplit := sorted_filter_split P
    (iter_from c.balances (balance_key owner iid 0)) hiter ?horder
  case horder =>
    intro a _ b hb hpa hpb
    have hae : a.1.issuer_id = iid ∧ a.1.owner = owner := by
      rw [hPdef] at hpa
      exact of_decide_eq_true hpa
    have hbn : ¬ (b.1.issuer_id = iid ∧ b.1.owner = owner) := by
      rw [hPdef] at hpb
      exact of_decide_eq_false hpb
    have hbi : bkLT (balance_key owner iid 0) b.1 := by
      have := List.mem_filter.mp hb
      exact of_decide_eq_true this.2
    rcases hbi with hlt | ⟨heq, hrest⟩
    · exact Or.inl (by
        show a.1.issuer_id < b.1.issuer_id
        rw [hae.1]
        exact hlt)
    · rcases hrest with hown | ⟨hoeq, _⟩
      · refine Or.inr ⟨?_, Or.inl ?_⟩
        · rw [hae.1, ← heq]
          rfl
        · rw [hae.2]
          exact hown
      · exact absurd ⟨heq.symm, hoeq.symm⟩ hbn
  have hseg : (iter_from c.balances (balance_key owner iid 0)).filter P =
      ownerSeg c iid owner := ownerSeg_iter c iid owner hcls
  rw [hseg] at hsplit
  have hrest : ∀ r, ((iter_from c.balances (balance_key owner iid 0)).filter
      (fun x => ! P x)).head? = some r →
      r.1.owner ≠ owner ∨ r.1.issuer_id ≠ iid := by
    intro r hr
    have hrm : r ∈ (iter_from c.balances (balance_key owner iid 0)).filter
        (fun x => ! P x) := List.mem_of_mem_head? hr
    have := (List.mem_filter.mp hrm).2
    rw [hPdef] at this
    simp only [Bool.not_eq_true', decide_eq_false_iff_not] at this
    by_cases h1 : r.1.issuer_id = iid
    · exact Or.inl (fun h2 => this ⟨h1, h2⟩)
    · exact Or.inr h1
  have hsegP : ∀ p ∈ ownerSeg c iid owner,
      p.1.issuer_id = iid ∧ p.1.owner = owner := by
    intro p hp
    have := (List.mem_filter.mp (by
      unfold ownerSeg at hp
      exact hp : p ∈ c.balances.filter (fun p =>
        decide (p.1.issuer_id = iid ∧ p.1.owner = owner)))).2
    exact of_decide_eq_true this
  have hrun := tbLoop_run_segment c owner iid now hiid
    (ownerSeg c iid owner)
    ((iter_from c.balances (balance_key owner iid 0)).filter (fun x => ! P x))
    [] [] MAX_LIMIT hsegP hex hrest hlen (by norm_num [MAX_LIMIT])
  rw [← hsplit] at hrun
  unfold sbt_tokens_by_owner
  rw [if_neg (by simp)]
  rw [hguard]
  rw [if_neg (by simp)]
  simp only [hiss]
  simp only [Option.getD_some, Option.getD_none]
  rw [if_neg (by norm_num [MAX_LIMIT])]
  have hfk : balance_key owner iid (0 - 1) = balance_key owner iid 0 := rfl
  rw [hfk, hrun]
  simp only [List.nil_append]
  cases hempty : ownerSeg c iid owner with
  | nil =>
    rw [if_pos rfl]
    change (if iid ≠ 0 ∧ segOwned c iid [] ≠ [] then
        match alookup c.issuer_id_map iid with
        | none => none
        | some a => some ([] ++ [(a, segOwned c iid [])])
      else some []) = some []
    rw [if_neg (by simp [segOwned])]
  | cons p seg2 =>
    have hpmem : p ∈ ownerSeg c iid owner := by rw [hempty]; exact List.mem_cons_self _ _
    have hexp := hex p hpmem
    cases hlook : alookup c.issuer_tokens { issuer_id := iid, token := p.2 } with
    | none => rw [hlook] at hexp; simp at hexp
    | some td =>
      have hsne : segOwned c iid (p :: seg2) ≠ [] := by
        unfold segOwned
        rw [List.filterMap_cons]
        simp [hlook]
      change (if iid ≠ 0 ∧ segOwned c iid (p :: seg2) ≠ [] then
          match alookup c.issuer_id_map iid with
          | none => none
          | some a => some ([] ++ [(a, segOwned c iid (p :: seg2))])
        else some []) = some (if p :: seg2 = [] then []
          else [(issuer, segOwned c iid (p :: seg2))])
      rw [if_pos ⟨by omega, hsne⟩, hmap, if_neg (by simp)]
      simp only [List.nil_append]

/-- `bump` on a fresh key appends `(k, 1)`. -/
theorem bump_not_mem {α : Type} [DecidableEq α] :
    ∀ (l : List (α × Nat)) (k : α), k ∉ akeys l → bump l k = l ++ [(k, 1)] := by
  intro l
  induction l with
  | nil => intro k _; rfl
  | cons p rest ih =>
    intro k hk
    obtain ⟨a, n⟩ := p
    unfold akeys at hk
    rw [List.map_cons, List.mem_cons] at hk
    push_neg at hk
    rw [bump, if_neg hk.1, List.cons_append, ih k hk.2]

/-- Folding `bump` over pairwise-distinct fresh keys appends unit tallies. -/
theorem foldl_bump_nodup {α : Type} [DecidableEq α] :
    ∀ (cs : List α) (acc : List (α × Nat)), cs.Nodup →
      (∀ x ∈ cs, x ∉ akeys acc) →
      List.foldl bump acc cs = acc ++ cs.map (fun k => (k, 1)) := by
  intro cs
  induction cs with
  | nil => intro acc _ _; simp
  | cons k rest ih =>
    intro acc hnd hfresh
    rw [List.nodup_cons] at hnd
    rw [List.foldl_cons, bump_not_mem acc k (hfresh k (List.mem_cons_self _ _))]
    rw [ih (acc ++ [(k, 1)]) hnd.2 ?fresh]
    · simp
    case fresh =>
      intro x hx
      have h1 : x ∉ akeys acc := hfresh x (List.mem_cons_of_mem _ hx)
      have h2 : x ≠ k := fun hEq => hnd.1 (hEq ▸ hx)
      unfold akeys
      rw [List.map_append, List.mem_append]
      rintro (hc | hc)
      · exact h1 hc
      · simp at hc
        exact h2 hc

/-- A key absent from a map stays absent after any removal. -/
theorem alookup_none_aremove {α β : Type} [DecidableEq α]
    (l : List (α × β)) (k k' : α) (h : alookup l k = none) :
    alookup (aremove l k') k = none := by
  apply alookup_eq_none_of_not_mem
  intro hm
  have := alookup_isSome_of_mem_akeys (akeys_aremove_sub l k' hm)
  rw [h] at this
  simp at this

/-- Characterization of the burn loop of `sbt_revoke_by_owner`: it removes
the balance key and token row of every listed token, touches nothing else,
and tallies the revoked classes. -/
theorem revokeByOwnerBurnLoop_spec (iid : Nat) (owner : AccountId) :
    ∀ (ts : List OwnedToken) (c : Contract) (bpc : List (Nat × Nat))
      (c1 : Contract) (bpc2 : List (Nat × Nat)),
      bsorted c.balances → aNodup c.issuer_tokens →
      revokeByOwnerBurnLoop iid owner ts c bpc = (c1, bpc2) →
      c1.sbt_issuers = c.sbt_issuers ∧ c1.issuer_id_map = c.issuer_id_map ∧
      c1.banlist = c.banlist ∧ c1.supply_by_owner = c.supply_by_owner ∧
      c1.supply_by_class = c.supply_by_class ∧
      c1.supply_by_issuer = c.supply_by_issuer ∧
      c1.next_token_ids = c.next_token_ids ∧
      c1.next_issuer_id = c.next_issuer_id ∧
      c1.ongoing_soul_tx = c.ongoing_soul_tx ∧
      bsorted c1.balances ∧ aNodup c1.issuer_tokens ∧
      c1.balances ⊆ c.balances ∧ c1.issuer_tokens ⊆ c.issuer_tokens ∧
      (∀ k, alookup c.balances k = none → alookup c1.balances k = none) ∧
      (∀ k, alookup c.issuer_tokens k = none →
        alookup c1.issuer_tokens k = none) ∧
      (∀ t ∈ ts, alookup c1.balances
        (balance_key owner iid t.metadata.class_id) = none) ∧
      (∀ t ∈ ts, alookup c1.issuer_tokens
        { issuer_id := iid, token := t.token } = none) ∧
      bpc2 = List.foldl bump bpc (ts.map (fun t => t.metadata.class_id)) := by
  intro ts
  induction ts with
  | nil =>
    intro c bpc c1 bpc2 hbs hnd hrun
    rw [revokeByOwnerBurnLoop] at hrun
    injection hrun with h1 h2
    subst h1
    subst h2
    refine ⟨rfl, rfl, rfl, rfl, rfl, rfl, rfl, rfl, rfl, hbs, hnd,
      fun x hx => hx, fun x hx => hx, fun k hk => hk, fun k hk => hk,
      ?_, ?_, rfl⟩
    · intro t ht; simp at ht
    · intro t ht; simp at ht
  | cons t rest ih =>
    intro c bpc c1 bpc2 hbs hnd hrun
    rw [revokeByOwnerBurnLoop] at hrun
    set bk : BalanceKey :=
      { issuer_id := iid, owner := owner, class_id := t.metadata.class_id }
      with hbk
    set c2 : Contract := { c with
      balances := aremove c.balances bk,
      issuer_tokens := aremove c.issuer_tokens
        { issuer_id := iid, token := t.token } } with hc2
    have hbs2 : bsorted c2.balances := bsorted_aremove _ _ hbs
    have hnd2 : aNodup c2.issuer_tokens := aNodup_aremove _ _ hnd
    have := ih c2 (bump bpc t.metadata.class_id) c1 bpc2 hbs2 hnd2 hrun
    obtain ⟨e1, e2, e3, e4, e5, e6, e7, e8, e9, hbs1, hnd1, hsub1, hsub2,
      hpr1, hpr2, hrem1, hrem2, htal⟩ := this
    refine ⟨e1, e2, e3, e4, e5, e6, e7, e8, e9, hbs1, hnd1,
      fun x hx => aremove_subset _ _ (hsub1 hx),
      fun x hx => aremove_subset _ _ (hsub2 hx),
      fun k hk => hpr1 k (alookup_none_aremove _ _ _ hk),
      fun k hk => hpr2 k (alookup_none_aremove _ _ _ hk),
      ?_, ?_, ?_⟩
    · intro u hu
      rcases List.mem_cons.mp hu with rfl | hu2
      · exact hpr1 _ (alookup_aremove_self _ _ (bsorted_aNodup _ hbs))
      · exact hrem1 u hu2
    · intro u hu
      rcases List.mem_cons.mp hu with rfl | hu2
      · exact hpr2 _ (alookup_aremove_self _ _ hnd)
      · exact hrem2 u hu2
    · rw [htal, List.map_cons, List.foldl_cons]

/-- Characterization of the soft path of `sbt_revoke_by_owner`: every listed
token row is rewritten with `expires_at = now`, everything else is kept. -/
theorem softByOwnerLoop_spec (iid : Nat) (owner : AccountId) (now : Nat) :
    ∀ (ts : List OwnedToken) (c : Contract),
      (ts.map (fun t => t.token)).Nodup →
      (softByOwnerLoop iid owner now ts c).sbt_issuers = c.sbt_issuers ∧
      (softByOwnerLoop iid owner now ts c).issuer_id_map = c.issuer_id_map ∧
      (softByOwnerLoop iid owner now ts c).banlist = c.banlist ∧
      (softByOwnerLoop iid owner now ts c).supply_by_owner =
        c.supply_by_owner ∧
      (softByOwnerLoop iid owner now ts c).supply_by_class =
        c.supply_by_class ∧
      (softByOwnerLoop iid owner now ts c).supply_by_issuer =
        c.supply_by_issuer ∧
      (softByOwnerLoop iid owner now ts c).balances = c.balances ∧
      (softByOwnerLoop iid owner now ts c).next_token_ids =
        c.next_token_ids ∧
      (softByOwnerLoop iid owner now ts c).next_issuer_id =
        c.next_issuer_id ∧
      (softByOwnerLoop iid owner now ts c).ongoing_soul_tx =
        c.ongoing_soul_tx ∧
      (aNodup c.issuer_tokens →
        aNodup (softByOwnerLoop iid owner now ts c).issuer_tokens) ∧
      (∀ t ∈ ts, alookup (softByOwnerLoop iid owner now ts c).issuer_tokens
        { issuer_id := iid, token := t.token } =
        some { owner := owner,
               metadata := { t.metadata with expires_at := some now } }) ∧
      (∀ k : IssuerTokenId,
        (k.issuer_id = iid → k.token ∉ ts.map (fun t => t.token)) →
        alookup (softByOwnerLoop iid owner now ts c).issuer_tokens k =
          alookup c.issuer_tokens k) := by
  intro ts
  induction ts with
  | nil =>
    intro c _
    refine ⟨rfl, rfl, rfl, rfl, rfl, rfl, rfl, rfl, rfl, rfl, fun h => h,
      ?_, fun k _ => rfl⟩
    intro t ht; simp at ht
  | cons t rest ih =>
    intro c hnd
    rw [List.map_cons, List.nodup_cons] at hnd
    set kt : IssuerTokenId := { issuer_id := iid, token := t.token } with hkt
    set td : TokenData :=
      { owner := owner, metadata := { t.metadata with expires_at := some now } }
      with htd
    set c2 : Contract :=
      { c with issuer_tokens := ainsert c.issuer_tokens kt td } with hc2
    have hstep : softByOwnerLoop iid owner now (t :: rest) c =
        softByOwnerLoop iid owner now rest c2 := rfl
    have := ih c2 hnd.2
    obtain ⟨e1, e2, e3, e4, e5, e6, e7, e8, e9, e10, hndp, hset, hkeep⟩ := this
    rw [hstep]
    refine ⟨e1, e2, e3, e4, e5, e6, e7, e8, e9, e10, ?_, ?_, ?_⟩
    · intro hnd0
      exact hndp (aNodup_ainsert _ _ _ hnd0)
    · intro u hu
      rcases List.mem_cons.mp hu with rfl | hu2
      · rw [hkeep kt (fun _ hmem => hnd.1 hmem)]
        exact alookup_ainsert_self _ _ _
      · exact hset u hu2
    · intro k hk
      have hk2 : k.issuer_id = iid → k.token ∉ rest.map (fun t => t.token) := by
        intro hki
        have := hk hki
        rw [List.map_cons, List.mem_cons] at this
        push_neg at this
        exact this.2
      rw [hkeep k hk2]
      have hkne : k ≠ kt := by
        intro hEq
        have hki : k.issuer_id = iid := by rw [hEq]
        have := hk hki
        rw [List.map_cons, List.mem_cons] at this
        push_neg at this
        exact this.1 (by rw [hEq])
      exact alookup_ainsert_ne _ _ _ _ hkne

/-- Membership in the owner segment. -/
theorem ownerSeg_mem (c : Contract) (iid : Nat) (owner : AccountId)
    (p : BalanceKey × Nat) :
    p ∈ ownerSeg c iid owner ↔
      p ∈ c.balances ∧ p.1.issuer_id = iid ∧ p.1.owner = owner := by
  unfold ownerSeg
  rw [List.mem_filter]
  constructor
  · rintro ⟨h1, h2⟩
    exact ⟨h1, of_decide_eq_true h2⟩
  · rintro ⟨h1, h2⟩
    exact ⟨h1, decide_eq_true h2⟩

/-- In a sorted index, the classes of one owner segment strictly increase. -/
theorem ownerSeg_classes_sorted (c : Contract) (iid : Nat) (owner : AccountId)
    (hs : bsorted c.balances) :
    List.Pairwise (· < ·)
      ((ownerSeg c iid owner).map (fun p => p.1.class_id)) := by
  rw [List.pairwise_map]
  have hseg : bsorted (ownerSeg c iid owner) := bsorted_filter _ _ hs
  refine List.Pairwise.imp_of_mem ?_ hseg
  intro p q hp hq hlt
  have hp2 := (ownerSeg_mem c iid owner p).mp hp
  have hq2 := (ownerSeg_mem c iid owner q).mp hq
  rcases hlt with h1 | ⟨_, h2 | ⟨_, h3⟩⟩
  · rw [hp2.2.1, hq2.2.1] at h1
    omega
  · rw [hp2.2.2, hq2.2.2] at h2
    exact absurd rfl (ne_of_lt h2)
  · exact h3

/-- Classes of one owner segment are pairwise distinct. -/
theorem ownerSeg_classes_nodup (c : Contract) (iid : Nat) (owner : AccountId)
    (hs : bsorted c.balances) :
    ((ownerSeg c iid owner).map (fun p => p.1.class_id)).Nodup :=
  (ownerSeg_classes_sorted c iid owner hs).imp Nat.ne_of_lt

/-- Structure of the owner-query image of a segment whose entries agree with
the token store: tokens and classes are carried over entry by entry. -/
theorem segOwned_spec (c : Contract) (iid : Nat) :
    ∀ seg : List (BalanceKey × Nat),
      (∀ p ∈ seg, (alookup c.issuer_tokens
          { issuer_id := iid, token := p.2 }).map
          (fun td => (td.owner, td.metadata.class_id)) =
        some (p.1.owner, p.1.class_id)) →
      (segOwned c iid seg).map (fun t => t.token) = seg.map (fun p => p.2) ∧
      (segOwned c iid seg).map (fun t => t.metadata.class_id) =
        seg.map (fun p => p.1.class_id) ∧
      ∀ p ∈ seg, ∃ td, alookup c.issuer_tokens
          { issuer_id := iid, token := p.2 } = some td ∧
        td.owner = p.1.owner ∧ td.metadata.class_id = p.1.class_id ∧
        ({ token := p.2, metadata := td.metadata } : OwnedToken) ∈
          segOwned c iid seg := by
  intro seg
  induction seg with
  | nil =>
    intro _
    refine ⟨rfl, rfl, ?_⟩
    intro p hp; simp at hp
  | cons p rest ih =>
    intro hbs
    have hp := hbs p (List.mem_cons_self _ _)
    cases hlook : alookup c.issuer_tokens { issuer_id := iid, token := p.2 } with
    | none => rw [hlook] at hp; simp at hp
    | some td =>
      rw [hlook] at hp
      rw [Option.map_some'] at hp
      injection hp with hp
      have hown : td.owner = p.1.owner := congrArg Prod.fst hp
      have hcl : td.metadata.class_id = p.1.class_id := congrArg Prod.snd hp
      have hcons : segOwned c iid (p :: rest) =
          ({ token := p.2, metadata := td.metadata } : OwnedToken) ::
            segOwned c iid rest := by
        unfold segOwned
        rw [List.filterMap_cons]
        simp [hlook]
      obtain ⟨ih1, ih2, ih3⟩ := ih (fun q hq => hbs q (List.mem_cons_of_mem _ hq))
      refine ⟨?_, ?_, ?_⟩
      · rw [hcons, List.map_cons, List.map_cons, ih1]
      · rw [hcons, List.map_cons, List.map_cons, ih2, hcl]
      · intro q hq
        rcases List.mem_cons.mp hq with rfl | hq2
        · exact ⟨td, hlook, hown, hcl, by rw [hcons]; exact List.mem_cons_self _ _⟩
        · obtain ⟨td2, h1, h2, h3, h4⟩ := ih3 q hq2
          exact ⟨td2, h1, h2, h3, by rw [hcons]; exact List.mem_cons_of_mem _ h4⟩

/-- Token ids inside one owner segment are pairwise distinct. -/
theorem ownerSeg_tokens_nodup (c : Contract) (iid : Nat) (owner : AccountId)
    (hs : bsorted c.balances)
    (hbs : ∀ p ∈ ownerSeg c iid owner, (alookup c.issuer_tokens
        { issuer_id := iid, token := p.2 }).map
        (fun td => (td.owner, td.metadata.class_id)) =
      some (p.1.owner, p.1.class_id)) :
    ((ownerSeg c iid owner).map (fun p => p.2)).Nodup := by
  have hclnd := ownerSeg_classes_nodup c iid owner hs
  have hsegnd : (ownerSeg c iid owner).Nodup := hclnd.of_map
  have hinj := List.inj_on_of_nodup_map hclnd
  refine hsegnd.map_on ?_
  intro p hp q hq hpq
  have h1 := hbs p hp
  have h2 := hbs q hq
  rw [hpq] at h1
  rw [h1] at h2
  injection h2 with h2
  have hcl : p.1.class_id = q.1.class_id := congrArg Prod.snd h2
  exact hinj hp hq hcl

/-- Unit tallies look up to 1 on their keys. -/
theorem alookup_map_const_one {α : Type} [DecidableEq α] :
    ∀ (xs : List α) (k : α), k ∈ xs →
      alookup (xs.map (fun x => (x, 1))) k = some 1 := by
  intro xs
  induction xs with
  | nil => intro k hk; simp at hk
  | cons x rest ih =>
    intro k hk
    rw [List.map_cons]
    by_cases hkx : k = x
    · rw [alookup, if_pos hkx]
    · rw [alookup, if_neg hkx]
      exact ih k (by
        rcases List.mem_cons.mp hk with h | h
        · exact absurd h hkx
        · exact h)


/-- Claim C6 (corrected form): called by a registered issuer on a state with
no ongoing soul transfer for the owner and an owner segment within the
default query limit, `sbt_revoke_by_owner` is a no-op exactly when the owner
holds nothing from that issuer; with `burn = true` it succeeds and leaves
the owner with no balance entries and no token rows under that issuer; with
`burn = false` it succeeds, keeps the balance index, and stamps
`expires_at = now` on every token of the owner under that issuer. -/
theorem C6_revoke_by_owner (c : Contract) (issuer owner : AccountId)
    (iid now : Nat)
    (hs : bsorted c.balances)
    (hnd : aNodup c.issuer_tokens)
    (hguard : alookup c.ongoing_soul_tx owner = none)
    (hiss : assert_issuer c issuer = some iid)
    (hiid : 1 ≤ iid)
    (hmap : alookup c.issuer_id_map iid = some issuer)
    (hcls : ∀ p ∈ c.balances, p.1.issuer_id = iid → p.1.owner = owner →
      1 ≤ p.1.class_id)
    (hbs : ∀ p ∈ ownerSeg c iid owner, (alookup c.issuer_tokens
        { issuer_id := iid, token := p.2 }).map
        (fun td => (td.owner, td.metadata.class_id)) =
      some (p.1.owner, p.1.class_id))
    (hsb : ∀ q ∈ c.issuer_tokens, q.1.issuer_id = iid → q.2.owner = owner →
      alookup c.balances (balance_key owner iid q.2.metadata.class_id) =
        some q.1.token)
    (hlen : (ownerSeg c iid owner).length ≤ MAX_LIMIT)
    (hso : ownerSeg c iid owner ≠ [] → ∃ old,
      alookup c.supply_by_owner (owner, iid) = some old ∧
      (ownerSeg c iid owner).length ≤ old)
    (hsi : (ownerSeg c iid owner).length ≤ alookupD c.supply_by_issuer iid 0)
    (hsc : ∀ p ∈ ownerSeg c iid owner, ∃ v,
      alookup c.supply_by_class (iid, p.1.class_id) = some v ∧ 1 ≤ v) :
    (ownerSeg c iid owner = [] →
      sbt_revoke_by_owner c issuer owner true now = some c ∧
      sbt_revoke_by_owner c issuer owner false now = some c) ∧
    (∃ c1, sbt_revoke_by_owner c issuer owner true now = some c1 ∧
      ownerSeg c1 iid owner = [] ∧
      (∀ k td, alookup c1.issuer_tokens k = some td →
        k.issuer_id = iid → td.owner ≠ owner)) ∧
    (∃ c2, sbt_revoke_by_owner c issuer owner false now = some c2 ∧
      c2.balances = c.balances ∧
      (∀ p ∈ ownerSeg c iid owner, ∃ td,
        alookup c.issuer_tokens { issuer_id := iid, token := p.2 } =
          some td ∧
        alookup c2.issuer_tokens { issuer_id := iid, token := p.2 } =
          some { owner := owner,
                 metadata := { td.metadata with expires_at := some now } })) := by
  have hex : ∀ p ∈ ownerSeg c iid owner, (alookup c.issuer_tokens
      { issuer_id := iid, token := p.2 }).isSome = true := by
    intro p hp
    have h := hbs p hp
    cases hl : alookup c.issuer_tokens { issuer_id := iid, token := p.2 } with
    | none => rw [hl] at h; simp at h
    | some td => rfl
  have hq := tokens_by_owner_all c owner issuer iid now hs hguard hiss hiid
    hcls hex hlen hmap
  have hrow_seg : ∀ (k : IssuerTokenId) (td : TokenData),
      (k, td) ∈ c.issuer_tokens → k.issuer_id = iid → td.owner = owner →
      (balance_key owner iid td.metadata.class_id, k.token) ∈
        ownerSeg c iid owner := by
    intro k td hm hki hto
    have hlk := hsb (k, td) hm hki hto
    exact (ownerSeg_mem c iid owner _).mpr ⟨alookup_mem hlk, rfl, rfl⟩
  by_cases hempty : ownerSeg c iid owner = []
  · -- no-op case: the query returns the empty list, both calls return `c`
    have hnoop : ∀ b, sbt_revoke_by_owner c issuer owner b now = some c := by
      intro b
      unfold sbt_revoke_by_owner
      simp only [hiss, hq, if_pos hempty, List.getLast?_nil]
    refine ⟨fun _ => ⟨hnoop true, hnoop false⟩, ⟨c, hnoop true, hempty, ?_⟩,
      ⟨c, hnoop false, rfl, ?_⟩⟩
    · intro k td hlk hki hto
      have hm := hrow_seg k td (alookup_mem hlk) hki hto
      rw [hempty] at hm
      simp at hm
    · intro p hp
      rw [hempty] at hp
      simp at hp
  · -- the owner holds tokens: the query returns one group, fully processed
    obtain ⟨hmap1, hmap2, hmem⟩ :=
      segOwned_spec c iid (ownerSeg c iid owner) hbs
    set ts := segOwned c iid (ownerSeg c iid owner) with htsdef
    have hlenq : ts.length = (ownerSeg c iid owner).length := by
      have := congrArg List.length hmap1
      simpa using this
    have htsnd : (ts.map (fun t => t.token)).Nodup := by
      rw [hmap1]
      exact ownerSeg_tokens_nodup c iid owner hs hbs
    have hclsnd : (ts.map (fun t => t.metadata.class_id)).Nodup := by
      rw [hmap2]
      exact ownerSeg_classes_nodup c iid owner hs
    refine ⟨fun h => absurd h hempty, ?_, ?_⟩
    · -- burn branch
      cases hrb : revokeByOwnerBurnLoop iid owner ts c [] with
      | mk c1 bpc2 =>
        obtain ⟨e1, e2, e3, e4, e5, e6, e7, e8, e9, hbs1, hnd1, hsub1, hsub2,
          hpr1, hpr2, hrem1, hrem2, htal⟩ :=
          revokeByOwnerBurnLoop_spec iid owner ts c [] c1 bpc2 hs hnd hrb
        obtain ⟨old, holdlk, holdge⟩ := hso hempty
        have htal2 : bpc2 =
            (ts.map (fun t => t.metadata.class_id)).map
              (fun cl => (cl, 1)) := by
          rw [htal,
            foldl_bump_nodup _ _ hclsnd (by intro x hx; simp [akeys])]
          simp
        have hclexa : ∀ cl ∈ akeys bpc2, ∃ oldv,
            alookup c.supply_by_class (iid, cl) = some oldv ∧
            alookupD bpc2 cl 0 ≤ oldv := by
          intro cl hcl
          rw [htal2] at hcl
          have hclm : cl ∈ ts.map (fun t => t.metadata.class_id) := by
            unfold akeys at hcl
            rw [List.map_map] at hcl
            simpa using hcl
          have hclseg : cl ∈ (ownerSeg c iid owner).map
              (fun p => p.1.class_id) := by rw [← hmap2]; exact hclm
          obtain ⟨p, hp, hpc⟩ := List.mem_map.mp hclseg
          obtain ⟨v, hv, hv1⟩ := hsc p hp
          refine ⟨v, by rw [← hpc]; exact hv, ?_⟩
          rw [htal2]
          unfold alookupD
          rw [alookup_map_const_one _ _ hclm]
          simpa using hv1
        have hndbpc : aNodup bpc2 := by
          rw [htal2]
          unfold aNodup akeys
          rw [List.map_map]
          simpa using hclsnd
        unfold sbt_revoke_by_owner
        simp only [hiss, hq, if_neg hempty, List.getLast?_singleton]
        simp only [hrb]
        simp only [e4, holdlk]
        rw [if_neg (show ¬ old < ts.length by omega)]
        rw [if_neg (show ¬ alookupD c1.supply_by_issuer iid 0 < ts.length by
          rw [e6]; omega)]
        simp only [if_true]
        set c3 : Contract := { c1 with
          supply_by_owner :=
            ainsert c.supply_by_owner (owner, iid) (old - ts.length),
          supply_by_issuer := ainsert c1.supply_by_issuer iid
            (alookupD c1.supply_by_issuer iid 0 - ts.length) } with hc3
        obtain ⟨c4, happ, f1, f2, f3, f4, f5, f6, f7, f8, f9, f10, hclm2,
          hclo⟩ :=
          applyClassDecs_spec iid bpc2 c3 hndbpc (by
            intro cl hcl
            obtain ⟨oldv, hv, hle⟩ := hclexa cl hcl
            refine ⟨oldv, ?_, hle⟩
            show alookup c1.supply_by_class (iid, cl) = some oldv
            rw [e5]
            exact hv)
        rw [happ]
        have hbal4 : c4.balances = c1.balances := f6
        have htok4 : c4.issuer_tokens = c1.issuer_tokens := f7
        refine ⟨c4, rfl, ?_, ?_⟩
        · -- the owner segment is gone
          unfold ownerSeg
          rw [List.filter_eq_nil_iff]
          intro p hp hpred
          have hpred2 : p.1.issuer_id = iid ∧ p.1.owner = owner :=
            of_decide_eq_true hpred
          rw [hbal4] at hp
          have hpc : p ∈ c.balances := hsub1 hp
          have hpseg : p ∈ ownerSeg c iid owner :=
            (ownerSeg_mem c iid owner p).mpr ⟨hpc, hpred2⟩
          obtain ⟨td, hlk, hown, hcl, htm⟩ := hmem p hpseg
          have hkeyeq : balance_key owner iid td.metadata.class_id = p.1 := by
            rw [hcl, ← hpred2.1, ← hpred2.2]
            rfl
          have hnone : alookup c1.balances
              (balance_key owner iid td.metadata.class_id) = none :=
            hrem1 _ htm
          rw [hkeyeq] at hnone
          have hisSome := alookup_isSome_of_mem_akeys
            (List.mem_map_of_mem Prod.fst hp)
          rw [hnone] at hisSome
          simp at hisSome
        · -- no token row of the owner under this issuer survives
          intro k td hlk hki hto
          rw [htok4] at hlk
          have hm : (k, td) ∈ c.issuer_tokens := hsub2 (alookup_mem hlk)
          have hseg2 := hrow_seg k td hm hki hto
          obtain ⟨td2, hlk2, hown2, hcl2, htm2⟩ := hmem _ hseg2
          have hnone : alookup c1.issuer_tokens
              { issuer_id := iid, token := k.token } = none := hrem2 _ htm2
          have hkeq : ({ issuer_id := iid, token := k.token } :
              IssuerTokenId) = k := by rw [← hki]
          rw [hkeq] at hnone
          rw [hnone] at hlk
          exact Option.noConfusion hlk
    · -- soft branch
      obtain ⟨s1, s2, s3, s4, s5, s6, s7, s8, s9, s10, hndp, hset, hkeep⟩ :=
        softByOwnerLoop_spec iid owner now ts c htsnd
      unfold sbt_revoke_by_owner
      simp only [hiss, hq, if_neg hempty, List.getLast?_singleton]
      rw [if_neg (by simp)]
      refine ⟨softByOwnerLoop iid owner now ts c, rfl, s7, ?_⟩
      intro p hp
      obtain ⟨td, hlk, hown, hcl, htm⟩ := hmem p hp
      refine ⟨td, hlk, ?_⟩
      exact hset _ htm

/-- Claim C6 counterexample: with an ongoing soul transfer recorded for the
owner, `sbt_revoke_by_owner` is a silent no-op even though the owner does
hold tokens from the calling issuer: the derived token list comes from the
guarded owner query, which returns the empty list. -/
theorem C6_counterexample :
    (alookup guardSt.ongoing_soul_tx alice).isSome = true ∧
    ownerSeg guardSt 1 alice ≠ [] ∧
    sbt_revoke_by_owner guardSt issuerX alice true 0 = some guardSt :=
  ⟨by decide, by decide, by rfl⟩

/-- Claim C6 witness: the corrected statement instantiated on the concrete
one-token ledger `expSt`. -/
theorem C6_revoke_by_owner_witness :
    (ownerSeg expSt 1 alice = [] →
      sbt_revoke_by_owner expSt issuerX alice true 0 = some expSt ∧
      sbt_revoke_by_owner expSt issuerX alice false 0 = some expSt) ∧
    (∃ c1, sbt_revoke_by_owner expSt issuerX alice true 0 = some c1 ∧
      ownerSeg c1 1 alice = [] ∧
      (∀ k td, alookup c1.issuer_tokens k = some td →
        k.issuer_id = 1 → td.owner ≠ alice)) ∧
    (∃ c2, sbt_revoke_by_owner expSt issuerX alice false 0 = some c2 ∧
      c2.balances = expSt.balances ∧
      (∀ p ∈ ownerSeg expSt 1 alice, ∃ td,
        alookup expSt.issuer_tokens { issuer_id := 1, token := p.2 } =
          some td ∧
        alookup c2.issuer_tokens { issuer_id := 1, token := p.2 } =
          some { owner := alice,
                 metadata := { td.metadata with expires_at := some 0 } })) :=
  C6_revoke_by_owner expSt issuerX alice 1 0 (by decide) (by decide)
    (by decide) (by decide) (by decide) (by decide) (by decide) (by decide)
    (by decide) (by decide)
    (fun _ => ⟨1, by decide, by decide⟩)
    (by decide)
    (by
      intro p hp
      have he : ownerSeg expSt 1 alice =
          [({ issuer_id := 1, owner := alice, class_id := 1 }, 1)] := by decide
      rw [he] at hp
      rcases List.mem_singleton.mp hp with rfl
      exact ⟨1, by decide, by decide⟩)

/-! ### Counting helpers for the supply invariant -/

/-- Members of an insertion: the inserted pair or an original member. -/
theorem mem_ainsert {α β : Type} [DecidableEq α] :
    ∀ (l : List (α × β)) (k : α) (v : β) (x : α × β),
      x ∈ ainsert l k v → x = (k, v) ∨ x ∈ l := by
  intro l
  induction l with
  | nil =>
    intro k v x hx
    rcases List.mem_singleton.mp hx with rfl
    exact Or.inl rfl
  | cons p rest ih =>
    intro k v x hx
    obtain ⟨a, b⟩ := p
    by_cases hk : k = a
    · rw [ainsert, if_pos hk] at hx
      rcases List.mem_cons.mp hx with rfl | hx2
      · exact Or.inl rfl
      · exact Or.inr (List.mem_cons_of_mem _ hx2)
    · rw [ainsert, if_neg hk] at hx
      rcases List.mem_cons.mp hx with rfl | hx2
      · exact Or.inr (List.mem_cons_self _ _)
      · rcases ih k v x hx2 with h | h
        · exact Or.inl h
        · exact Or.inr (List.mem_cons_of_mem _ h)

/-- Sums distribute over pointwise addition of mapped functions. -/
theorem sum_map_add {β : Type} (g h : β → Nat) :
    ∀ K : List β,
      (K.map (fun b => g b + h b)).sum = (K.map g).sum + (K.map h).sum := by
  intro K
  induction K with
  | nil => rfl
  | cons k rest ih =>
    simp only [List.map_cons, List.sum_cons, ih]
    omega

/-- Over a duplicate-free list containing `x`, the indicator of `x` sums
to one. -/
theorem sum_indicator_nodup {β : Type} [DecidableEq β] :
    ∀ (K : List β) (x : β), K.Nodup → x ∈ K →
      (K.map (fun b => if x = b then (1 : Nat) else 0)).sum = 1 := by
  intro K
  induction K with
  | nil => intro x _ hx; simp at hx
  | cons k rest ih =>
    intro x hnd hx
    rw [List.nodup_cons] at hnd
    rw [List.map_cons, List.sum_cons]
    by_cases hxk : x = k
    · subst hxk
      rw [if_pos rfl]
      have hz : (rest.map (fun b => if x = b then (1 : Nat) else 0)).sum = 0 := by
        rw [List.sum_eq_zero]
        intro n hn
        obtain ⟨b, hb, hbn⟩ := List.mem_map.mp hn
        rw [if_neg (fun hEq : x = b => hnd.1 (by rw [hEq]; exact hb))] at hbn
        omega
      omega
    · rw [if_neg hxk]
      have hxr : x ∈ rest := by
        rcases List.mem_cons.mp hx with h | h
        · exact absurd h hxk
        · exact h
      rw [ih x hnd.2 hxr]

/-- Counting by fibers: the size of a filtered list equals the sum, over a
duplicate-free covering list of fiber labels, of the sizes of its fibers. -/
theorem length_filter_eq_sum {α β : Type} [DecidableEq β]
    (f : α → β) (P : α → Bool) :
    ∀ (L : List α) (K : List β), K.Nodup →
      (∀ a ∈ L, P a = true → f a ∈ K) →
      (K.map (fun b =>
        (L.filter (fun a => P a && decide (f a = b))).length)).sum =
      (L.filter P).length := by
  intro L
  induction L with
  | nil =>
    intro K _ _
    simp
  | cons a L2 ih =>
    intro K hnd hcov
    by_cases hPa : P a = true
    · have hfa : f a ∈ K := hcov a (List.mem_cons_self _ _) hPa
      have hmap : K.map (fun b =>
          (List.filter (fun x => P x && decide (f x = b)) (a :: L2)).length) =
          K.map (fun b => (if f a = b then 1 else 0) +
            (List.filter (fun x => P x && decide (f x = b)) L2).length) := by
        apply List.map_congr_left
        intro b _
        rw [List.filter_cons]
        by_cases hfb : f a = b
        · rw [if_pos (by simp [hPa, hfb]), if_pos hfb, List.length_cons]
          omega
        · rw [if_neg (by simp [hPa, hfb]), if_neg hfb]
          omega
      rw [hmap, sum_map_add, sum_indicator_nodup K (f a) hnd hfa,
        List.filter_cons, if_pos hPa, List.length_cons,
        ih K hnd (fun x hx hPx => hcov x (List.mem_cons_of_mem _ hx) hPx)]
      omega
    · have hmap : K.map (fun b =>
          (List.filter (fun x => P x && decide (f x = b)) (a :: L2)).length) =
          K.map (fun b =>
            (List.filter (fun x => P x && decide (f x = b)) L2).length) := by
        apply List.map_congr_left
        intro b _
        rw [List.filter_cons, if_neg (by simp [hPa])]
      rw [hmap, List.filter_cons, if_neg (by simp [hPa]),
        ih K hnd (fun x hx hPx => hcov x (List.mem_cons_of_mem _ hx) hPx)]

/-- With unique keys, filtering rows equals filtering keys through lookup. -/
theorem akeys_cons {α β : Type} (p : α × β) (l : List (α × β)) :
    akeys (p :: l) = p.1 :: akeys l := rfl

theorem filter_length_eq_keys {β : Type}
    (pred : IssuerTokenId → β → Bool) :
    ∀ l : List (IssuerTokenId × β), aNodup l →
      (l.filter (fun q => pred q.1 q.2)).length =
      ((akeys l).filter (fun k => match alookup l k with
        | some td => pred k td
        | none => false)).length := by
  intro l
  induction l with
  | nil => intro _; rfl
  | cons q rest ih =>
    intro hnd
    obtain ⟨k, td⟩ := q
    have hnd2 := hnd
    unfold aNodup akeys at hnd2
    rw [List.map_cons, List.nodup_cons] at hnd2
    have hrest : (akeys rest).filter (fun k2 =>
        match alookup ((k, td) :: rest) k2 with
        | some td2 => pred k2 td2
        | none => false) =
        (akeys rest).filter (fun k2 => match alookup rest k2 with
        | some td2 => pred k2 td2
        | none => false) := by
      apply List.filter_congr
      intro k2 hk2
      have hne : k2 ≠ k := fun hEq => hnd2.1 (hEq ▸ hk2)
      rw [alookup, if_neg hne]
    rw [List.filter_cons, akeys_cons, List.filter_cons]
    have hself : alookup ((k, td) :: rest) k = some td := by
      rw [alookup, if_pos rfl]
    by_cases hp : pred k td = true
    · rw [if_pos hp, if_pos (by rw [hself]; exact hp), List.length_cons,
        List.length_cons, hrest, ih hnd2.2]
    · rw [if_neg hp, if_neg (by rw [hself]; simpa using hp), hrest, ih hnd2.2]

/-- Filter counts agree on stores with the same keys and pointwise
`pred`-equivalent rows. -/
theorem filter_length_congr {β : Type}
    (pred : IssuerTokenId → β → Bool)
    (l1 l2 : List (IssuerTokenId × β))
    (hnd1 : aNodup l1) (hnd2 : aNodup l2) (hk : akeys l1 = akeys l2)
    (hlk : ∀ k td td', alookup l1 k = some td → alookup l2 k = some td' →
      pred k td = pred k td') :
    (l1.filter (fun q => pred q.1 q.2)).length =
    (l2.filter (fun q => pred q.1 q.2)).length := by
  rw [filter_length_eq_keys pred l1 hnd1, filter_length_eq_keys pred l2 hnd2,
    ← hk]
  apply congrArg
  apply List.filter_congr
  intro k hkm
  have hkm2 : k ∈ akeys l2 := hk ▸ hkm
  cases hl1 : alookup l1 k with
  | none =>
    exact absurd (alookup_isSome_of_mem_akeys hkm) (by rw [hl1]; simp)
  | some td =>
    cases hl2 : alookup l2 k with
    | none =>
      exact absurd (alookup_isSome_of_mem_akeys hkm2) (by rw [hl2]; simp)
    | some td2 =>
      simp only [hl1, hl2]
      exact hlk k td td2 hl1 hl2

/-- Sum of the per-owner supply counters of one issuer. -/
def sumOwnerFor (c : Contract) (i : Nat) : Nat :=
  ((c.supply_by_owner.filter (fun p => decide (p.1.2 = i))).map
    (fun p => p.2)).sum

/-- Sum of the per-class supply counters of one issuer. -/
def sumClassFor (c : Contract) (i : Nat) : Nat :=
  ((c.supply_by_class.filter (fun p => decide (p.1.1 = i))).map
    (fun p => p.2)).sum

/-- Under `SWF`, the per-class counters of an issuer sum to its live-token
count. -/
theorem swf_sum_class (c : Contract) (hswf : SWF c) (i : Nat) :
    sumClassFor c i = tokCountByIssuer c i := by
  obtain ⟨-, -, -, -, -, -, -, -, -, h10, h11, -, -, -, h15, -, -, -⟩ := hswf
  set F := c.supply_by_class.filter (fun p => decide (p.1.1 = i)) with hF
  set K := F.map (fun p => p.1.2) with hK
  have hFmem : ∀ p ∈ F, p ∈ c.supply_by_class ∧ p.1.1 = i := by
    intro p hp
    have := List.mem_filter.mp hp
    exact ⟨this.1, of_decide_eq_true this.2⟩
  have hstepA : sumClassFor c i =
      (K.map (fun cl => tokCountByClass c i cl)).sum := by
    unfold sumClassFor
    rw [hK, List.map_map]
    apply congrArg
    apply List.map_congr_left
    intro p hp
    obtain ⟨hp1, hp2⟩ := hFmem p hp
    have := h10 p hp1
    rw [this, hp2]
    rfl
  have hKnd : K.Nodup := by
    have hFk : (F.map Prod.fst).Nodup :=
      ((List.filter_sublist c.supply_by_class).map Prod.fst).nodup h15
    have hKeq : K = (F.map Prod.fst).map (fun k => k.2) := by
      rw [hK, List.map_map]
      rfl
    rw [hKeq]
    apply hFk.map_on
    intro k1 hk1 k2 hk2 h12
    obtain ⟨p1, hp1, hk1e⟩ := List.mem_map.mp hk1
    obtain ⟨p2, hp2, hk2e⟩ := List.mem_map.mp hk2
    have e1 : k1.1 = i := by rw [← hk1e]; exact (hFmem p1 hp1).2
    have e2 : k2.1 = i := by rw [← hk2e]; exact (hFmem p2 hp2).2
    exact Prod.ext (by rw [e1, e2]) h12
  have hcov : ∀ q ∈ c.issuer_tokens,
      decide (q.1.issuer_id = i) = true → q.2.metadata.class_id ∈ K := by
    intro q hq hqi
    have hqi2 : q.1.issuer_id = i := of_decide_eq_true hqi
    have hk := h11 q hq
    rw [hqi2] at hk
    obtain ⟨p, hp, hpe⟩ := List.mem_map.mp hk
    have hpF : p ∈ F := by
      rw [hF]
      refine List.mem_filter.mpr ⟨hp, ?_⟩
      rw [show p.1.1 = i from by rw [hpe]]
      simp
    refine List.mem_map.mpr ⟨p, hpF, ?_⟩
    rw [show p.1 = (i, q.2.metadata.class_id) from hpe]
  have hfib := length_filter_eq_sum
    (fun q : IssuerTokenId × TokenData => q.2.metadata.class_id)
    (fun q : IssuerTokenId × TokenData => decide (q.1.issuer_id = i))
    c.issuer_tokens K hKnd hcov
  have hfib2 : ∀ cl : Nat, (List.filter (fun q : IssuerTokenId × TokenData =>
      decide (q.1.issuer_id = i) && decide (q.2.metadata.class_id = cl))
      c.issuer_tokens).length = tokCountByClass c i cl := by
    intro cl
    unfold tokCountByClass
    apply congrArg
    apply List.filter_congr
    intro q _
    simp only [Bool.decide_and]
  rw [hstepA]
  unfold tokCountByIssuer
  rw [← hfib]
  apply congrArg
  apply List.map_congr_left
  intro cl _
  exact (hfib2 cl).symm

/-- Under `SWF`, the per-owner counters of an issuer sum to its live-token
count. -/
theorem swf_sum_owner (c : Contract) (hswf : SWF c) (i : Nat) :
    sumOwnerFor c i = tokCountByIssuer c i := by
  obtain ⟨-, -, -, -, -, -, -, h8, h9, -, -, -, -, h14, -, -, -, -⟩ := hswf
  set F := c.supply_by_owner.filter (fun p => decide (p.1.2 = i)) with hF
  set K := F.map (fun p => p.1.1) with hK
  have hFmem : ∀ p ∈ F, p ∈ c.supply_by_owner ∧ p.1.2 = i := by
    intro p hp
    have := List.mem_filter.mp hp
    exact ⟨this.1, of_decide_eq_true this.2⟩
  have hstepA : sumOwnerFor c i =
      (K.map (fun o => tokCountByOwner c o i)).sum := by
    unfold sumOwnerFor
    rw [hK, List.map_map]
    apply congrArg
    apply List.map_congr_left
    intro p hp
    obtain ⟨hp1, hp2⟩ := hFmem p hp
    have := h8 p hp1
    rw [this, hp2]
    rfl
  have hKnd : K.Nodup := by
    have hFk : (F.map Prod.fst).Nodup :=
      ((List.filter_sublist c.supply_by_owner).map Prod.fst).nodup h14
    have hKeq : K = (F.map Prod.fst).map (fun k => k.1) := by
      rw [hK, List.map_map]
      rfl
    rw [hKeq]
    apply hFk.map_on
    intro k1 hk1 k2 hk2 h12
    obtain ⟨p1, hp1, hk1e⟩ := List.mem_map.mp hk1
    obtain ⟨p2, hp2, hk2e⟩ := List.mem_map.mp hk2
    have e1 : k1.2 = i := by rw [← hk1e]; exact (hFmem p1 hp1).2
    have e2 : k2.2 = i := by rw [← hk2e]; exact (hFmem p2 hp2).2
    exact Prod.ext h12 (by rw [e1, e2])
  have hcov : ∀ q ∈ c.issuer_tokens,
      decide (q.1.issuer_id = i) = true → q.2.owner ∈ K := by
    intro q hq hqi
    have hqi2 : q.1.issuer_id = i := of_decide_eq_true hqi
    have hk := h9 q hq
    rw [hqi2] at hk
    obtain ⟨p, hp, hpe⟩ := List.mem_map.mp hk
    have hpF : p ∈ F := by
      rw [hF]
      refine List.mem_filter.mpr ⟨hp, ?_⟩
      rw [show p.1.2 = i from by rw [hpe]]
      simp
    refine List.mem_map.mpr ⟨p, hpF, ?_⟩
    rw [show p.1 = (q.2.owner, i) from hpe]
  have hfib := length_filter_eq_sum
    (fun q : IssuerTokenId × TokenData => q.2.owner)
    (fun q : IssuerTokenId × TokenData => decide (q.1.issuer_id = i))
    c.issuer_tokens K hKnd hcov
  have hfib2 : ∀ o : AccountId, (List.filter
      (fun q : IssuerTokenId × TokenData =>
      decide (q.1.issuer_id = i) && decide (q.2.owner = o))
      c.issuer_tokens).length = tokCountByOwner c o i := by
    intro o
    unfold tokCountByOwner
    apply congrArg
    apply List.filter_congr
    intro q _
    simp only [Bool.decide_and]
  rw [hstepA]
  unfold tokCountByIssuer
  rw [← hfib]
  apply congrArg
  apply List.map_congr_left
  intro o _
  exact (hfib2 o).symm

/-! ### Preservation of well-formedness by the ledger operations -/

/-- A present key stays present through an unrelated insertion. -/
theorem isSome_ainsert {α β : Type} [DecidableEq α]
    (l : List (α × β)) (k k' : α) (v : β)
    (h : (alookup l k').isSome = true) :
    (alookup (ainsert l k v) k').isSome = true := by
  by_cases hk : k' = k
  · subst hk
    rw [alookup_ainsert_self]
    rfl
  · rw [alookup_ainsert_ne _ _ _ _ hk]
    exact h

/-- The empty ledger is well-formed. -/
theorem swf_empty : SWF emptyContract := by decide

/-- Issuer registration preserves well-formedness. -/
theorem swf_add_issuer (c : Contract) (issuer : AccountId) (c2 : Contract)
    (hswf : SWF c) (h : add_sbt_issuer c issuer = some c2) : SWF c2 := by
  unfold add_sbt_issuer at h
  cases hfound : (alookup c.sbt_issuers issuer).isSome with
  | true =>
    rw [if_pos hfound] at h
    exact Option.noConfusion h
  | false =>
    rw [if_neg (by rw [hfound]; exact Bool.false_ne_true)] at h
    injection h with h
    subst h
    obtain ⟨h1, h2, h3, h4, h5, h6, h7, h8, h9, h10, h11, h12, h13, h14, h15,
      h16, h17, h18, h19⟩ := hswf
    refine ⟨h1, h2, h3, h4, h5, ?_, h7, h8, h9, h10, h11, h12, h13, h14, h15,
      h16, ?_, ?_, ?_⟩
    · intro p hp
      exact isSome_ainsert _ _ _ _ (h6 p hp)
    · intro p hp
      rcases mem_ainsert _ _ _ _ hp with rfl | hp2
      · exact ⟨h19, Nat.lt_succ_self _, alookup_ainsert_self _ _ _⟩
      · obtain ⟨g1, g2, g3⟩ := h17 p hp2
        refine ⟨g1, Nat.lt_succ_of_lt g2, ?_⟩
        rw [alookup_ainsert_ne _ _ _ _ (by omega)]
        exact g3
    · intro p hp
      rcases mem_ainsert _ _ _ _ hp with rfl | hp2
      · exact Nat.lt_succ_self _
      · exact Nat.lt_succ_of_lt (h18 p hp2)
    · exact Nat.le_succ_of_le h19

/-- Members of an insertion into a duplicate-free map: the inserted pair, or
an original member with a different key. -/
theorem mem_ainsert_nodup {α β : Type} [DecidableEq α] :
    ∀ {l : List (α × β)} {k : α} {v : β} {x : α × β}, aNodup l →
      x ∈ ainsert l k v → x = (k, v) ∨ (x ∈ l ∧ x.1 ≠ k) := by
  intro l
  induction l with
  | nil =>
    intro k v x _ hx
    rcases List.mem_singleton.mp hx with rfl
    exact Or.inl rfl
  | cons p rest ih =>
    intro k v x hnd hx
    obtain ⟨a, b⟩ := p
    unfold aNodup akeys at hnd
    rw [List.map_cons, List.nodup_cons] at hnd
    by_cases hk : k = a
    · subst hk
      rw [ainsert, if_pos rfl] at hx
      rcases List.mem_cons.mp hx with rfl | hx2
      · exact Or.inl rfl
      · refine Or.inr ⟨List.mem_cons_of_mem _ hx2, ?_⟩
        intro hEq
        exact hnd.1 (List.mem_map.mpr ⟨x, hx2, hEq⟩)
    · rw [ainsert, if_neg hk] at hx
      rcases List.mem_cons.mp hx with rfl | hx2
      · exact Or.inr ⟨List.mem_cons_self _ _, fun hEq => hk hEq.symm⟩
      · rcases ih hnd.2 hx2 with h | ⟨hm, hne⟩
        · exact Or.inl h
        · exact Or.inr ⟨List.mem_cons_of_mem _ hm, hne⟩

/-- The inserted key is a key of the insertion. -/
theorem mem_akeys_ainsert_self {α β : Type} [DecidableEq α]
    (l : List (α × β)) (k : α) (v : β) : k ∈ akeys (ainsert l k v) := by
  rw [akeys_ainsert]
  by_cases hm : k ∈ akeys l
  · rw [if_pos hm]
    exact hm
  · rw [if_neg hm]
    exact List.mem_append.mpr (Or.inr (List.mem_singleton.mpr rfl))

/-- Existing keys survive an insertion. -/
theorem mem_akeys_ainsert_of_mem {α β : Type} [DecidableEq α]
    {l : List (α × β)} {k' : α} (k : α) (v : β) (h : k' ∈ akeys l) :
    k' ∈ akeys (ainsert l k v) := by
  rw [akeys_ainsert]
  by_cases hm : k ∈ akeys l
  · rw [if_pos hm]
    exact h
  · rw [if_neg hm]
    exact List.mem_append.mpr (Or.inl h)

/-- Length of a filter over a one-element extension. -/
theorem filter_length_append_single {α : Type} (L : List α) (x : α)
    (P : α → Bool) :
    ((L ++ [x]).filter P).length =
      (L.filter P).length + (if P x = true then 1 else 0) := by
  rw [List.filter_append, List.length_append]
  cases hx : P x
  · simp [List.filter_cons, hx]
  · simp [List.filter_cons, hx]

/-- One mint iteration preserves well-formedness. -/
theorem swf_mint_step (c : Contract) (iid : Nat) (owner : AccountId)
    (md : TokenMetadata) (hswf : SWF c)
    (hreg : (alookup c.issuer_id_map iid).isSome = true)
    (hiid : 1 ≤ iid) (hcl : md.class_id ≠ 0)
    (hfree : (alookup c.balances
      (balance_key owner iid md.class_id)).isSome = false) :
    SWF { c with
      issuer_tokens := ainsert c.issuer_tokens
        { issuer_id := iid, token := alookupD c.next_token_ids iid 0 + 1 }
        { owner := owner, metadata := md },
      balances := binsert c.balances (balance_key owner iid md.class_id)
        (alookupD c.next_token_ids iid 0 + 1),
      next_token_ids := ainsert c.next_token_ids iid
        (alookupD c.next_token_ids iid 0 + 1),
      supply_by_owner := ainsert c.supply_by_owner (owner, iid)
        (alookupD c.supply_by_owner (owner, iid) 0 + 1),
      supply_by_class := ainsert c.supply_by_class (iid, md.class_id)
        (alookupD c.supply_by_class (iid, md.class_id) 0 + 1),
      supply_by_issuer := ainsert c.supply_by_issuer iid
        (alookupD c.supply_by_issuer iid 0 + 1) } := by
  have hOL := swf_owner_lookup c hswf
  have hCL := swf_class_lookup c hswf
  have hIL := swf_issuer_lookup c hswf
  obtain ⟨h1, h2, h3, h4, h5, h6, h7, h8, h9, h10, h11, h12, h13, h14, h15,
    h16, h17, h18, h19⟩ := hswf
  set tok := alookupD c.next_token_ids iid 0 + 1 with htok
  set kIT : IssuerTokenId := { issuer_id := iid, token := tok } with hkIT
  set td : TokenData := { owner := owner, metadata := md } with htd
  set key := balance_key owner iid md.class_id with hkey
  set c2 : Contract := { c with
    issuer_tokens := ainsert c.issuer_tokens kIT td,
    balances := binsert c.balances key tok,
    next_token_ids := ainsert c.next_token_ids iid tok,
    supply_by_owner := ainsert c.supply_by_owner (owner, iid)
      (alookupD c.supply_by_owner (owner, iid) 0 + 1),
    supply_by_class := ainsert c.supply_by_class (iid, md.class_id)
      (alookupD c.supply_by_class (iid, md.class_id) 0 + 1),
    supply_by_issuer := ainsert c.supply_by_issuer iid
      (alookupD c.supply_by_issuer iid 0 + 1) } with hc2
  have hfresh_store : kIT ∉ akeys c.issuer_tokens := by
    intro hm
    obtain ⟨q, hq, hqe⟩ := List.mem_map.mp hm
    have h7q := h7 q hq
    rw [hqe] at h7q
    have hbound : tok ≤ alookupD c.next_token_ids iid 0 := h7q.2
    omega
  have hfresh_bal : key ∉ akeys c.balances := by
    intro hm
    have hsome := alookup_isSome_of_mem_akeys hm
    rw [hfree] at hsome
    exact Bool.false_ne_true hsome
  have hits : c2.issuer_tokens = c.issuer_tokens ++ [(kIT, td)] :=
    ainsert_of_not_mem hfresh_store td
  have hcntO : ∀ o i, tokCountByOwner c2 o i =
      tokCountByOwner c o i + (if i = iid ∧ o = owner then 1 else 0) := by
    intro o i
    unfold tokCountByOwner
    rw [hits, filter_length_append_single]
    congr 1
    by_cases hcond : i = iid ∧ o = owner
    · rw [if_pos (decide_eq_true ⟨hcond.1.symm, hcond.2.symm⟩),
        if_pos hcond]
    · rw [if_neg (fun hP => hcond
        ⟨((of_decide_eq_true hP).1).symm, ((of_decide_eq_true hP).2).symm⟩),
        if_neg hcond]
  have hcntC : ∀ i cl, tokCountByClass c2 i cl =
      tokCountByClass c i cl +
        (if i = iid ∧ cl = md.class_id then 1 else 0) := by
    intro i cl
    unfold tokCountByClass
    rw [hits, filter_length_append_single]
    congr 1
    by_cases hcond : i = iid ∧ cl = md.class_id
    · rw [if_pos (decide_eq_true ⟨hcond.1.symm, hcond.2.symm⟩),
        if_pos hcond]
    · rw [if_neg (fun hP => hcond
        ⟨((of_decide_eq_true hP).1).symm, ((of_decide_eq_true hP).2).symm⟩),
        if_neg hcond]
  have hcntI : ∀ i, tokCountByIssuer c2 i =
      tokCountByIssuer c i + (if i = iid then 1 else 0) := by
    intro i
    unfold tokCountByIssuer
    rw [hits, filter_length_append_single]
    congr 1
    by_cases hcond : i = iid
    · rw [if_pos (decide_eq_true hcond.symm), if_pos hcond]
    · rw [if_neg (fun hP => hcond (of_decide_eq_true hP).symm),
        if_neg hcond]
  refine ⟨?_, ?_, ?_, ?_, ?_, ?_, ?_, ?_, ?_, ?_, ?_, ?_, ?_, ?_, ?_, ?_,
    ?_, ?_, ?_⟩
  · exact bsorted_binsert _ _ _ h1
  · exact aNodup_ainsert _ _ _ h2
  · intro p hp
    have hp' : p ∈ binsert c.balances key tok := hp
    rcases mem_binsert hp' with rfl | hp2
    · show (alookup (ainsert c.issuer_tokens kIT td) kIT).map
        (fun t => (t.owner, t.metadata.class_id)) = some (owner, md.class_id)
      rw [alookup_ainsert_self]
      rfl
    · have hne : ({ issuer_id := p.1.issuer_id, token := p.2 } :
          IssuerTokenId) ≠ kIT := by
        intro hEq
        have h3p := h3 p hp2
        rw [hEq] at h3p
        obtain ⟨td0, htd0, -⟩ := Option.map_eq_some'.mp h3p
        exact hfresh_store (mem_akeys_of_alookup htd0)
      show (alookup (ainsert c.issuer_tokens kIT td)
        { issuer_id := p.1.issuer_id, token := p.2 }).map
        (fun t => (t.owner, t.metadata.class_id)) =
        some (p.1.owner, p.1.class_id)
      rw [alookup_ainsert_ne _ _ _ _ hne]
      exact h3 p hp2
  · intro q hq
    have hq' : q ∈ c.issuer_tokens ++ [(kIT, td)] := by
      rw [← hits]
      exact hq
    rcases List.mem_append.mp hq' with hq2 | hq3
    · have hbkne : balance_key q.2.owner q.1.issuer_id
          q.2.metadata.class_id ≠ key := by
        intro hEq
        have h4q := h4 q hq2
        rw [hEq] at h4q
        have hsome : (alookup c.balances key).isSome = true := by
          rw [h4q]
          rfl
        rw [hfree] at hsome
        exact Bool.false_ne_true hsome
      show alookup (binsert c.balances key tok)
        (balance_key q.2.owner q.1.issuer_id q.2.metadata.class_id) =
        some q.1.token
      rw [alookup_binsert_ne _ _ _ _ hbkne]
      exact h4 q hq2
    · rcases List.mem_singleton.mp hq3 with rfl
      show alookup (binsert c.balances key tok) key = some tok
      exact alookup_binsert_self _ _ _
  · intro p hp
    have hp' : p ∈ binsert c.balances key tok := hp
    rcases mem_binsert hp' with rfl | hp2
    · exact ⟨hiid, Nat.pos_of_ne_zero hcl⟩
    · exact h5 p hp2
  · intro p hp
    have hp' : p ∈ binsert c.balances key tok := hp
    rcases mem_binsert hp' with rfl | hp2
    · show (alookup c.issuer_id_map iid).isSome = true
      exact hreg
    · exact h6 p hp2
  · intro q hq
    have hq' : q ∈ c.issuer_tokens ++ [(kIT, td)] := by
      rw [← hits]
      exact hq
    rcases List.mem_append.mp hq' with hq2 | hq3
    · obtain ⟨g1, g2⟩ := h7 q hq2
      refine ⟨g1, ?_⟩
      by_cases hqi : q.1.issuer_id = iid
      · rw [hqi] at g2 ⊢
        show q.1.token ≤ alookupD (ainsert c.next_token_ids iid tok) iid 0
        unfold alookupD
        rw [alookup_ainsert_self, Option.getD_some]
        omega
      · show q.1.token ≤
          alookupD (ainsert c.next_token_ids iid tok) q.1.issuer_id 0
        unfold alookupD
        rw [alookup_ainsert_ne _ _ _ _ hqi]
        exact g2
    · rcases List.mem_singleton.mp hq3 with rfl
      refine ⟨show 1 ≤ tok by omega, ?_⟩
      show tok ≤ alookupD (ainsert c.next_token_ids iid tok) iid 0
      unfold alookupD
      rw [alookup_ainsert_self, Option.getD_some]
  · intro p hp
    have hp' : p ∈ ainsert c.supply_by_owner (owner, iid)
        (alookupD c.supply_by_owner (owner, iid) 0 + 1) := hp
    rcases mem_ainsert_nodup h14 hp' with rfl | ⟨hp2, hpne⟩
    · show alookupD c.supply_by_owner (owner, iid) 0 + 1 =
        tokCountByOwner c2 owner iid
      rw [hcntO owner iid, if_pos ⟨rfl, rfl⟩, hOL owner iid]
    · show p.2 = tokCountByOwner c2 p.1.1 p.1.2
      rw [hcntO p.1.1 p.1.2,
        if_neg (fun hc => hpne (Prod.ext hc.2 hc.1)), Nat.add_zero]
      exact h8 p hp2
  · intro q hq
    have hq' : q ∈ c.issuer_tokens ++ [(kIT, td)] := by
      rw [← hits]
      exact hq
    rcases List.mem_append.mp hq' with hq2 | hq3
    · exact mem_akeys_ainsert_of_mem _ _ (h9 q hq2)
    · rcases List.mem_singleton.mp hq3 with rfl
      show (owner, iid) ∈ akeys (ainsert c.supply_by_owner (owner, iid)
        (alookupD c.supply_by_owner (owner, iid) 0 + 1))
      exact mem_akeys_ainsert_self _ _ _
  · intro p hp
    have hp' : p ∈ ainsert c.supply_by_class (iid, md.class_id)
        (alookupD c.supply_by_class (iid, md.class_id) 0 + 1) := hp
    rcases mem_ainsert_nodup h15 hp' with rfl | ⟨hp2, hpne⟩
    · show alookupD c.supply_by_class (iid, md.class_id) 0 + 1 =
        tokCountByClass c2 iid md.class_id
      rw [hcntC iid md.class_id, if_pos ⟨rfl, rfl⟩, hCL iid md.class_id]
    · show p.2 = tokCountByClass c2 p.1.1 p.1.2
      rw [hcntC p.1.1 p.1.2,
        if_neg (fun hc => hpne (Prod.ext hc.1 hc.2)), Nat.add_zero]
      exact h10 p hp2
  · intro q hq
    have hq' : q ∈ c.issuer_tokens ++ [(kIT, td)] := by
      rw [← hits]
      exact hq
    rcases List.mem_append.mp hq' with hq2 | hq3
    · exact mem_akeys_ainsert_of_mem _ _ (h11 q hq2)
    · rcases List.mem_singleton.mp hq3 with rfl
      show (iid, md.class_id) ∈ akeys (ainsert c.supply_by_class
        (iid, md.class_id)
        (alookupD c.supply_by_class (iid, md.class_id) 0 + 1))
      exact mem_akeys_ainsert_self _ _ _
  · intro p hp
    have hp' : p ∈ ainsert c.supply_by_issuer iid
        (alookupD c.supply_by_issuer iid 0 + 1) := hp
    rcases mem_ainsert_nodup h16 hp' with rfl | ⟨hp2, hpne⟩
    · show alookupD c.supply_by_issuer iid 0 + 1 = tokCountByIssuer c2 iid
      rw [hcntI iid, if_pos rfl, hIL iid]
    · show p.2 = tokCountByIssuer c2 p.1
      rw [hcntI p.1, if_neg hpne, Nat.add_zero]
      exact h12 p hp2
  · intro q hq
    have hq' : q ∈ c.issuer_tokens ++ [(kIT, td)] := by
      rw [← hits]
      exact hq
    rcases List.mem_append.mp hq' with hq2 | hq3
    · exact mem_akeys_ainsert_of_mem _ _ (h13 q hq2)
    · rcases List.mem_singleton.mp hq3 with rfl
      show iid ∈ akeys (ainsert c.supply_by_issuer iid
        (alookupD c.supply_by_issuer iid 0 + 1))
      exact mem_akeys_ainsert_self _ _ _
  · exact aNodup_ainsert _ _ _ h14
  · exact aNodup_ainsert _ _ _ h15
  · exact aNodup_ainsert _ _ _ h16
  · exact h17
  · exact h18
  · exact h19

/-- The mint loop preserves well-formedness and the issuer directory. -/
theorem swf_mintLoop (iid : Nat) :
    ∀ (specs : List (AccountId × TokenMetadata)) (c : Contract)
      (ids : List Nat) (c2 : Contract) (ids2 : List Nat),
      SWF c → (alookup c.issuer_id_map iid).isSome = true → 1 ≤ iid →
      mintLoop iid specs c ids = some (c2, ids2) →
      SWF c2 ∧ c2.sbt_issuers = c.sbt_issuers ∧
      c2.issuer_id_map = c.issuer_id_map ∧ c2.banlist = c.banlist ∧
      c2.next_issuer_id = c.next_issuer_id ∧
      c2.ongoing_soul_tx = c.ongoing_soul_tx := by
  intro specs
  induction specs with
  | nil =>
    intro c ids c2 ids2 hswf _ _ h
    rw [mintLoop] at h
    injection h with h
    injection h with h1 h2
    subst h1
    exact ⟨hswf, rfl, rfl, rfl, rfl, rfl⟩
  | cons pr rest ih =>
    intro c ids c2 ids2 hswf hreg hiid h
    obtain ⟨owner, md⟩ := pr
    rw [mintLoop] at h
    by_cases hclz : md.class_id = 0
    · rw [if_pos hclz] at h
      exact Option.noConfusion h
    · rw [if_neg hclz] at h
      simp only [] at h
      by_cases hocc : (alookup c.balances
          (balance_key owner iid md.class_id)).isSome = true
      · rw [if_pos hocc] at h
        exact Option.noConfusion h
      · rw [if_neg hocc] at h
        have hfree : (alookup c.balances
            (balance_key owner iid md.class_id)).isSome = false := by
          cases hx : (alookup c.balances
              (balance_key owner iid md.class_id)).isSome
          · rfl
          · exact absurd hx hocc
        have hswf2 := swf_mint_step c iid owner md hswf hreg hiid hclz hfree
        obtain ⟨g0, g1, g2, g3, g4, g5⟩ := ih _ _ _ _ hswf2 hreg hiid h
        exact ⟨g0, g1, g2, g3, g4, g5⟩

/-- `sbt_mint` preserves well-formedness. -/
theorem swf_sbt_mint (c : Contract) (issuer : AccountId)
    (token_spec : List (AccountId × List TokenMetadata))
    (c2 : Contract) (ids : List Nat) (hswf : SWF c)
    (h : sbt_mint c issuer token_spec = some (c2, ids)) : SWF c2 := by
  unfold sbt_mint at h
  cases hiss : assert_issuer c issuer with
  | none =>
    rw [hiss] at h
    exact Option.noConfusion h
  | some iid =>
    rw [hiss] at h
    simp only [] at h
    have hmem : (issuer, iid) ∈ c.sbt_issuers := alookup_mem hiss
    have h17 : ∀ p ∈ c.sbt_issuers, 1 ≤ p.2 ∧ p.2 < c.next_issuer_id ∧
        alookup c.issuer_id_map p.2 = some p.1 := by
      obtain ⟨-, -, -, -, -, -, -, -, -, -, -, -, -, -, -, -, g17, -⟩ := hswf
      exact g17
    obtain ⟨hiid1, -, hrev⟩ := h17 (issuer, iid) hmem
    have hreg : (alookup c.issuer_id_map iid).isSome = true := by
      rw [hrev]
      rfl
    exact (swf_mintLoop iid _ c [] c2 ids hswf hreg hiid1 h).1

/-- Rewriting one existing token row without changing its owner or class
preserves well-formedness. -/
theorem swf_soft_step (c : Contract) (k : IssuerTokenId) (td td2 : TokenData)
    (hswf : SWF c)
    (hlook : alookup c.issuer_tokens k = some td)
    (hown : td2.owner = td.owner)
    (hcl : td2.metadata.class_id = td.metadata.class_id) :
    SWF { c with issuer_tokens := ainsert c.issuer_tokens k td2 } := by
  obtain ⟨h1, h2, h3, h4, h5, h6, h7, h8, h9, h10, h11, h12, h13, h14, h15,
    h16, h17, h18, h19⟩ := hswf
  have hkmem : k ∈ akeys c.issuer_tokens := mem_akeys_of_alookup hlook
  have hakeys : akeys (ainsert c.issuer_tokens k td2) =
      akeys c.issuer_tokens := by
    rw [akeys_ainsert, if_pos hkmem]
  have hnd2 : aNodup (ainsert c.issuer_tokens k td2) :=
    aNodup_ainsert _ _ _ h2
  have hlk2 : ∀ key, alookup (ainsert c.issuer_tokens k td2) key =
      if key = k then some td2 else alookup c.issuer_tokens key := by
    intro key
    by_cases hk : key = k
    · subst hk
      rw [if_pos rfl, alookup_ainsert_self]
    · rw [if_neg hk, alookup_ainsert_ne _ _ _ _ hk]
  have hcnt : ∀ (pred : IssuerTokenId → TokenData → Bool),
      (∀ t1 t2 : TokenData, t1.owner = t2.owner →
        t1.metadata.class_id = t2.metadata.class_id →
        ∀ key, pred key t1 = pred key t2) →
      ((ainsert c.issuer_tokens k td2).filter
        (fun q => pred q.1 q.2)).length =
      (c.issuer_tokens.filter (fun q => pred q.1 q.2)).length := by
    intro pred hpred
    refine filter_length_congr pred _ _ hnd2 h2 hakeys ?_
    intro key t t' hl1 hl2
    rw [hlk2 key] at hl1
    by_cases hk : key = k
    · rw [if_pos hk] at hl1
      injection hl1 with hl1
      subst hl1
      rw [hk] at hl2
      rw [hlook] at hl2
      injection hl2 with hl2
      subst hl2
      exact hpred td2 td hown hcl key
    · rw [if_neg hk] at hl1
      rw [hl1] at hl2
      injection hl2 with hl2
      subst hl2
      rfl
  have hcntO : ∀ o i, tokCountByOwner
      { c with issuer_tokens := ainsert c.issuer_tokens k td2 } o i =
      tokCountByOwner c o i := by
    intro o i
    unfold tokCountByOwner
    exact hcnt (fun key t => decide (key.issuer_id = i ∧ t.owner = o))
      (by
        intro t1 t2 e1 _ key
        show decide (key.issuer_id = i ∧ t1.owner = o) =
          decide (key.issuer_id = i ∧ t2.owner = o)
        rw [e1])
  have hcntC : ∀ i cl, tokCountByClass
      { c with issuer_tokens := ainsert c.issuer_tokens k td2 } i cl =
      tokCountByClass c i cl := by
    intro i cl
    unfold tokCountByClass
    exact hcnt (fun key t =>
        decide (key.issuer_id = i ∧ t.metadata.class_id = cl))
      (by
        intro t1 t2 _ e2 key
        show decide (key.issuer_id = i ∧ t1.metadata.class_id = cl) =
          decide (key.issuer_id = i ∧ t2.metadata.class_id = cl)
        rw [e2])
  have hcntI : ∀ i, tokCountByIssuer
      { c with issuer_tokens := ainsert c.issuer_tokens k td2 } i =
      tokCountByIssuer c i := by
    intro i
    unfold tokCountByIssuer
    exact hcnt (fun key _ => decide (key.issuer_id = i))
      (fun t1 t2 _ _ key => rfl)
  refine ⟨h1, hnd2, ?_, ?_, h5, h6, ?_, ?_, ?_, ?_, ?_, ?_, ?_, h14, h15,
    h16, h17, h18, h19⟩
  · intro p hp
    have h3p := h3 p hp
    show (alookup (ainsert c.issuer_tokens k td2)
      { issuer_id := p.1.issuer_id, token := p.2 }).map
      (fun t => (t.owner, t.metadata.class_id)) =
      some (p.1.owner, p.1.class_id)
    rw [hlk2]
    by_cases hk : ({ issuer_id := p.1.issuer_id, token := p.2 } :
        IssuerTokenId) = k
    · rw [if_pos hk]
      rw [hk, hlook] at h3p
      rw [Option.map_some'] at h3p ⊢
      injection h3p with h3p
      rw [← h3p]
      rw [show (td2.owner, td2.metadata.class_id) =
        (td.owner, td.metadata.class_id) from by rw [hown, hcl]]
    · rw [if_neg hk]
      exact h3p
  · intro q hq
    have hq' : q ∈ ainsert c.issuer_tokens k td2 := hq
    rcases mem_ainsert_nodup h2 hq' with rfl | ⟨hq2, -⟩
    · have h4k := h4 (k, td) (alookup_mem hlook)
      show alookup c.balances
        (balance_key td2.owner k.issuer_id td2.metadata.class_id) =
        some k.token
      rw [hown, hcl]
      exact h4k
    · exact h4 q hq2
  · intro q hq
    have hq' : q ∈ ainsert c.issuer_tokens k td2 := hq
    rcases mem_ainsert_nodup h2 hq' with rfl | ⟨hq2, -⟩
    · exact h7 (k, td) (alookup_mem hlook)
    · exact h7 q hq2
  · intro p hp
    rw [show p.2 = tokCountByOwner c p.1.1 p.1.2 from h8 p hp]
    exact (hcntO p.1.1 p.1.2).symm
  · intro q hq
    have hq' : q ∈ ainsert c.issuer_tokens k td2 := hq
    rcases mem_ainsert_nodup h2 hq' with rfl | ⟨hq2, -⟩
    · have := h9 (k, td) (alookup_mem hlook)
      show (td2.owner, k.issuer_id) ∈ akeys c.supply_by_owner
      rw [hown]
      exact this
    · exact h9 q hq2
  · intro p hp
    rw [show p.2 = tokCountByClass c p.1.1 p.1.2 from h10 p hp]
    exact (hcntC p.1.1 p.1.2).symm
  · intro q hq
    have hq' : q ∈ ainsert c.issuer_tokens k td2 := hq
    rcases mem_ainsert_nodup h2 hq' with rfl | ⟨hq2, -⟩
    · have := h11 (k, td) (alookup_mem hlook)
      show (k.issuer_id, td2.metadata.class_id) ∈ akeys c.supply_by_class
      rw [hcl]
      exact this
    · exact h11 q hq2
  · intro p hp
    rw [show p.2 = tokCountByIssuer c p.1 from h12 p hp]
    exact (hcntI p.1).symm
  · intro q hq
    have hq' : q ∈ ainsert c.issuer_tokens k td2 := hq
    rcases mem_ainsert_nodup h2 hq' with rfl | ⟨hq2, -⟩
    · exact h13 (k, td) (alookup_mem hlook)
    · exact h13 q hq2

/-- The soft-revoke loop preserves well-formedness. -/
theorem swf_revokeSoftLoop (iid now : Nat) :
    ∀ (tokens : List Nat) (c c2 : Contract), SWF c →
      revokeSoftLoop iid now tokens c = some c2 → SWF c2 := by
  intro tokens
  induction tokens with
  | nil =>
    intro c c2 hswf h
    rw [revokeSoftLoop] at h
    injection h with h
    subst h
    exact hswf
  | cons t rest ih =>
    intro c c2 hswf h
    rw [revokeSoftLoop] at h
    cases hlook : get_token c iid t with
    | none =>
      rw [hlook] at h
      exact Option.noConfusion h
    | some td =>
      rw [hlook] at h
      simp only [] at h
      have hstep := swf_soft_step c { issuer_id := iid, token := t } td
        { owner := td.owner,
          metadata := { td.metadata with expires_at := some now } }
        hswf hlook rfl rfl
      exact ih _ _ hstep h

/-- Removing a present key from a duplicate-free map drops exactly its row
from any filter count. -/
theorem filter_length_aremove {α β : Type} [DecidableEq α] :
    ∀ (l : List (α × β)) (k : α) (v : β) (P : α × β → Bool), aNodup l →
      alookup l k = some v →
      ((aremove l k).filter P).length + (if P (k, v) = true then 1 else 0) =
        (l.filter P).length := by
  intro l
  induction l with
  | nil =>
    intro k v P _ hl
    exact Option.noConfusion hl
  | cons p rest ih =>
    intro k v P hnd hl
    obtain ⟨a, b⟩ := p
    unfold aNodup akeys at hnd
    rw [List.map_cons, List.nodup_cons] at hnd
    by_cases hk : k = a
    · subst hk
      rw [alookup, if_pos rfl] at hl
      injection hl with hl
      subst hl
      rw [aremove, if_pos rfl, List.filter_cons]
      by_cases hP : P (k, b) = true
      · rw [if_pos hP, if_pos hP, List.length_cons]
      · rw [if_neg hP, if_neg hP, Nat.add_zero]
    · rw [alookup, if_neg hk] at hl
      rw [aremove, if_neg hk, List.filter_cons, List.filter_cons]
      by_cases hP : P (a, b) = true
      · rw [if_pos hP, if_pos hP, List.length_cons, List.length_cons]
        have := ih k v P hnd.2 hl
        omega
      · rw [if_neg hP, if_neg hP]
        exact ih k v P hnd.2 hl

/-- A successful burn loop run implies distinct, present token ids. -/
theorem revokeBurnLoop_success (iid : Nat) :
    ∀ (tokens : List Nat) (c : Contract) (rpc : List (Nat × Nat))
      (rpo : List (AccountId × Nat))
      (res : Contract × List (Nat × Nat) × List (AccountId × Nat)),
      aNodup c.issuer_tokens →
      revokeBurnLoop iid tokens c rpc rpo = some res →
      tokens.Nodup ∧ ∀ t ∈ tokens, (alookup c.issuer_tokens
        { issuer_id := iid, token := t }).isSome = true := by
  intro tokens
  induction tokens with
  | nil =>
    intro c rpc rpo res _ _
    exact ⟨List.nodup_nil, fun t ht => absurd ht (List.not_mem_nil t)⟩
  | cons t rest ih =>
    intro c rpc rpo res hnd h
    rw [revokeBurnLoop] at h
    cases hlook : get_token c iid t with
    | none =>
      rw [hlook] at h
      exact Option.noConfusion h
    | some td =>
      rw [hlook] at h
      simp only [] at h
      have hnd2 : aNodup (aremove c.issuer_tokens
          { issuer_id := iid, token := t }) := aNodup_aremove _ _ hnd
      obtain ⟨hr1, hr2⟩ := ih _ _ _ _ hnd2 h
      have hgone : alookup (aremove c.issuer_tokens
          { issuer_id := iid, token := t })
          { issuer_id := iid, token := t } = none :=
        alookup_aremove_self _ _ hnd
      refine ⟨List.nodup_cons.mpr ⟨?_, hr1⟩, ?_⟩
      · intro htr
        have := hr2 t htr
        rw [hgone] at this
        exact Bool.false_ne_true this
      · intro u hu
        rcases List.mem_cons.mp hu with rfl | hu2
        · rw [show alookup c.issuer_tokens { issuer_id := iid, token := u } =
            some td from hlook]
          rfl
        · have := hr2 u hu2
          by_cases hut : u = t
          · subst hut
            rw [hgone] at this
            exact absurd this Bool.false_ne_true
          · rw [alookup_aremove_ne _ _ _ (by
              intro hEq
              injection hEq with _ h2
              exact hut h2)] at this
            exact this

/-- Count bookkeeping of the burn loop: live counts drop by exactly the
per-owner/per-class/total tallies of the removed tokens. -/
theorem revokeBurnLoop_counts (iid : Nat) :
    ∀ (tokens : List Nat) (c : Contract) (rpc : List (Nat × Nat))
      (rpo : List (AccountId × Nat)) (c1 : Contract)
      (rpc1 : List (Nat × Nat)) (rpo1 : List (AccountId × Nat)),
      tokens.Nodup →
      (∀ t ∈ tokens, (alookup c.issuer_tokens
        { issuer_id := iid, token := t }).isSome = true) →
      aNodup c.issuer_tokens →
      revokeBurnLoop iid tokens c rpc rpo = some (c1, rpc1, rpo1) →
      (∀ o, tokCountByOwner c1 o iid + ownerCount c iid tokens o =
        tokCountByOwner c o iid) ∧
      (∀ cl, tokCountByClass c1 iid cl + classCount c iid tokens cl =
        tokCountByClass c iid cl) ∧
      (tokCountByIssuer c1 iid + tokens.length = tokCountByIssuer c iid) ∧
      (∀ o i, i ≠ iid → tokCountByOwner c1 o i = tokCountByOwner c o i) ∧
      (∀ i cl, i ≠ iid → tokCountByClass c1 i cl = tokCountByClass c i cl) ∧
      (∀ i, i ≠ iid → tokCountByIssuer c1 i = tokCountByIssuer c i) := by
  intro tokens
  induction tokens with
  | nil =>
    intro c rpc rpo c1 rpc1 rpo1 _ _ _ h
    rw [revokeBurnLoop] at h
    injection h with h
    injection h with h1 h2
    subst h1
    refine ⟨?_, ?_, ?_, fun o i _ => rfl, fun i cl _ => rfl, fun i _ => rfl⟩
    · intro o
      rw [show ownerCount c iid [] o = 0 from rfl]
      omega
    · intro cl
      rw [show classCount c iid [] cl = 0 from rfl]
      omega
    · rfl
  | cons t rest ih =>
    intro c rpc rpo c1 rpc1 rpo1 hnd hex hndit h
    obtain ⟨hnt, hndr⟩ := List.nodup_cons.mp hnd
    rw [revokeBurnLoop] at h
    cases hlook : get_token c iid t with
    | none =>
      rw [hlook] at h
      exact Option.noConfusion h
    | some td =>
      rw [hlook] at h
      simp only [] at h
      set c2 : Contract := { c with
        balances := aremove c.balances
          (balance_key td.owner iid td.metadata.class_id),
        issuer_tokens := aremove c.issuer_tokens
          { issuer_id := iid, token := t } } with hc2
      have hlook2 : alookup c.issuer_tokens
          { issuer_id := iid, token := t } = some td := hlook
      have hc2store : ∀ u ∈ rest,
          alookup c2.issuer_tokens { issuer_id := iid, token := u } =
          alookup c.issuer_tokens { issuer_id := iid, token := u } := by
        intro u hu
        have hut : u ≠ t := fun hEq => hnt (hEq ▸ hu)
        exact alookup_aremove_ne _ _ _ (by
          intro hEq
          injection hEq with _ h2
          exact hut h2)
      have hex2 : ∀ u ∈ rest, (alookup c2.issuer_tokens
          { issuer_id := iid, token := u }).isSome = true := by
        intro u hu
        rw [hc2store u hu]
        exact hex u (List.mem_cons_of_mem _ hu)
      have hnd2 : aNodup c2.issuer_tokens := aNodup_aremove _ _ hndit
      obtain ⟨g1, g2, g3, g4, g5, g6⟩ :=
        ih c2 (bump rpc td.metadata.class_id) (bump rpo td.owner)
          c1 rpc1 rpo1 hndr hex2 hnd2 h
      have hremO : ∀ o, tokCountByOwner c2 o iid +
          (if td.owner = o then 1 else 0) = tokCountByOwner c o iid := by
        intro o
        unfold tokCountByOwner
        have := filter_length_aremove c.issuer_tokens
          { issuer_id := iid, token := t } td
          (fun q => decide (q.1.issuer_id = iid ∧ q.2.owner = o)) hndit hlook2
        rw [← this]
        congr 1
        by_cases hto : td.owner = o
        · rw [if_pos hto, if_pos (decide_eq_true ⟨rfl, hto⟩)]
        · rw [if_neg hto, if_neg (fun hP => hto (of_decide_eq_true hP).2)]
      have hremC : ∀ cl, tokCountByClass c2 iid cl +
          (if td.metadata.class_id = cl then 1 else 0) =
          tokCountByClass c iid cl := by
        intro cl
        unfold tokCountByClass
        have := filter_length_aremove c.issuer_tokens
          { issuer_id := iid, token := t } td
          (fun q => decide (q.1.issuer_id = iid ∧
            q.2.metadata.class_id = cl)) hndit hlook2
        rw [← this]
        congr 1
        by_cases htc : td.metadata.class_id = cl
        · rw [if_pos htc, if_pos (decide_eq_true ⟨rfl, htc⟩)]
        · rw [if_neg htc, if_neg (fun hP => htc (of_decide_eq_true hP).2)]
      have hremI : tokCountByIssuer c2 iid + 1 = tokCountByIssuer c iid := by
        unfold tokCountByIssuer
        have := filter_length_aremove c.issuer_tokens
          { issuer_id := iid, token := t } td
          (fun q => decide (q.1.issuer_id = iid)) hndit hlook2
        rw [← this, if_pos (decide_eq_true rfl)]
      have hremO2 : ∀ o i, i ≠ iid →
          tokCountByOwner c2 o i = tokCountByOwner c o i := by
        intro o i hi
        unfold tokCountByOwner
        have := filter_length_aremove c.issuer_tokens
          { issuer_id := iid, token := t } td
          (fun q => decide (q.1.issuer_id = i ∧ q.2.owner = o)) hndit hlook2
        rw [← this,
          if_neg (fun hP => hi ((of_decide_eq_true hP).1).symm),
          Nat.add_zero]
      have hremC2 : ∀ i cl, i ≠ iid →
          tokCountByClass c2 i cl = tokCountByClass c i cl := by
        intro i cl hi
        unfold tokCountByClass
        have := filter_length_aremove c.issuer_tokens
          { issuer_id := iid, token := t } td
          (fun q => decide (q.1.issuer_id = i ∧
            q.2.metadata.class_id = cl)) hndit hlook2
        rw [← this,
          if_neg (fun hP => hi ((of_decide_eq_true hP).1).symm),
          Nat.add_zero]
      have hremI2 : ∀ i, i ≠ iid →
          tokCountByIssuer c2 i = tokCountByIssuer c i := by
        intro i hi
        unfold tokCountByIssuer
        have := filter_length_aremove c.issuer_tokens
          { issuer_id := iid, token := t } td
          (fun q => decide (q.1.issuer_id = i)) hndit hlook2
        rw [← this, if_neg (fun hP => hi (of_decide_eq_true hP).symm),
          Nat.add_zero]
      refine ⟨?_, ?_, ?_, ?_, ?_, ?_⟩
      · intro o
        rw [ownerCount_cons c iid t rest o td hlook2,
          ← ownerCount_congr c c2 iid rest o hc2store,
          ← hremO o]
        have := g1 o
        rw [ownerCount_congr c c2 iid rest o hc2store] at this ⊢
        omega
      · intro cl
        rw [classCount_cons c iid t rest cl td hlook2,
          ← classCount_congr c c2 iid rest cl hc2store,
          ← hremC cl]
        have := g2 cl
        omega
      · rw [List.length_cons, ← hremI]
        have := g3
        omega
      · intro o i hi
        rw [g4 o i hi, hremO2 o i hi]
      · intro i cl hi
        rw [g5 i cl hi, hremC2 i cl hi]
      · intro i hi
        rw [g6 i hi, hremI2 i hi]

/-- Success characterization of the per-owner counter decrements. -/
theorem applyOwnerDecs_success (iid : Nat) :
    ∀ (rpo : List (AccountId × Nat)) (c c2 : Contract), aNodup rpo →
      applyOwnerDecs iid rpo c = some c2 →
      c2.sbt_issuers = c.sbt_issuers ∧ c2.issuer_id_map = c.issuer_id_map ∧
      c2.banlist = c.banlist ∧ c2.supply_by_class = c.supply_by_class ∧
      c2.supply_by_issuer = c.supply_by_issuer ∧ c2.balances = c.balances ∧
      c2.issuer_tokens = c.issuer_tokens ∧
      c2.next_token_ids = c.next_token_ids ∧
      c2.next_issuer_id = c.next_issuer_id ∧
      c2.ongoing_soul_tx = c.ongoing_soul_tx ∧
      akeys c2.supply_by_owner = akeys c.supply_by_owner ∧
      (aNodup c.supply_by_owner → aNodup c2.supply_by_owner) ∧
      (∀ o, alookup c2.supply_by_owner (o, iid) =
        (alookup c.supply_by_owner (o, iid)).map
          (fun old => old - alookupD rpo o 0)) ∧
      (∀ k : AccountId × Nat, k.2 ≠ iid →
        alookup c2.supply_by_owner k = alookup c.supply_by_owner k) := by
  intro rpo
  induction rpo with
  | nil =>
    intro c c2 _ h
    rw [applyOwnerDecs] at h
    injection h with h
    subst h
    refine ⟨rfl, rfl, rfl, rfl, rfl, rfl, rfl, rfl, rfl, rfl, rfl,
      fun hn => hn, ?_, fun k _ => rfl⟩
    intro o
    rw [show alookupD ([] : List (AccountId × Nat)) o 0 = 0 from rfl]
    exact (map_sub_zero _).symm
  | cons p rest ih =>
    intro c c2 hnd h
    obtain ⟨o, n⟩ := p
    unfold aNodup akeys at hnd
    rw [List.map_cons, List.nodup_cons] at hnd
    rw [applyOwnerDecs] at h
    cases hlook : alookup c.supply_by_owner (o, iid) with
    | none =>
      rw [hlook] at h
      exact Option.noConfusion h
    | some old =>
      rw [hlook] at h
      simp only [] at h
      by_cases hlt : old < n
      · rw [if_pos hlt] at h
        exact Option.noConfusion h
      · rw [if_neg hlt] at h
        set c1 : Contract :=
          { c with supply_by_owner := ainsert c.supply_by_owner (o, iid) (old - n) }
          with hc1
        obtain ⟨e1, e2, e3, e4, e5, e6, e7, e8, e9, e10, hak, hnd1, hchar,
          hother⟩ := ih c1 c2 hnd.2 h
        have hakins : akeys c1.supply_by_owner = akeys c.supply_by_owner := by
          show akeys (ainsert c.supply_by_owner (o, iid) (old - n)) =
            akeys c.supply_by_owner
          rw [akeys_ainsert, if_pos (mem_akeys_of_alookup hlook)]
        refine ⟨e1, e2, e3, e4, e5, e6, e7, e8, e9, e10, ?_, ?_, ?_, ?_⟩
        · rw [hak, hakins]
        · intro hn
          exact hnd1 (aNodup_ainsert _ _ _ hn)
        · intro o2
          by_cases ho2 : o2 = o
          · subst ho2
            rw [hchar o2]
            have hl1 : alookup c1.supply_by_owner (o2, iid) =
                some (old - n) := alookup_ainsert_self _ _ _
            rw [hl1, hlook]
            have hrest : alookup rest o2 = none :=
              alookup_eq_none_of_not_mem hnd.1
            rw [show alookupD ((o2, n) :: rest) o2 0 = n from by
              unfold alookupD
              rw [alookup, if_pos rfl, Option.getD_some]]
            rw [show alookupD rest o2 0 = 0 from by
              unfold alookupD
              rw [hrest, Option.getD_none]]
            rw [Option.map_some', Option.map_some', Nat.sub_zero]
          · rw [hchar o2]
            have hl1 : alookup c1.supply_by_owner (o2, iid) =
                alookup c.supply_by_owner (o2, iid) :=
              alookup_ainsert_ne _ _ _ _ (by
                intro hEq
                injection hEq with hEq1 _
                exact ho2 hEq1)
            rw [hl1]
            rw [show alookupD ((o, n) :: rest) o2 0 = alookupD rest o2 0 from by
              unfold alookupD
              rw [alookup, if_neg ho2]]
        · intro k hk
          rw [hother k hk]
          exact alookup_ainsert_ne _ _ _ _ (by
            intro hEq
            rw [hEq] at hk
            exact hk rfl)

/-- Success characterization of the per-class counter decrements. -/
theorem applyClassDecs_success (iid : Nat) :
    ∀ (rpc : List (Nat × Nat)) (c c2 : Contract), aNodup rpc →
      applyClassDecs iid rpc c = some c2 →
      c2.sbt_issuers = c.sbt_issuers ∧ c2.issuer_id_map = c.issuer_id_map ∧
      c2.banlist = c.banlist ∧ c2.supply_by_owner = c.supply_by_owner ∧
      c2.supply_by_issuer = c.supply_by_issuer ∧ c2.balances = c.balances ∧
      c2.issuer_tokens = c.issuer_tokens ∧
      c2.next_token_ids = c.next_token_ids ∧
      c2.next_issuer_id = c.next_issuer_id ∧
      c2.ongoing_soul_tx = c.ongoing_soul_tx ∧
      akeys c2.supply_by_class = akeys c.supply_by_class ∧
      (aNodup c.supply_by_class → aNodup c2.supply_by_class) ∧
      (∀ cl, alookup c2.supply_by_class (iid, cl) =
        (alookup c.supply_by_class (iid, cl)).map
          (fun old => old - alookupD rpc cl 0)) ∧
      (∀ k : Nat × Nat, k.1 ≠ iid →
        alookup c2.supply_by_class k = alookup c.supply_by_class k) := by
  intro rpc
  induction rpc with
  | nil =>
    intro c c2 _ h
    rw [applyClassDecs] at h
    injection h with h
    subst h
    refine ⟨rfl, rfl, rfl, rfl, rfl, rfl, rfl, rfl, rfl, rfl, rfl,
      fun hn => hn, ?_, fun k _ => rfl⟩
    intro cl
    rw [show alookupD ([] : List (Nat × Nat)) cl 0 = 0 from rfl]
    exact (map_sub_zero _).symm
  | cons p rest ih =>
    intro c c2 hnd h
    obtain ⟨cl0, n⟩ := p
    unfold aNodup akeys at hnd
    rw [List.map_cons, List.nodup_cons] at hnd
    rw [applyClassDecs] at h
    cases hlook : alookup c.supply_by_class (iid, cl0) with
    | none =>
      rw [hlook] at h
      exact Option.noConfusion h
    | some old =>
      rw [hlook] at h
      simp only [] at h
      by_cases hlt : old < n
      · rw [if_pos hlt] at h
        exact Option.noConfusion h
      · rw [if_neg hlt] at h
        set c1 : Contract :=
          { c with supply_by_class := ainsert c.supply_by_class (iid, cl0) (old - n) }
          with hc1
        obtain ⟨e1, e2, e3, e4, e5, e6, e7, e8, e9, e10, hak, hnd1, hchar,
          hother⟩ := ih c1 c2 hnd.2 h
        have hakins : akeys c1.supply_by_class = akeys c.supply_by_class := by
          show akeys (ainsert c.supply_by_class (iid, cl0) (old - n)) =
            akeys c.supply_by_class
          rw [akeys_ainsert, if_pos (mem_akeys_of_alookup hlook)]
        refine ⟨e1, e2, e3, e4, e5, e6, e7, e8, e9, e10, ?_, ?_, ?_, ?_⟩
        · rw [hak, hakins]
        · intro hn
          exact hnd1 (aNodup_ainsert _ _ _ hn)
        · intro cl2
          by_cases hcl2 : cl2 = cl0
          · subst hcl2
            rw [hchar cl2]
            have hl1 : alookup c1.supply_by_class (iid, cl2) =
                some (old - n) := alookup_ainsert_self _ _ _
            rw [hl1, hlook]
            have hrest : alookup rest cl2 = none :=
              alookup_eq_none_of_not_mem hnd.1
            rw [show alookupD ((cl2, n) :: rest) cl2 0 = n from by
              unfold alookupD
              rw [alookup, if_pos rfl, Option.getD_some]]
            rw [show alookupD rest cl2 0 = 0 from by
              unfold alookupD
              rw [hrest, Option.getD_none]]
            rw [Option.map_some', Option.map_some', Nat.sub_zero]
          · rw [hchar cl2]
            have hl1 : alookup c1.supply_by_class (iid, cl2) =
                alookup c.supply_by_class (iid, cl2) :=
              alookup_ainsert_ne _ _ _ _ (by
                intro hEq
                injection hEq with _ hEq2
                exact hcl2 hEq2)
            rw [hl1]
            rw [show alookupD ((cl0, n) :: rest) cl2 0 =
                alookupD rest cl2 0 from by
              unfold alookupD
              rw [alookup, if_neg hcl2]]
        · intro k hk
          rw [hother k hk]
          exact alookup_ainsert_ne _ _ _ _ (by
            intro hEq
            rw [hEq] at hk
            exact hk rfl)

/-- `sbt_revoke` preserves well-formedness. -/
theorem swf_sbt_revoke (c : Contract) (issuer : AccountId)
    (tokens : List Nat) (burn : Bool) (now : Nat) (c4 : Contract)
    (hswf : SWF c) (h : sbt_revoke c issuer tokens burn now = some c4) :
    SWF c4 := by
  unfold sbt_revoke at h
  cases hiss : assert_issuer c issuer with
  | none =>
    rw [hiss] at h
    exact Option.noConfusion h
  | some iid =>
    rw [hiss] at h
    simp only [] at h
    cases burn with
    | false =>
      rw [if_neg Bool.false_ne_true] at h
      exact swf_revokeSoftLoop iid now tokens c c4 hswf h
    | true =>
      rw [if_pos rfl] at h
      have hOL := swf_owner_lookup c hswf
      have hCL := swf_class_lookup c hswf
      have hIL := swf_issuer_lookup c hswf
      have hswf2 := hswf
      obtain ⟨h1, h2, h3, h4, h5, h6, h7, h8, h9, h10, h11, h12, h13, h14,
        h15, h16, h17, h18, h19⟩ := hswf2
      cases hrb : revokeBurnLoop iid tokens c [] [] with
      | none =>
        rw [hrb] at h
        exact Option.noConfusion h
      | some res =>
        obtain ⟨c1, rpc1, rpo1⟩ := res
        rw [hrb] at h
        simp only [] at h
        obtain ⟨hndT, hexT⟩ :=
          revokeBurnLoop_success iid tokens c [] [] _ h2 hrb
        obtain ⟨c1x, rpc1x, rpo1x, hrunx, f1, f2, f3, f4, f5, f6, f7, f8, f9,
          hbn1, hin1, hsort1, hstore, hbrm, hbfr, hcnto, hcntc, hndo, hndc,
          hko, hkc⟩ := revokeBurnLoop_spec iid tokens c [] [] hndT hexT
            (bsorted_aNodup _ h1) h2
        rw [hrb] at hrunx
        injection hrunx with hrunx
        injection hrunx with e1 erest
        injection erest with e2 e3
        subst e1
        subst e2
        subst e3
        obtain ⟨q1, q2, q3, q4, q5, q6⟩ :=
          revokeBurnLoop_counts iid tokens c [] [] c1 rpc1 rpo1
            hndT hexT h2 hrb
        have hmemIT : ∀ q ∈ c1.issuer_tokens, q ∈ c.issuer_tokens ∧
            ¬(q.1.issuer_id = iid ∧ q.1.token ∈ tokens) := by
          intro q hq
          have hl := alookup_of_mem_nodup hin1 hq
          rw [hstore q.1] at hl
          by_cases hrem : q.1.issuer_id = iid ∧ q.1.token ∈ tokens
          · rw [if_pos hrem] at hl
            exact Option.noConfusion hl
          · rw [if_neg hrem] at hl
            exact ⟨alookup_mem hl, hrem⟩
        have hmemBal : ∀ p ∈ c1.balances, p ∈ c.balances := by
          intro p hp
          by_cases hx : ∀ t ∈ tokens, ∀ td, alookup c.issuer_tokens
              { issuer_id := iid, token := t } = some td →
              p.1 ≠ balance_key td.owner iid td.metadata.class_id
          · have hl := alookup_of_mem_nodup hbn1 hp
            rw [hbfr p.1 hx] at hl
            exact alookup_mem hl
          · push_neg at hx
            obtain ⟨t, ht, td, htd, hbk⟩ := hx
            have hnone := hbrm t ht td htd
            rw [← hbk] at hnone
            have hl := alookup_of_mem_nodup hbn1 hp
            rw [hnone] at hl
            exact Option.noConfusion hl
        cases hod : applyOwnerDecs iid rpo1 c1 with
        | none =>
          rw [hod] at h
          exact Option.noConfusion h
        | some cA =>
          rw [hod] at h
          simp only [] at h
          have hndrpo : aNodup rpo1 := hndo (by unfold aNodup akeys; simp)
          have hndrpc : aNodup rpc1 := hndc (by unfold aNodup akeys; simp)
          obtain ⟨a1, a2, a3, a4, a5, a6, a7, a8, a9, a10, hakO, hndO,
            hcharO, hotherO⟩ :=
            applyOwnerDecs_success iid rpo1 c1 cA hndrpo hod
          cases hcd : applyClassDecs iid rpc1 cA with
          | none =>
            rw [hcd] at h
            exact Option.noConfusion h
          | some cB =>
            rw [hcd] at h
            simp only [] at h
            obtain ⟨b1, b2, b3, b4, b5, b6, b7, b8, b9, b10, hakC, hndC,
              hcharC, hotherC⟩ :=
              applyClassDecs_success iid rpc1 cA cB hndrpc hcd
            by_cases hsbi : alookupD cB.supply_by_issuer iid 0 < tokens.length
            · rw [if_pos hsbi] at h
              exact Option.noConfusion h
            · rw [if_neg hsbi] at h
              injection h with h
              subst h
              set cF : Contract :=
                { cB with supply_by_issuer := ainsert cB.supply_by_issuer iid (alookupD cB.supply_by_issuer iid 0 - tokens.length) }
                with hcF
              have hitsF : cF.issuer_tokens = c1.issuer_tokens := by
                show cB.issuer_tokens = c1.issuer_tokens
                rw [b7, a7]
              have balF : cF.balances = c1.balances := by
                show cB.balances = c1.balances
                rw [b6, a6]
              have idmapF : cF.issuer_id_map = c.issuer_id_map := by
                show cB.issuer_id_map = c.issuer_id_map
                rw [b2, a2, f2]
              have ntF : cF.next_token_ids = c.next_token_ids := by
                show cB.next_token_ids = c.next_token_ids
                rw [b8, a8, f7]
              have sif : cF.sbt_issuers = c.sbt_issuers := by
                show cB.sbt_issuers = c.sbt_issuers
                rw [b1, a1, f1]
              have niF : cF.next_issuer_id = c.next_issuer_id := by
                show cB.next_issuer_id = c.next_issuer_id
                rw [b9, a9, f8]
              have sboF : cF.supply_by_owner = cA.supply_by_owner := b4
              have sbiB : cB.supply_by_issuer = c.supply_by_issuer := by
                rw [b5, a5, f6]
              have hndA : aNodup cA.supply_by_owner := hndO (by
                rw [f4]
                exact h14)
              have hndB : aNodup cB.supply_by_class := hndC (by
                rw [a4, f5]
                exact h15)
              have hcntF_O : ∀ o i, tokCountByOwner cF o i =
                  tokCountByOwner c1 o i := by
                intro o i
                unfold tokCountByOwner
                rw [hitsF]
              have hcntF_C : ∀ i cl, tokCountByClass cF i cl =
                  tokCountByClass c1 i cl := by
                intro i cl
                unfold tokCountByClass
                rw [hitsF]
              have hcntF_I : ∀ i, tokCountByIssuer cF i =
                  tokCountByIssuer c1 i := by
                intro i
                unfold tokCountByIssuer
                rw [hitsF]
              have hrpoV : ∀ o, alookupD rpo1 o 0 =
                  ownerCount c iid tokens o := by
                intro o
                rw [hcnto o,
                  show alookupD ([] : List (AccountId × Nat)) o 0 = 0
                    from rfl]
                omega
              have hrpcV : ∀ cl, alookupD rpc1 cl 0 =
                  classCount c iid tokens cl := by
                intro cl
                rw [hcntc cl,
                  show alookupD ([] : List (Nat × Nat)) cl 0 = 0 from rfl]
                omega
              refine ⟨?_, ?_, ?_, ?_, ?_, ?_, ?_, ?_, ?_, ?_, ?_, ?_, ?_,
                ?_, ?_, ?_, ?_, ?_, ?_⟩
              · rw [balF]
                exact hsort1 h1
              · rw [hitsF]
                exact hin1
              · intro p hp
                rw [balF] at hp
                have hpc := hmemBal p hp
                have h3p := h3 p hpc
                rw [hitsF, hstore]
                by_cases hrem : p.1.issuer_id = iid ∧ p.2 ∈ tokens
                · exfalso
                  rw [hrem.1] at h3p
                  obtain ⟨td0, hl0, hmap0⟩ := Option.map_eq_some'.mp h3p
                  have ho0 : td0.owner = p.1.owner := congrArg Prod.fst hmap0
                  have hc0 : td0.metadata.class_id = p.1.class_id :=
                    congrArg Prod.snd hmap0
                  have hnone := hbrm p.2 hrem.2 td0 hl0
                  rw [ho0, hc0] at hnone
                  have hkeq : balance_key p.1.owner iid p.1.class_id = p.1 := by
                    rw [← hrem.1]
                    rfl
                  rw [hkeq] at hnone
                  have hisSome := alookup_isSome_of_mem_akeys
                    (List.mem_map_of_mem Prod.fst hp)
                  rw [hnone] at hisSome
                  exact Bool.false_ne_true hisSome
                · rw [if_neg (fun hc => hrem ⟨hc.1, hc.2⟩)]
                  exact h3p
              · intro q hq
                rw [hitsF] at hq
                obtain ⟨hqc, hqnr⟩ := hmemIT q hq
                rw [balF]
                have hne : ∀ t ∈ tokens, ∀ td, alookup c.issuer_tokens
                    { issuer_id := iid, token := t } = some td →
                    balance_key q.2.owner q.1.issuer_id
                      q.2.metadata.class_id ≠
                    balance_key td.owner iid td.metadata.class_id := by
                  intro t ht td htd hEq
                  injection hEq with hEq1 hEq2 hEq3
                  have h4q := h4 q hqc
                  have h4t := h4 ({ issuer_id := iid, token := t }, td)
                    (alookup_mem htd)
                  rw [show balance_key q.2.owner q.1.issuer_id
                      q.2.metadata.class_id =
                      balance_key td.owner iid td.metadata.class_id from by
                    rw [hEq1, hEq2, hEq3]] at h4q
                  rw [h4q] at h4t
                  injection h4t with h4t
                  exact hqnr ⟨hEq1, by rw [h4t]; exact ht⟩
                rw [hbfr _ hne]
                exact h4 q hqc
              · intro p hp
                rw [balF] at hp
                exact h5 p (hmemBal p hp)
              · intro p hp
                rw [balF] at hp
                rw [idmapF]
                exact h6 p (hmemBal p hp)
              · intro q hq
                rw [hitsF] at hq
                obtain ⟨hqc, -⟩ := hmemIT q hq
                rw [ntF]
                exact h7 q hqc
              · intro p hp
                have hp' : p ∈ cA.supply_by_owner := by
                  rw [← sboF]
                  exact hp
                have hl := alookup_of_mem_nodup hndA hp'
                by_cases hi : p.1.2 = iid
                · have hkeq : p.1 = (p.1.1, iid) := Prod.ext rfl hi
                  rw [hkeq] at hl
                  rw [hcharO p.1.1] at hl
                  rw [show c1.supply_by_owner = c.supply_by_owner from f4]
                    at hl
                  cases hold : alookup c.supply_by_owner (p.1.1, iid) with
                  | none =>
                    rw [hold] at hl
                    exact Option.noConfusion hl
                  | some old =>
                    rw [hold] at hl
                    rw [Option.map_some'] at hl
                    injection hl with hl
                    have holdv : old = tokCountByOwner c p.1.1 iid :=
                      h8 ((p.1.1, iid), old) (alookup_mem hold)
                    have hq1 := q1 p.1.1
                    have hrv := hrpoV p.1.1
                    rw [hi, hcntF_O]
                    omega
                · have hoth := hotherO p.1 hi
                  rw [hoth] at hl
                  rw [show c1.supply_by_owner = c.supply_by_owner from f4]
                    at hl
                  have := h8 (p.1, p.2) (alookup_mem hl)
                  rw [hcntF_O, q4 p.1.1 p.1.2 hi]
                  exact this
              · intro q hq
                rw [hitsF] at hq
                obtain ⟨hqc, -⟩ := hmemIT q hq
                have := h9 q hqc
                show (q.2.owner, q.1.issuer_id) ∈ akeys cF.supply_by_owner
                rw [show cF.supply_by_owner = cA.supply_by_owner from sboF,
                  hakO, show c1.supply_by_owner = c.supply_by_owner from f4]
                exact this
              · intro p hp
                have hp' : p ∈ cB.supply_by_class := hp
                have hl := alookup_of_mem_nodup hndB hp'
                by_cases hi : p.1.1 = iid
                · have hkeq : p.1 = (iid, p.1.2) := Prod.ext hi rfl
                  rw [hkeq] at hl
                  rw [hcharC p.1.2] at hl
                  rw [show cA.supply_by_class = c.supply_by_class from by
                    rw [a4, f5]] at hl
                  cases hold : alookup c.supply_by_class (iid, p.1.2) with
                  | none =>
                    rw [hold] at hl
                    exact Option.noConfusion hl
                  | some old =>
                    rw [hold] at hl
                    rw [Option.map_some'] at hl
                    injection hl with hl
                    have holdv : old = tokCountByClass c iid p.1.2 :=
                      h10 ((iid, p.1.2), old) (alookup_mem hold)
                    have hq2 := q2 p.1.2
                    have hrv := hrpcV p.1.2
                    rw [hi, hcntF_C]
                    omega
                · have hoth := hotherC p.1 hi
                  rw [hoth] at hl
                  rw [show cA.supply_by_class = c.supply_by_class from by
                    rw [a4, f5]] at hl
                  have := h10 (p.1, p.2) (alookup_mem hl)
                  rw [hcntF_C, q5 p.1.1 p.1.2 hi]
                  exact this
              · intro q hq
                rw [hitsF] at hq
                obtain ⟨hqc, -⟩ := hmemIT q hq
                have := h11 q hqc
                show (q.1.issuer_id, q.2.metadata.class_id) ∈
                  akeys cF.supply_by_class
                rw [show cF.supply_by_class = cB.supply_by_class from rfl,
                  hakC, show cA.supply_by_class = c.supply_by_class from by
                    rw [a4, f5]]
                exact this
              · intro p hp
                have hp' : p ∈ ainsert cB.supply_by_issuer iid
                    (alookupD cB.supply_by_issuer iid 0 - tokens.length) :=
                  hp
                have hndBsbi : aNodup cB.supply_by_issuer := by
                  rw [sbiB]
                  exact h16
                rcases mem_ainsert_nodup hndBsbi hp' with rfl | ⟨hp2, hpne⟩
                · show alookupD cB.supply_by_issuer iid 0 - tokens.length =
                    tokCountByIssuer cF iid
                  rw [sbiB, hcntF_I]
                  have := hIL iid
                  omega
                · rw [sbiB] at hp2
                  have := h12 p hp2
                  rw [show p.2 = tokCountByIssuer c p.1 from this,
                    hcntF_I, q6 p.1 hpne]
              · intro q hq
                rw [hitsF] at hq
                obtain ⟨hqc, -⟩ := hmemIT q hq
                show q.1.issuer_id ∈ akeys (ainsert cB.supply_by_issuer iid
                  (alookupD cB.supply_by_issuer iid 0 - tokens.length))
                apply mem_akeys_ainsert_of_mem
                rw [sbiB]
                exact h13 q hqc
              · show aNodup cB.supply_by_owner
                rw [b4]
                exact hndA
              · show aNodup cB.supply_by_class
                exact hndB
              · show aNodup (ainsert cB.supply_by_issuer iid
                  (alookupD cB.supply_by_issuer iid 0 - tokens.length))
                apply aNodup_ainsert
                rw [sbiB]
                exact h16
              · intro p hp
                rw [sif] at hp
                rw [idmapF, niF]
                exact h17 p hp
              · intro p hp
                rw [idmapF] at hp
                rw [niF]
                exact h18 p hp
              · rw [niF]
                exact h19

/-- Tokens emitted by the owner scan with a fixed issuer are backed by a
sublist of scanned balance entries of that owner and issuer. -/
theorem tbLoop_emitted (c : Contract) (account : AccountId) (iid now : Nat)
    (hiid : iid ≠ 0) :
    ∀ (l : List (BalanceKey × Nat))
      (resp : List (AccountId × List OwnedToken)) (tokens : List OwnedToken)
      (limit : Nat) (resp1 : List (AccountId × List OwnedToken))
      (tokens1 : List OwnedToken) (prev1 : Nat),
      tbLoop c account iid now true l resp tokens iid limit =
        some (resp1, tokens1, prev1) →
      resp1 = resp ∧ prev1 = iid ∧
      ∃ pre emitted, List.Sublist pre l ∧
        List.Forall₂ (fun (p : BalanceKey × Nat) (t : OwnedToken) =>
          p.1.owner = account ∧ p.1.issuer_id = iid ∧ t.token = p.2 ∧
          ∃ td, alookup c.issuer_tokens
            { issuer_id := iid, token := p.2 } = some td ∧
            t.metadata = td.metadata) pre emitted ∧
        tokens1 = tokens ++ emitted := by
  intro l
  induction l with
  | nil =>
    intro resp tokens limit resp1 tokens1 prev1 h
    rw [tbLoop] at h
    injection h with h
    injection h with h1 h2
    injection h2 with h2 h3
    subst h1
    subst h2
    subst h3
    exact ⟨rfl, rfl, [], [], List.nil_sublist _, List.Forall₂.nil,
      (List.append_nil _).symm⟩
  | cons p rest ih =>
    intro resp tokens limit resp1 tokens1 prev1 h
    obtain ⟨key, token_id⟩ := p
    rw [tbLoop] at h
    by_cases howner : key.owner ≠ account
    · rw [if_pos howner] at h
      injection h with h
      injection h with h1 h2
      injection h2 with h2 h3
      subst h1
      subst h2
      subst h3
      exact ⟨rfl, rfl, [], [], List.nil_sublist _, List.Forall₂.nil,
        (List.append_nil _).symm⟩
    · rw [if_neg howner] at h
      have howner2 : key.owner = account := not_not.mp howner
      by_cases hbrk : iid ≠ key.issuer_id ∧ iid ≠ 0
      · rw [if_pos hbrk] at h
        injection h with h
        injection h with h1 h2
        injection h2 with h2 h3
        subst h1
        subst h2
        subst h3
        exact ⟨rfl, rfl, [], [], List.nil_sublist _, List.Forall₂.nil,
          (List.append_nil _).symm⟩
      · rw [if_neg hbrk] at h
        have hkey : key.issuer_id = iid := by
          by_contra hne
          exact hbrk ⟨fun hEq => hne hEq.symm, hiid⟩
        rw [if_neg (fun hne => hne hkey.symm)] at h
        simp only [] at h
        cases hlook : alookup c.issuer_tokens
            { issuer_id := key.issuer_id, token := token_id } with
        | none =>
          rw [hlook] at h
          exact Option.noConfusion h
        | some td =>
          rw [hlook] at h
          simp only [] at h
          rw [if_neg (by simp)] at h
          have hlook2 : alookup c.issuer_tokens
              { issuer_id := iid, token := token_id } = some td := by
            rw [← hkey]
            exact hlook
          by_cases hstop : limit - 1 = 0
          · rw [if_pos hstop] at h
            injection h with h
            injection h with h1 h2
            injection h2 with h2 h3
            subst h1
            subst h2
            subst h3
            refine ⟨rfl, rfl, [(key, token_id)],
              [{ token := token_id, metadata := td.metadata }],
              (List.nil_sublist rest).cons₂ _, ?_, rfl⟩
            exact List.Forall₂.cons
              ⟨howner2, hkey, rfl, td, hlook2, rfl⟩ List.Forall₂.nil
          · rw [if_neg hstop] at h
            obtain ⟨hr, hp, pre, emitted, hsub, hfa, htoks⟩ :=
              ih _ _ _ _ _ _ h
            refine ⟨hr, hp, (key, token_id) :: pre,
              { token := token_id, metadata := td.metadata } :: emitted,
              hsub.cons₂ _, ?_, ?_⟩
            · exact List.Forall₂.cons
                ⟨howner2, hkey, rfl, td, hlook2, rfl⟩ hfa
            · rw [htoks, List.append_assoc]
              rfl

/-- Filtering a duplicate-free list for one value finds it at most once. -/
theorem filter_eq_length_nodup {α : Type} [DecidableEq α] :
    ∀ (L : List α), L.Nodup → ∀ x : α,
      (L.filter (fun y => decide (y = x))).length =
        if x ∈ L then 1 else 0 := by
  intro L
  induction L with
  | nil =>
    intro _ x
    rw [if_neg (List.not_mem_nil x)]
    rfl
  | cons a rest ih =>
    intro hnd x
    rw [List.nodup_cons] at hnd
    rw [List.filter_cons]
    by_cases hax : a = x
    · subst hax
      rw [if_pos (by simp), List.length_cons, if_pos (List.mem_cons_self _ _)]
      have hz : (rest.filter (fun y => decide (y = a))).length = 0 := by
        rw [List.length_eq_zero, List.filter_eq_nil_iff]
        intro b hb
        simp only [decide_eq_true_eq]
        intro hEq
        exact hnd.1 (hEq ▸ hb)
      omega
    · rw [if_neg (by simpa using hax), ih hnd.2 x]
      by_cases hx : x ∈ rest
      · rw [if_pos hx, if_pos (List.mem_cons_of_mem _ hx)]
      · rw [if_neg hx, if_neg (by
          intro hm
          rcases List.mem_cons.mp hm with hEq | hm2
          · exact hax hEq.symm
          · exact hx hm2)]

/-- Keys untouched by the by-owner burn loop keep their lookups. -/
theorem revokeByOwnerBurnLoop_lookups (iid : Nat) (owner : AccountId) :
    ∀ (ts : List OwnedToken) (c : Contract) (bpc : List (Nat × Nat))
      (c1 : Contract) (bpc2 : List (Nat × Nat)),
      revokeByOwnerBurnLoop iid owner ts c bpc = (c1, bpc2) →
      (∀ key : IssuerTokenId,
        (∀ t ∈ ts, key ≠ { issuer_id := iid, token := t.token }) →
        alookup c1.issuer_tokens key = alookup c.issuer_tokens key) ∧
      (∀ bk : BalanceKey,
        (∀ t ∈ ts, bk ≠ balance_key owner iid t.metadata.class_id) →
        alookup c1.balances bk = alookup c.balances bk) := by
  intro ts
  induction ts with
  | nil =>
    intro c bpc c1 bpc2 h
    injection h with h1 h2
    subst h1
    exact ⟨fun key _ => rfl, fun bk _ => rfl⟩
  | cons t rest ih =>
    intro c bpc c1 bpc2 h
    rw [revokeByOwnerBurnLoop] at h
    obtain ⟨ih1, ih2⟩ := ih _ _ _ _ h
    refine ⟨?_, ?_⟩
    · intro key hkey
      rw [ih1 key (fun u hu => hkey u (List.mem_cons_of_mem _ hu))]
      exact alookup_aremove_ne _ _ _
        (hkey t (List.mem_cons_self _ _))
    · intro bk hbk
      rw [ih2 bk (fun u hu => hbk u (List.mem_cons_of_mem _ hu))]
      exact alookup_aremove_ne _ _ _
        (hbk t (List.mem_cons_self _ _))

/-- Count bookkeeping of the by-owner burn loop. -/
theorem revokeByOwnerBurnLoop_counts (iid : Nat) (owner : AccountId) :
    ∀ (ts : List OwnedToken) (c : Contract) (bpc : List (Nat × Nat))
      (c1 : Contract) (bpc2 : List (Nat × Nat)),
      (ts.map (fun t => t.token)).Nodup →
      (∀ t ∈ ts, ∃ td, alookup c.issuer_tokens
        { issuer_id := iid, token := t.token } = some td ∧
        td.owner = owner ∧ td.metadata.class_id = t.metadata.class_id) →
      aNodup c.issuer_tokens →
      revokeByOwnerBurnLoop iid owner ts c bpc = (c1, bpc2) →
      (tokCountByOwner c1 owner iid + ts.length =
        tokCountByOwner c owner iid) ∧
      (∀ o, o ≠ owner → tokCountByOwner c1 o iid = tokCountByOwner c o iid) ∧
      (∀ cl, tokCountByClass c1 iid cl +
        (ts.filter (fun t => decide (t.metadata.class_id = cl))).length =
        tokCountByClass c iid cl) ∧
      (tokCountByIssuer c1 iid + ts.length = tokCountByIssuer c iid) ∧
      (∀ o i, i ≠ iid → tokCountByOwner c1 o i = tokCountByOwner c o i) ∧
      (∀ i cl, i ≠ iid → tokCountByClass c1 i cl = tokCountByClass c i cl) ∧
      (∀ i, i ≠ iid → tokCountByIssuer c1 i = tokCountByIssuer c i) := by
  intro ts
  induction ts with
  | nil =>
    intro c bpc c1 bpc2 _ _ _ h
    injection h with h1 h2
    subst h1
    exact ⟨rfl, fun o _ => rfl, fun cl => rfl, rfl, fun o i _ => rfl,
      fun i cl _ => rfl, fun i _ => rfl⟩
  | cons t rest ih =>
    intro c bpc c1 bpc2 hnd hfacts hndit h
    rw [List.map_cons, List.nodup_cons] at hnd
    obtain ⟨td, hlook, hto, htc⟩ := hfacts t (List.mem_cons_self _ _)
    rw [revokeByOwnerBurnLoop] at h
    set c2 : Contract := { c with
      balances := aremove c.balances
        { issuer_id := iid, owner := owner, class_id := t.metadata.class_id },
      issuer_tokens := aremove c.issuer_tokens
        { issuer_id := iid, token := t.token } } with hc2
    have hc2look : ∀ u ∈ rest, alookup c2.issuer_tokens
        { issuer_id := iid, token := u.token } =
        alookup c.issuer_tokens { issuer_id := iid, token := u.token } := by
      intro u hu
      refine alookup_aremove_ne _ _ _ ?_
      intro hEq
      injection hEq with _ hEq2
      exact hnd.1 (hEq2 ▸ List.mem_map_of_mem (fun t => t.token) hu)
    have hfacts2 : ∀ u ∈ rest, ∃ td2, alookup c2.issuer_tokens
        { issuer_id := iid, token := u.token } = some td2 ∧
        td2.owner = owner ∧ td2.metadata.class_id = u.metadata.class_id := by
      intro u hu
      obtain ⟨td2, hl2, ho2, hc2x⟩ := hfacts u (List.mem_cons_of_mem _ hu)
      exact ⟨td2, by rw [hc2look u hu]; exact hl2, ho2, hc2x⟩
    have hnd2 : aNodup c2.issuer_tokens := aNodup_aremove _ _ hndit
    obtain ⟨g1, g2, g3, g4, g5, g6, g7⟩ :=
      ih c2 (bump bpc t.metadata.class_id) c1 bpc2 hnd.2 hfacts2 hnd2 h
    have hrem : ∀ (P : IssuerTokenId × TokenData → Bool),
        (c2.issuer_tokens.filter P).length +
          (if P ({ issuer_id := iid, token := t.token }, td) = true
            then 1 else 0) =
        (c.issuer_tokens.filter P).length :=
      fun P => filter_length_aremove c.issuer_tokens _ td P hndit hlook
    refine ⟨?_, ?_, ?_, ?_, ?_, ?_, ?_⟩
    · have := hrem (fun q => decide (q.1.issuer_id = iid ∧ q.2.owner = owner))
      rw [if_pos (decide_eq_true ⟨rfl, hto⟩)] at this
      have hg := g1
      unfold tokCountByOwner at hg ⊢
      rw [List.length_cons]
      omega
    · intro o ho
      have := hrem (fun q => decide (q.1.issuer_id = iid ∧ q.2.owner = o))
      rw [if_neg (fun hP =>
        ho (((of_decide_eq_true hP).2).symm.trans hto))] at this
      have hg := g2 o ho
      unfold tokCountByOwner at hg ⊢
      omega
    · intro cl
      have := hrem (fun q => decide (q.1.issuer_id = iid ∧
        q.2.metadata.class_id = cl))
      rw [List.filter_cons]
      have hg := g3 cl
      by_cases htcl : t.metadata.class_id = cl
      · rw [if_pos (by simpa using htcl)]
        rw [if_pos (decide_eq_true ⟨rfl, by rw [htc]; exact htcl⟩)] at this
        unfold tokCountByClass at hg ⊢
        rw [List.length_cons]
        omega
      · rw [if_neg (by simpa using htcl)]
        rw [if_neg (fun hP => htcl (by
          rw [← htc]
          exact (of_decide_eq_true hP).2))] at this
        unfold tokCountByClass at hg ⊢
        omega
    · have := hrem (fun q => decide (q.1.issuer_id = iid))
      rw [if_pos (decide_eq_true rfl)] at this
      have hg := g4
      unfold tokCountByIssuer at hg ⊢
      rw [List.length_cons]
      omega
    · intro o i hi
      have := hrem (fun q => decide (q.1.issuer_id = i ∧ q.2.owner = o))
      rw [if_neg (fun hP => hi ((of_decide_eq_true hP).1).symm)] at this
      have hg := g5 o i hi
      unfold tokCountByOwner at hg ⊢
      omega
    · intro i cl hi
      have := hrem (fun q => decide (q.1.issuer_id = i ∧
        q.2.metadata.class_id = cl))
      rw [if_neg (fun hP => hi ((of_decide_eq_true hP).1).symm)] at this
      have hg := g6 i cl hi
      unfold tokCountByClass at hg ⊢
      omega
    · intro i hi
      have := hrem (fun q => decide (q.1.issuer_id = i))
      rw [if_neg (fun hP => hi (of_decide_eq_true hP).symm)] at this
      have hg := g7 i hi
      unfold tokCountByIssuer at hg ⊢
      omega

/-- The by-owner soft loop preserves well-formedness when the listed tokens
are distinct rows of that owner. -/
theorem swf_softByOwnerLoop (iid : Nat) (owner : AccountId) (now : Nat) :
    ∀ (ts : List OwnedToken) (c : Contract), SWF c →
      (ts.map (fun t => t.token)).Nodup →
      (∀ t ∈ ts, ∃ td, alookup c.issuer_tokens
        { issuer_id := iid, token := t.token } = some td ∧
        td.owner = owner ∧ td.metadata.class_id = t.metadata.class_id) →
      SWF (softByOwnerLoop iid owner now ts c) := by
  intro ts
  induction ts with
  | nil =>
    intro c hswf _ _
    exact hswf
  | cons t rest ih =>
    intro c hswf hnd hfacts
    rw [List.map_cons, List.nodup_cons] at hnd
    obtain ⟨td, hlook, hto, htc⟩ := hfacts t (List.mem_cons_self _ _)
    set tdnew : TokenData :=
      { owner := owner, metadata := { t.metadata with expires_at := some now } }
      with htdnew
    set c2 : Contract :=
      { c with issuer_tokens := ainsert c.issuer_tokens { issuer_id := iid, token := t.token } tdnew }
      with hc2
    have hstep : SWF c2 :=
      swf_soft_step c { issuer_id := iid, token := t.token } td tdnew
        hswf hlook hto.symm (by
          show t.metadata.class_id = td.metadata.class_id
          exact htc.symm)
    have hfacts2 : ∀ u ∈ rest, ∃ td2, alookup c2.issuer_tokens
        { issuer_id := iid, token := u.token } = some td2 ∧
        td2.owner = owner ∧ td2.metadata.class_id = u.metadata.class_id := by
      intro u hu
      obtain ⟨td2, hl2, ho2, hc2x⟩ := hfacts u (List.mem_cons_of_mem _ hu)
      refine ⟨td2, ?_, ho2, hc2x⟩
      show alookup (ainsert c.issuer_tokens
        { issuer_id := iid, token := t.token } tdnew)
        { issuer_id := iid, token := u.token } = some td2
      rw [alookup_ainsert_ne _ _ _ _ (by
        intro hEq
        injection hEq with _ hEq2
        exact hnd.1 (hEq2 ▸ List.mem_map_of_mem (fun t => t.token) hu))]
      exact hl2
    exact ih c2 hstep hnd.2 hfacts2


/-- Right-member extraction from a pointwise relation of two lists. -/
theorem forall₂_exists_left {α β : Type} {R : α → β → Prop} :
    ∀ {l1 : List α} {l2 : List β}, List.Forall₂ R l1 l2 →
      ∀ b ∈ l2, ∃ a ∈ l1, R a b := by
  intro l1 l2 h
  induction h with
  | nil =>
    intro b hb
    simp at hb
  | cons hr _ ih =>
    intro b hb
    rcases List.mem_cons.mp hb with rfl | hb2
    · exact ⟨_, List.mem_cons_self _ _, hr⟩
    · obtain ⟨a, ha, har⟩ := ih b hb2
      exact ⟨a, List.mem_cons_of_mem _ ha, har⟩

/-- Left-member extraction from a pointwise relation of two lists. -/
theorem forall₂_exists_right {α β : Type} {R : α → β → Prop} :
    ∀ {l1 : List α} {l2 : List β}, List.Forall₂ R l1 l2 →
      ∀ a ∈ l1, ∃ b ∈ l2, R a b := by
  intro l1 l2 h
  induction h with
  | nil =>
    intro a ha
    simp at ha
  | cons hr _ ih =>
    intro a ha
    rcases List.mem_cons.mp ha with rfl | ha2
    · exact ⟨_, List.mem_cons_self _ _, hr⟩
    · obtain ⟨b, hb, hbr⟩ := ih a ha2
      exact ⟨b, List.mem_cons_of_mem _ hb, hbr⟩

/-- Map equality across a pointwise relation of two lists. -/
theorem forall₂_map_eq {α β γ : Type} {R : α → β → Prop}
    (f : β → γ) (g : α → γ) :
    ∀ {l1 : List α} {l2 : List β}, List.Forall₂ R l1 l2 →
      (∀ a b, R a b → f b = g a) → l2.map f = l1.map g := by
  intro l1 l2 h hfg
  induction h with
  | nil => rfl
  | cons hr _ ih =>
    rw [List.map_cons, List.map_cons, hfg _ _ hr, ih]

/-- In a sorted index, a sublist of entries of one owner and issuer has
pairwise-distinct classes and pairwise-distinct token values. -/
theorem seg_nodup_general (c : Contract) (iid : Nat) (owner : AccountId)
    (hs : bsorted c.balances)
    (h3 : ∀ p ∈ c.balances, (alookup c.issuer_tokens
      { issuer_id := p.1.issuer_id, token := p.2 }).map
      (fun td => (td.owner, td.metadata.class_id)) =
      some (p.1.owner, p.1.class_id))
    (pre : List (BalanceKey × Nat)) (hsub : List.Sublist pre c.balances)
    (hfix : ∀ p ∈ pre, p.1.owner = owner ∧ p.1.issuer_id = iid) :
    (pre.map (fun p => p.1.class_id)).Nodup ∧
    (pre.map (fun p => p.2)).Nodup := by
  have hsort : List.Pairwise
      (fun p q : BalanceKey × Nat => bkLT p.1 q.1) pre :=
    List.Pairwise.sublist hsub hs
  have hclpair : List.Pairwise (· < ·)
      (pre.map (fun p => p.1.class_id)) := by
    rw [List.pairwise_map]
    refine List.Pairwise.imp_of_mem ?_ hsort
    intro p q hp hq hlt
    obtain ⟨hpo, hpi⟩ := hfix p hp
    obtain ⟨hqo, hqi⟩ := hfix q hq
    rcases hlt with hl1 | ⟨-, hl2 | ⟨-, hl3⟩⟩
    · rw [hpi, hqi] at hl1
      omega
    · rw [hpo, hqo] at hl2
      exact absurd rfl (ne_of_lt hl2)
    · exact hl3
  have hclnd : (pre.map (fun p => p.1.class_id)).Nodup :=
    hclpair.imp Nat.ne_of_lt
  refine ⟨hclnd, ?_⟩
  have hprend : pre.Nodup := hclnd.of_map
  have hinj := List.inj_on_of_nodup_map hclnd
  refine hprend.map_on ?_
  intro p hp q hq hpq
  obtain ⟨hpo, hpi⟩ := hfix p hp
  obtain ⟨hqo, hqi⟩ := hfix q hq
  have h3p := h3 p (hsub.subset hp)
  have h3q := h3 q (hsub.subset hq)
  rw [hpi] at h3p
  rw [hqi] at h3q
  rw [hpq] at h3p
  rw [h3p] at h3q
  injection h3q with h3q
  have : p.1.class_id = q.1.class_id := congrArg Prod.snd h3q
  exact hinj hp hq this

/-- Length of a filter over a mapped list. -/
theorem length_filter_map_eq {α β : Type} (f : α → β) (p : β → Bool)
    (l : List α) :
    ((l.map f).filter p).length = (l.filter (fun a => p (f a))).length := by
  rw [List.filter_map, List.length_map]
  rfl

/-- Pointwise strengthening of a list relation using membership. -/
theorem forall₂_imp_mem {α β : Type} {R S : α → β → Prop} :
    ∀ {l1 : List α} {l2 : List β}, List.Forall₂ R l1 l2 →
      (∀ a ∈ l1, ∀ b ∈ l2, R a b → S a b) → List.Forall₂ S l1 l2 := by
  intro l1 l2 h
  induction h with
  | nil =>
    intro _
    exact List.Forall₂.nil
  | cons hr hrest ih =>
    intro himp
    refine List.Forall₂.cons
      (himp _ (List.mem_cons_self _ _) _ (List.mem_cons_self _ _) hr) ?_
    exact ih (fun a ha b hb hab =>
      himp a (List.mem_cons_of_mem _ ha) b (List.mem_cons_of_mem _ hb) hab)

/-- Well-formedness is preserved along the burn path of
`sbt_revoke_by_owner`. -/
theorem swf_revoke_by_owner_burn (c : Contract) (owner : AccountId)
    (iid : Nat) (ts : List OwnedToken) (c1 : Contract)
    (bpc2 : List (Nat × Nat)) (old : Nat) (c4 : Contract) (hswf : SWF c)
    (htsnd : (ts.map (fun t => t.token)).Nodup)
    (hclnd : (ts.map (fun t => t.metadata.class_id)).Nodup)
    (hfacts : ∀ t ∈ ts, ∃ td, alookup c.issuer_tokens
      { issuer_id := iid, token := t.token } = some td ∧
      td.owner = owner ∧ td.metadata.class_id = t.metadata.class_id)
    (hrb : revokeByOwnerBurnLoop iid owner ts c [] = (c1, bpc2))
    (hold : alookup c1.supply_by_owner (owner, iid) = some old)
    (happ : applyClassDecs iid bpc2
      { c1 with
        supply_by_owner := ainsert c1.supply_by_owner (owner, iid)
          (old - ts.length),
        supply_by_issuer := ainsert c1.supply_by_issuer iid
          (alookupD c1.supply_by_issuer iid 0 - ts.length) } = some c4) :
    SWF c4 := by
  have hOL := swf_owner_lookup c hswf
  have hCL := swf_class_lookup c hswf
  have hIL := swf_issuer_lookup c hswf
  have hswf2 := hswf
  obtain ⟨h1, h2, h3, h4, h5, h6, h7, h8, h9, h10, h11, h12, h13, h14,
    h15, h16, h17, h18, h19⟩ := hswf2
  obtain ⟨e1, e2, e3, e4, e5, e6, e7, e8, e9, hbs1, hnd1, hsub1, hsub2,
    hpr1, hpr2, hrem1, hrem2, htal⟩ :=
    revokeByOwnerBurnLoop_spec iid owner ts c [] c1 bpc2 h1 h2 hrb
  obtain ⟨hlkIT, hlkBal⟩ :=
    revokeByOwnerBurnLoop_lookups iid owner ts c [] c1 bpc2 hrb
  obtain ⟨g1, g2, g3, g4, g5, g6, g7⟩ :=
    revokeByOwnerBurnLoop_counts iid owner ts c [] c1 bpc2
      htsnd hfacts h2 hrb
  have htal2 : bpc2 =
      (ts.map (fun t => t.metadata.class_id)).map (fun cl => (cl, 1)) := by
    rw [htal, foldl_bump_nodup _ _ hclnd (by intro x hx; simp [akeys])]
    simp
  have hndbpc : aNodup bpc2 := by
    rw [htal2]
    unfold aNodup akeys
    rw [List.map_map]
    simpa using hclnd
  have hbpcV : ∀ cl, alookupD bpc2 cl 0 =
      (ts.filter (fun t => decide (t.metadata.class_id = cl))).length := by
    intro cl
    rw [← length_filter_map_eq (fun t => t.metadata.class_id)
      (fun x => decide (x = cl)) ts]
    rw [filter_eq_length_nodup _ hclnd cl]
    by_cases hm : cl ∈ ts.map (fun t => t.metadata.class_id)
    · rw [if_pos hm, htal2]
      unfold alookupD
      rw [alookup_map_const_one _ _ hm, Option.getD_some]
    · rw [if_neg hm, htal2]
      unfold alookupD
      rw [alookup_eq_none_of_not_mem (by
        unfold akeys
        rw [List.map_map]
        simpa using hm), Option.getD_none]
  have hndA : aNodup c1.supply_by_owner := by
    rw [e4]
    exact h14
  have hndC0 : aNodup c1.supply_by_class := by
    rw [e5]
    exact h15
  have hndI0 : aNodup c1.supply_by_issuer := by
    rw [e6]
    exact h16
  obtain ⟨b1, b2, b3, b4, b5, b6, b7, b8, b9, b10, hakC, hndC, hcharC,
    hotherC⟩ := applyClassDecs_success iid bpc2 _ c4 hndbpc happ
  have hitsF : c4.issuer_tokens = c1.issuer_tokens := b7
  have balF : c4.balances = c1.balances := b6
  have sboF : c4.supply_by_owner =
      ainsert c1.supply_by_owner (owner, iid) (old - ts.length) := b4
  have sbiF : c4.supply_by_issuer =
      ainsert c1.supply_by_issuer iid
        (alookupD c1.supply_by_issuer iid 0 - ts.length) := b5
  have idmapF : c4.issuer_id_map = c.issuer_id_map := by rw [b2, e2]
  have sif : c4.sbt_issuers = c.sbt_issuers := by rw [b1, e1]
  have niF : c4.next_issuer_id = c.next_issuer_id := by rw [b9, e8]
  have ntF : c4.next_token_ids = c.next_token_ids := by rw [b8, e7]
  have hcntF_O : ∀ o i, tokCountByOwner c4 o i = tokCountByOwner c1 o i := by
    intro o i
    unfold tokCountByOwner
    rw [hitsF]
  have hcntF_C : ∀ i cl, tokCountByClass c4 i cl =
      tokCountByClass c1 i cl := by
    intro i cl
    unfold tokCountByClass
    rw [hitsF]
  have hcntF_I : ∀ i, tokCountByIssuer c4 i = tokCountByIssuer c1 i := by
    intro i
    unfold tokCountByIssuer
    rw [hitsF]
  have hmemIT : ∀ q ∈ c1.issuer_tokens,
      ∀ t ∈ ts, q.1 ≠ ({ issuer_id := iid, token := t.token } :
        IssuerTokenId) := by
    intro q hq t ht hEq
    have hl := alookup_of_mem_nodup hnd1 hq
    rw [hEq] at hl
    rw [hrem2 t ht] at hl
    exact Option.noConfusion hl
  refine ⟨?_, ?_, ?_, ?_, ?_, ?_, ?_, ?_, ?_, ?_, ?_, ?_, ?_, ?_, ?_, ?_,
    ?_, ?_, ?_⟩
  · rw [balF]
    exact hbs1
  · rw [hitsF]
    exact hnd1
  · intro p hp
    rw [balF] at hp
    have hpc : p ∈ c.balances := hsub1 hp
    have h3p := h3 p hpc
    rw [hitsF]
    by_cases hx : ∃ t ∈ ts, p.1.issuer_id = iid ∧ p.2 = t.token
    · exfalso
      obtain ⟨t, ht, hpi, hpt⟩ := hx
      obtain ⟨td, htd, hto, htc⟩ := hfacts t ht
      rw [hpi, hpt, htd, Option.map_some'] at h3p
      injection h3p with h3p
      have hpo : td.owner = p.1.owner := congrArg Prod.fst h3p
      have hpcl : td.metadata.class_id = p.1.class_id :=
        congrArg Prod.snd h3p
      have hkeq : p.1 = balance_key owner iid t.metadata.class_id := by
        rw [← hto, hpo, ← htc, hpcl, ← hpi]
        rfl
      have hnone := hrem1 t ht
      rw [← hkeq] at hnone
      have hisSome := alookup_isSome_of_mem_akeys
        (List.mem_map_of_mem Prod.fst hp)
      rw [hnone] at hisSome
      exact Bool.false_ne_true hisSome
    · push_neg at hx
      rw [hlkIT _ (by
        intro t ht hEq
        injection hEq with hEq1 hEq2
        exact hx t ht hEq1 hEq2)]
      exact h3p
  · intro q hq
    rw [hitsF] at hq
    have hqc : q ∈ c.issuer_tokens := hsub2 hq
    rw [balF]
    have hbk : ∀ t ∈ ts, balance_key q.2.owner q.1.issuer_id
        q.2.metadata.class_id ≠ balance_key owner iid t.metadata.class_id := by
      intro t ht hEq
      injection hEq with hEq1 hEq2 hEq3
      obtain ⟨td, htd, hto, htc⟩ := hfacts t ht
      have h4q := h4 q hqc
      have h4t := h4 ({ issuer_id := iid, token := t.token }, td)
        (alookup_mem htd)
      have hbkt : balance_key td.owner iid td.metadata.class_id =
          balance_key owner iid t.metadata.class_id := by
        rw [hto, htc]
      rw [show balance_key q.2.owner q.1.issuer_id q.2.metadata.class_id =
          balance_key owner iid t.metadata.class_id from by
        rw [hEq1, hEq2, hEq3]] at h4q
      rw [hbkt] at h4t
      rw [h4q] at h4t
      injection h4t with h4t
      have h4t2 : q.1.token = t.token := h4t
      exact hmemIT q hq t ht (by
        rw [← hEq1, ← h4t2])
    rw [hlkBal _ hbk]
    exact h4 q hqc
  · intro p hp
    rw [balF] at hp
    exact h5 p (hsub1 hp)
  · intro p hp
    rw [balF] at hp
    rw [idmapF]
    exact h6 p (hsub1 hp)
  · intro q hq
    rw [hitsF] at hq
    rw [ntF]
    exact h7 q (hsub2 hq)
  · intro p hp
    rw [sboF] at hp
    rcases mem_ainsert_nodup hndA hp with rfl | ⟨hp2, hpne⟩
    · show old - ts.length = tokCountByOwner c4 owner iid
      have holdc : old = tokCountByOwner c owner iid := by
        rw [e4] at hold
        exact h8 ((owner, iid), old) (alookup_mem hold)
      rw [hcntF_O owner iid]
      have hg := g1
      omega
    · rw [e4] at hp2
      have := h8 p hp2
      rw [this, hcntF_O]
      by_cases hi : p.1.2 = iid
      · have hpo : p.1.1 ≠ owner := by
          intro hEq
          exact hpne (Prod.ext hEq hi)
        rw [hi, g2 p.1.1 hpo]
      · rw [g5 p.1.1 p.1.2 hi]
  · intro q hq
    rw [hitsF] at hq
    have := h9 q (hsub2 hq)
    rw [sboF]
    apply mem_akeys_ainsert_of_mem
    rw [e4]
    exact this
  · intro p hp
    have hl := alookup_of_mem_nodup (hndC hndC0) hp
    by_cases hi : p.1.1 = iid
    · have hkeq : p.1 = (iid, p.1.2) := Prod.ext hi rfl
      rw [hkeq] at hl
      rw [hcharC p.1.2] at hl
      rw [show ({ c1 with
          supply_by_owner := ainsert c1.supply_by_owner (owner, iid)
            (old - ts.length),
          supply_by_issuer := ainsert c1.supply_by_issuer iid
            (alookupD c1.supply_by_issuer iid 0 - ts.length) } :
          Contract).supply_by_class = c.supply_by_class from e5] at hl
      cases hold2 : alookup c.supply_by_class (iid, p.1.2) with
      | none =>
        rw [hold2] at hl
        exact Option.noConfusion hl
      | some oldc =>
        rw [hold2, Option.map_some'] at hl
        injection hl with hl
        have holdv : oldc = tokCountByClass c iid p.1.2 :=
          h10 ((iid, p.1.2), oldc) (alookup_mem hold2)
        have hg := g3 p.1.2
        have hb := hbpcV p.1.2
        rw [hi, hcntF_C]
        omega
    · have hoth := hotherC p.1 hi
      rw [hoth] at hl
      rw [show ({ c1 with
          supply_by_owner := ainsert c1.supply_by_owner (owner, iid)
            (old - ts.length),
          supply_by_issuer := ainsert c1.supply_by_issuer iid
            (alookupD c1.supply_by_issuer iid 0 - ts.length) } :
          Contract).supply_by_class = c.supply_by_class from e5] at hl
      have := h10 (p.1, p.2) (alookup_mem hl)
      rw [this, hcntF_C, g6 p.1.1 p.1.2 hi]
  · intro q hq
    rw [hitsF] at hq
    have := h11 q (hsub2 hq)
    have hkeys : akeys c4.supply_by_class = akeys c.supply_by_class := by
      rw [hakC]
      show akeys ({ c1 with
        supply_by_owner := ainsert c1.supply_by_owner (owner, iid)
          (old - ts.length),
        supply_by_issuer := ainsert c1.supply_by_issuer iid
          (alookupD c1.supply_by_issuer iid 0 - ts.length) } :
        Contract).supply_by_class = akeys c.supply_by_class
      rw [show ({ c1 with
          supply_by_owner := ainsert c1.supply_by_owner (owner, iid)
            (old - ts.length),
          supply_by_issuer := ainsert c1.supply_by_issuer iid
            (alookupD c1.supply_by_issuer iid 0 - ts.length) } :
          Contract).supply_by_class = c.supply_by_class from e5]
    rw [hkeys]
    exact this
  · intro p hp
    rw [sbiF] at hp
    rcases mem_ainsert_nodup hndI0 hp with rfl | ⟨hp2, hpne⟩
    · show alookupD c1.supply_by_issuer iid 0 - ts.length =
        tokCountByIssuer c4 iid
    
      rw [show alookupD c1.supply_by_issuer iid 0 =
        alookupD c.supply_by_issuer iid 0 from by rw [e6]]
      rw [hIL iid, hcntF_I]
      omega
    · rw [e6] at hp2
      have := h12 p hp2
      rw [this, hcntF_I, g7 p.1 hpne]
  · intro q hq
    rw [hitsF] at hq
    have := h13 q (hsub2 hq)
    rw [sbiF]
    apply mem_akeys_ainsert_of_mem
    rw [e6]
    exact this
  · rw [sboF]
    exact aNodup_ainsert _ _ _ hndA
  · exact hndC (by
      show aNodup ({ c1 with
        supply_by_owner := ainsert c1.supply_by_owner (owner, iid)
          (old - ts.length),
        supply_by_issuer := ainsert c1.supply_by_issuer iid
          (alookupD c1.supply_by_issuer iid 0 - ts.length) } :
        Contract).supply_by_class
      rw [show ({ c1 with
          supply_by_owner := ainsert c1.supply_by_owner (owner, iid)
            (old - ts.length),
          supply_by_issuer := ainsert c1.supply_by_issuer iid
            (alookupD c1.supply_by_issuer iid 0 - ts.length) } :
          Contract).supply_by_class = c.supply_by_class from e5]
      exact h15)
  · rw [sbiF]
    exact aNodup_ainsert _ _ _ hndI0
  · intro p hp
    rw [sif] at hp
    rw [idmapF, niF]
    exact h17 p hp
  · intro p hp
    rw [idmapF] at hp
    rw [niF]
    exact h18 p hp
  · rw [niF]
    exact h19

/-- `sbt_revoke_by_owner` preserves well-formedness. -/
theorem swf_sbt_revoke_by_owner (c : Contract) (issuer owner : AccountId)
    (burn : Bool) (now : Nat) (c4 : Contract) (hswf : SWF c)
    (h : sbt_revoke_by_owner c issuer owner burn now = some c4) :
    SWF c4 := by
  unfold sbt_revoke_by_owner at h
  cases hiss : assert_issuer c issuer with
  | none =>
    rw [hiss] at h
    exact Option.noConfusion h
  | some iid =>
    rw [hiss] at h
    simp only [] at h
    cases hq : sbt_tokens_by_owner c owner (some issuer) none none
        (some true) now with
    | none =>
      rw [hq] at h
      exact Option.noConfusion h
    | some resp =>
      rw [hq] at h
      simp only [] at h
      cases hlast : resp.getLast? with
      | none =>
        rw [hlast] at h
        injection h with h
        subst h
        exact hswf
      | some pr =>
        obtain ⟨acct0, ts⟩ := pr
        rw [hlast] at h
        simp only [] at h
        have hswf2 := hswf
        obtain ⟨h1, h2, h3, h4, h5, h6, h7, h8, h9, h10, h11, h12, h13,
          h14, h15, h16, h17, h18, h19⟩ := hswf2
        have hiid1 : 1 ≤ iid := (h17 (issuer, iid) (alookup_mem hiss)).1
        -- unfold the query to learn the shape of `ts`
        unfold sbt_tokens_by_owner at hq
        rw [if_neg (by simp)] at hq
        cases hguard : alookup c.ongoing_soul_tx owner with
        | some g =>
          rw [hguard] at hq
          rw [if_pos Option.isSome_some] at hq
          injection hq with hq
          subst hq
          rw [List.getLast?_nil] at hlast
          exact Option.noConfusion hlast
        | none =>
          rw [hguard] at hq
          rw [if_neg (by simp)] at hq
          simp only [hiss] at hq
          simp only [Option.getD_some, Option.getD_none] at hq
          rw [if_neg (by norm_num [MAX_LIMIT])] at hq
          cases htb : tbLoop c owner iid now true
              (iter_from c.balances (balance_key owner iid (0 - 1)))
              [] [] iid MAX_LIMIT with
          | none =>
            rw [htb] at hq
            exact Option.noConfusion hq
          | some trip =>
            obtain ⟨respL, tokensL, prevL⟩ := trip
            rw [htb] at hq
            simp only [] at hq
            obtain ⟨hrEq, hpEq, pre, emitted, hsub0, hfa, htoks⟩ :=
              tbLoop_emitted c owner iid now (by omega) _ _ _ _ _ _ _ htb
            subst hrEq
            have hpEq2 := hpEq.symm
            subst hpEq2
            rw [List.nil_append] at htoks
            have htoks2 := htoks.symm
            subst htoks2
            have hsubbal : List.Sublist pre c.balances :=
              hsub0.trans (List.filter_sublist _)
            have hfa2 : List.Forall₂ (fun (p : BalanceKey × Nat)
                (t : OwnedToken) =>
                t.token = p.2 ∧ t.metadata.class_id = p.1.class_id ∧
                ∃ td, alookup c.issuer_tokens
                  { issuer_id := iid, token := t.token } = some td ∧
                  td.owner = owner ∧
                  td.metadata.class_id = t.metadata.class_id) pre emitted := by
              refine forall₂_imp_mem hfa ?_
              intro p hp t _ hR
              obtain ⟨hRo, hRi, hRt, td, hRl, hRm⟩ := hR
              have h3p := h3 p (hsubbal.subset hp)
              rw [hRi, hRl, Option.map_some'] at h3p
              injection h3p with h3p
              have hto : td.owner = p.1.owner := congrArg Prod.fst h3p
              have htc : td.metadata.class_id = p.1.class_id :=
                congrArg Prod.snd h3p
              have htmc : t.metadata.class_id = td.metadata.class_id :=
                congrArg TokenMetadata.class_id hRm
              exact ⟨hRt, by rw [htmc, htc], td, by rw [hRt]; exact hRl,
                by rw [hto, hRo], htmc.symm⟩
            have hfix : ∀ p ∈ pre, p.1.owner = owner ∧
                p.1.issuer_id = iid := by
              intro p hp
              obtain ⟨t, -, hR⟩ := forall₂_exists_right hfa p hp
              exact ⟨hR.1, hR.2.1⟩
            obtain ⟨hprecl, hpretok⟩ :=
              seg_nodup_general c iid owner h1 h3 pre hsubbal hfix
            have htsnd : (emitted.map (fun t => t.token)).Nodup := by
              rw [forall₂_map_eq (fun t => t.token) (fun p => p.2) hfa2
                (fun p t hR => hR.1)]
              exact hpretok
            have hclnd : (emitted.map
                (fun t => t.metadata.class_id)).Nodup := by
              rw [forall₂_map_eq (fun t => t.metadata.class_id)
                (fun p => p.1.class_id) hfa2 (fun p t hR => hR.2.1)]
              exact hprecl
            have hfacts : ∀ t ∈ emitted, ∃ td, alookup c.issuer_tokens
                { issuer_id := iid, token := t.token } = some td ∧
                td.owner = owner ∧
                td.metadata.class_id = t.metadata.class_id := by
              intro t ht
              obtain ⟨p, -, hR⟩ := forall₂_exists_left hfa2 t ht
              obtain ⟨-, -, td, hRl, hRo, hRc⟩ := hR
              exact ⟨td, hRl, hRo, hRc⟩
            by_cases hfin : iid ≠ 0 ∧ emitted ≠ []
            · rw [if_pos hfin] at hq
              cases hmapq : alookup c.issuer_id_map iid with
              | none =>
                rw [hmapq] at hq
                exact Option.noConfusion hq
              | some a =>
                rw [hmapq] at hq
                simp only [List.nil_append] at hq
                injection hq with hq
                subst hq
                rw [List.getLast?_singleton] at hlast
                injection hlast with hlast
                injection hlast with hl1 hl2
                have hl2s := hl2.symm
                subst hl2s
                cases burn with
                | false =>
                  rw [if_neg Bool.false_ne_true] at h
                  injection h with h
                  subst h
                  exact swf_softByOwnerLoop iid owner now ts c hswf
                    htsnd hfacts
                | true =>
                  rw [if_pos rfl] at h
                  cases hrb : revokeByOwnerBurnLoop iid owner ts c [] with
                  | mk c1 bpc2 =>
                    rw [hrb] at h
                    simp only [] at h
                    cases hold : alookup c1.supply_by_owner (owner, iid) with
                    | none =>
                      rw [hold] at h
                      exact Option.noConfusion h
                    | some old =>
                      rw [hold] at h
                      simp only [] at h
                      by_cases hlt : old < ts.length
                      · rw [if_pos hlt] at h
                        exact Option.noConfusion h
                      · rw [if_neg hlt] at h
                        by_cases hsbi : alookupD c1.supply_by_issuer iid 0 <
                            ts.length
                        · rw [if_pos hsbi] at h
                          exact Option.noConfusion h
                        · rw [if_neg hsbi] at h
                          exact swf_revoke_by_owner_burn c owner iid ts c1
                            bpc2 old c4 hswf htsnd hclnd hfacts hrb hold h
            · rw [if_neg hfin] at hq
              injection hq with hq
              subst hq
              rw [List.getLast?_nil] at hlast
              exact Option.noConfusion hlast

/-- The mint/revoke operation alphabet of the registry ledger core. -/
inductive Op where
  | register (issuer : AccountId)
  | mint (issuer : AccountId) (spec : List (AccountId × List TokenMetadata))
  | revoke (issuer : AccountId) (tokens : List Nat) (burn : Bool) (now : Nat)
  | revokeByOwner (issuer : AccountId) (owner : AccountId) (burn : Bool)
      (now : Nat)

/-- Execute one operation; `none` = the call panics (state rolled back). -/
def exec : Op → Contract → Option Contract
  | Op.register issuer, c => add_sbt_issuer c issuer
  | Op.mint issuer spec, c => (sbt_mint c issuer spec).map Prod.fst
  | Op.revoke issuer tokens burn now, c =>
    sbt_revoke c issuer tokens burn now
  | Op.revokeByOwner issuer owner burn now, c =>
    sbt_revoke_by_owner c issuer owner burn now

/-- Run a sequence of operations from the empty ledger; aborted calls leave
the state unchanged. -/
def run (ops : List Op) : Contract :=
  ops.foldl (fun c op => (exec op c).getD c) emptyContract

/-- Every single operation preserves well-formedness. -/
theorem swf_exec (op : Op) (c : Contract) (hswf : SWF c) :
    SWF ((exec op c).getD c) := by
  cases hx : exec op c with
  | none => exact hswf
  | some c2 =>
    show SWF c2
    cases op with
    | register issuer => exact swf_add_issuer c issuer c2 hswf hx
    | mint issuer spec =>
      cases hm : sbt_mint c issuer spec with
      | none =>
        rw [show exec (Op.mint issuer spec) c =
          (sbt_mint c issuer spec).map Prod.fst from rfl, hm] at hx
        exact Option.noConfusion hx
      | some pr =>
        obtain ⟨cm, ids⟩ := pr
        rw [show exec (Op.mint issuer spec) c =
          (sbt_mint c issuer spec).map Prod.fst from rfl, hm,
          Option.map_some'] at hx
        injection hx with hx
        subst hx
        exact swf_sbt_mint c issuer spec cm ids hswf hm
    | revoke issuer tokens burn now =>
      exact swf_sbt_revoke c issuer tokens burn now c2 hswf hx
    | revokeByOwner issuer owner burn now =>
      exact swf_sbt_revoke_by_owner c issuer owner burn now c2 hswf hx

/-- Well-formedness holds after any operation sequence. -/
theorem swf_foldl :
    ∀ (ops : List Op) (c : Contract), SWF c →
      SWF (ops.foldl (fun c op => (exec op c).getD c) c) := by
  intro ops
  induction ops with
  | nil =>
    intro c hswf
    exact hswf
  | cons op rest ih =>
    intro c hswf
    rw [List.foldl_cons]
    exact ih _ (swf_exec op c hswf)

/-- The result of any run from the empty ledger is well-formed. -/
theorem swf_run (ops : List Op) : SWF (run ops) :=
  swf_foldl ops emptyContract swf_empty

/-- Claim C1: for every sequence of register/mint/revoke operations from the
empty ledger, and for every issuer id, the issuer counter equals the sum of
that issuer's per-class counters, equals the sum of its per-owner counters,
and equals its live-token count; moreover every per-owner and per-class
counter (with default 0) equals the count of live tokens matching its key. -/
theorem C1_supply_invariant (ops : List Op) :
    (∀ i : Nat,
      alookupD (run ops).supply_by_issuer i 0 = sumClassFor (run ops) i ∧
      alookupD (run ops).supply_by_issuer i 0 = sumOwnerFor (run ops) i ∧
      alookupD (run ops).supply_by_issuer i 0 =
        tokCountByIssuer (run ops) i) ∧
    (∀ (o : AccountId) (i : Nat),
      alookupD (run ops).supply_by_owner (o, i) 0 =
        tokCountByOwner (run ops) o i) ∧
    (∀ i cl : Nat,
      alookupD (run ops).supply_by_class (i, cl) 0 =
        tokCountByClass (run ops) i cl) := by
  have hswf := swf_run ops
  refine ⟨?_, swf_owner_lookup _ hswf, swf_class_lookup _ hswf⟩
  intro i
  refine ⟨?_, ?_, swf_issuer_lookup _ hswf i⟩
  · rw [swf_issuer_lookup _ hswf i, swf_sum_class _ hswf i]
  · rw [swf_issuer_lookup _ hswf i, swf_sum_owner _ hswf i]

/-- A short demonstration run: register an issuer, mint two tokens, burn
one of them. -/
def demoOps : List Op :=
  [Op.register issuerX,
   Op.mint issuerX [(alice, [mdOf 1, mdOf 2])],
   Op.revoke issuerX [1] true 0]

/-- Claim C1 witness: the invariant instantiated on the concrete
demonstration run. -/
theorem C1_supply_invariant_witness :
    alookupD (run demoOps).supply_by_issuer 1 0 =
      sumClassFor (run demoOps) 1 ∧
    alookupD (run demoOps).supply_by_issuer 1 0 =
      sumOwnerFor (run demoOps) 1 ∧
    alookupD (run demoOps).supply_by_owner (alice, 1) 0 =
      tokCountByOwner (run demoOps) alice 1 :=
  ⟨((C1_supply_invariant demoOps).1 1).1,
   ((C1_supply_invariant demoOps).1 1).2.1,
   (C1_supply_invariant demoOps).2.1 alice 1⟩
